import Mathlib

/-!
Verification development for the `elastichash` Go repository
(`elastic_hash.go`, `funnel_hash.go`).

Modelling conventions:
* Go `int` values are modelled as `Int`; Go `uint64`/`uint32` casts are modelled
  as wraparound into `[0, 2^64)` resp. `[0, 2^32)` via `Int.emod`.
* Run-time panics (integer division by zero, index out of range, invalid
  `make` length, the `panic` call in the constructors) are modelled as
  `Except.error msg`; a normal return is `Except.ok`.
* The `float64` load-factor parameter `delta` is modelled as an exact
  rational number; all concrete scenarios in the claims use dyadic values on
  which Go's float64 arithmetic is exact.
* The atomic int32 occupancy counter is modelled as an unbounded `Int`
  (single-threaded semantics; no claim exercises int32 overflow).
* Counted `for` loops are modelled by structural recursion on a `fuel`
  argument equal to the number of remaining iterations (for a loop
  `for attempt := a0; attempt < R; attempt++` the initial fuel is `R - a0`,
  and `fuel = 0` is the loop exit `attempt >= R`).
-/

set_option maxRecDepth 100000

/-- Slot marker: never used. -/
def EMPTY : Int := -1

/-- Slot marker: used then deleted. -/
def TOMBSTONE : Int := -2

/-- Go panic message for integer division by zero. -/
def divByZeroMsg : String := "runtime error: integer divide by zero"

/-- Go panic message for slice index out of range. -/
def indexOOBMsg : String := "runtime error: index out of range"

/-- Go panic message for a negative `make` length. -/
def makeSliceMsg : String := "runtime error: makeslice: len out of range"

/-- Cast of a Go `int` to `uint64` (two's-complement wraparound). -/
def uint64Cast (x : Int) : Nat := (x % (2 ^ 64 : Int)).toNat

/-- Cast of a Go `int` to `uint32` (two's-complement wraparound). -/
def uint32Cast (x : Int) : Nat := (x % (2 ^ 32 : Int)).toNat

/-- Reading `l[p]`; Go panics when the index is out of range. -/
def slotRead (l : List Int) (p : Nat) : Except String Int :=
  match l.get? p with
  | some v => .ok v
  | none => .error indexOOBMsg

/-- SplitMix64 mixing chain of `ElasticHashTable.hashFunc` (the 64-bit value
before the final reduction `x % uint64(mod)`). -/
def splitmix64 (key : Int) (level attempt : Nat) : Nat :=
  let x0 := uint64Cast key
  let x1 := x0 ^^^ (((level <<< 33) ||| attempt) % 2 ^ 64)
  let x2 := (x1 + 0x9E3779B97F4A7C15) % 2 ^ 64
  let x3 := ((x2 ^^^ (x2 >>> 30)) * 0xBF58476D1CE4E5B9) % 2 ^ 64
  let x4 := ((x3 ^^^ (x3 >>> 27)) * 0x94D049BB133111EB) % 2 ^ 64
  x4 ^^^ (x4 >>> 31)

/-- `ElasticHashTable.hashFunc`: `int(x % uint64(mod))`.
Division by zero (a zero-sized level) is a Go run-time panic. -/
def elasticHashFunc (key : Int) (level attempt m : Nat) : Except String Nat :=
  if m = 0 then .error divByZeroMsg
  else .ok (splitmix64 key level attempt % m)

structure ElasticHashTable where
  levels : List (List Int)
  L : Nat
  R : Nat
  size : Int
  capacity : Int
deriving DecidableEq, Repr

/-- The test `delta < 0 || delta >= 1` of both constructors, computed on the
exact rational representation (`num < 0` iff `delta < 0`, and
`den <= num` iff `1 <= delta`; see `deltaOutOfRange_iff`). -/
def deltaOutOfRange (delta : ℚ) : Bool :=
  decide (delta.num < 0) || decide ((delta.den : Int) ≤ delta.num)

/-- `int(q * float64(N))` for a nonnegative rational constant `q`, computed
exactly: `q*N = (q.num*N)/q.den` and Go's `int(·)` truncates toward zero
(`Int.tdiv`). -/
def goTruncMulNat (q : ℚ) (N : Nat) : Int := (q.num * N).tdiv q.den

/-- `int((1 - delta) * float64(N))`, computed exactly:
`(1-delta)*N = ((den - num)*N)/den`; see `capacityFormula_eq_floor`.  The
program computes this in binary64, whose rounding can exceed the exact
value for deltas needing more than 53 significand bits — see `goF64Capacity`
and `capacity_float64_divergence`. -/
def capacityFormula (delta : ℚ) (N : Nat) : Int :=
  (((delta.den : Int) - delta.num) * N).tdiv delta.den

/-- The allocation loop of `NewElasticHashTable` for the first `L-1` levels:
each takes `segSize = min R N` slots, consuming `N`.  Returns the level list
and the remaining `N`. -/
def elasticAllocFront (R : Nat) : Nat → Nat → List (List Int) × Nat
  | 0, n => ([], n)
  | k + 1, n =>
    let segSize := min R n
    let rest := elasticAllocFront R k (n - segSize)
    (List.replicate segSize EMPTY :: rest.1, rest.2)

/-- `NewElasticHashTable`.  The Go function panics (modelled as `.error`)
when `delta < 0 || delta >= 1`; otherwise it allocates `L = 4` levels
(`R = L`), the last level taking `max (N - allocated) 1` slots, and sets
`capacity = int((1-delta)*float64(N))`. -/
def newElasticHashTable (N : Nat) (delta : ℚ) : Except String ElasticHashTable :=
  if deltaOutOfRange delta then .error "delta must be in (0,1)"
  else
    let L := 4
    let maxElems : Int := capacityFormula delta N
    let front := elasticAllocFront L (L - 1) N
    let lastN := max front.2 1
    .ok { levels := front.1 ++ [List.replicate lastN EMPTY]
          L := L
          R := L
          size := 0
          capacity := maxElems }

/-- First unrolled attempt (attempt 0) of `ElasticHashTable.Contains`:
`.inl true` = return true, `.inl false` = goto nextLevel, `.inr tried` =
fall through to the next attempt. -/
def elasticContainsU0 (key : Int) (lvl : List Int) (i R : Nat)
    (tried : List Bool) : Except String (Bool ⊕ List Bool) :=
  if 1 ≤ R then do
    let pos ← elasticHashFunc key i 0 lvl.length
    if pos < tried.length then do
      let tried := tried.set pos true
      let s ← slotRead lvl pos
      if s = key then pure (.inl true)
      else if s = EMPTY then pure (.inl false)
      else pure (.inr tried)
    else pure (.inr tried)
  else pure (.inr tried)

/-- Unrolled attempts `a = 1, 2, 3` of `ElasticHashTable.Contains` (each
guarded by `ht.R >= a+1` and by `pos < len(tried) && !tried[pos]`). -/
def elasticContainsU (key : Int) (lvl : List Int) (i a R : Nat)
    (tried : List Bool) : Except String (Bool ⊕ List Bool) :=
  if a + 1 ≤ R then do
    let pos ← elasticHashFunc key i a lvl.length
    if pos < tried.length ∧ ¬ tried.getD pos false then do
      let tried := tried.set pos true
      let s ← slotRead lvl pos
      if s = key then pure (.inl true)
      else if s = EMPTY then pure (.inl false)
      else pure (.inr tried)
    else pure (.inr tried)
  else pure (.inr tried)

/-- Remaining attempts (`attempt = 4 .. R-1`) of `ElasticHashTable.Contains`
within one level; `fuel = R - attempt`.  `true` = found; `false` = move on
to the next level (either via the EMPTY early exit or by exhausting the
attempts). -/
def elasticContainsTail (key : Int) (lvl : List Int) (i : Nat)
    (tried : List Bool) (attempt : Nat) : Nat → Except String Bool
  | 0 => pure false
  | fuel + 1 => do
    let pos ← elasticHashFunc key i attempt lvl.length
    if pos < tried.length ∧ tried.getD pos false then
      elasticContainsTail key lvl i tried (attempt + 1) fuel
    else
      let tried' := if pos < tried.length then tried.set pos true else tried
      let s ← slotRead lvl pos
      if s = key then pure true
      else if s = EMPTY then pure false
      else elasticContainsTail key lvl i tried' (attempt + 1) fuel

/-- One level of `ElasticHashTable.Contains`: the four unrolled attempts
followed by the `attempt = 4..R-1` loop. -/
def elasticContainsLevel (key : Int) (lvl : List Int) (i R : Nat) :
    Except String Bool := do
  match ← elasticContainsU0 key lvl i R (List.replicate 16 false) with
  | .inl b => pure b
  | .inr tried =>
  match ← elasticContainsU key lvl i 1 R tried with
  | .inl b => pure b
  | .inr tried =>
  match ← elasticContainsU key lvl i 2 R tried with
  | .inl b => pure b
  | .inr tried =>
  match ← elasticContainsU key lvl i 3 R tried with
  | .inl b => pure b
  | .inr tried => elasticContainsTail key lvl i tried 4 (R - 4)

/-- The `for i := 0; i < ht.L-1; i++` search loop of `Contains`;
`fuel = (L-1) - i`. -/
def elasticContainsFrontLoop (ht : ElasticHashTable) (key : Int) (i : Nat) :
    Nat → Except String Bool
  | 0 => pure false
  | fuel + 1 => do
    match ht.levels.get? i with
    | none => .error indexOOBMsg
    | some lvl =>
      if ← elasticContainsLevel key lvl i ht.R then pure true
      else elasticContainsFrontLoop ht key (i + 1) fuel

/-- Final-level scan of `Contains`, fast path (`m` a power of two):
`pos := (start + offset) & mask`; `fuel = m - offset`. -/
def elasticContainsLastMask (key : Int) (lvl : List Int)
    (mask start offset : Nat) : Nat → Except String Bool
  | 0 => pure false
  | fuel + 1 => do
    let pos := (start + offset) &&& mask
    let s ← slotRead lvl pos
    if s = key then pure true
    else if s = EMPTY then pure false
    else elasticContainsLastMask key lvl mask start (offset + 1) fuel

/-- Final-level scan of `Contains`, standard path: `pos := (start+offset) % m`;
`fuel = m - offset`. -/
def elasticContainsLastMod (key : Int) (lvl : List Int)
    (start offset : Nat) : Nat → Except String Bool
  | 0 => pure false
  | fuel + 1 => do
    let pos := (start + offset) % lvl.length
    let s ← slotRead lvl pos
    if s = key then pure true
    else if s = EMPTY then pure false
    else elasticContainsLastMod key lvl start (offset + 1) fuel

/-- `ElasticHashTable.Contains`. -/
def elasticContains (ht : ElasticHashTable) (key : Int) : Except String Bool := do
  if ← elasticContainsFrontLoop ht key 0 (ht.L - 1) then pure true
  else
    let lastIdx := ht.L - 1
    match ht.levels.get? lastIdx with
    | none => .error indexOOBMsg
    | some lvl => do
      let m := lvl.length
      let start ← elasticHashFunc key lastIdx 0 m
      if m &&& (m - 1) = 0 then
        elasticContainsLastMask key lvl (m - 1) start 0 m
      else
        elasticContainsLastMod key lvl start 0 m

/-- The probe loop of `Insert` within one level: up to `R` attempts with the
`tried` dedup array; returns the first position whose slot is EMPTY or
TOMBSTONE, if any; `fuel = R - attempt`. -/
def elasticInsertLevelLoop (key : Int) (lvl : List Int) (i : Nat)
    (tried : List Bool) (attempt : Nat) : Nat → Except String (Option Nat)
  | 0 => pure none
  | fuel + 1 => do
    let pos ← elasticHashFunc key i attempt lvl.length
    if pos < tried.length ∧ tried.getD pos false then
      elasticInsertLevelLoop key lvl i tried (attempt + 1) fuel
    else
      let tried' := if pos < tried.length then tried.set pos true else tried
      let s ← slotRead lvl pos
      if s = EMPTY ∨ s = TOMBSTONE then pure (some pos)
      else elasticInsertLevelLoop key lvl i tried' (attempt + 1) fuel

/-- The `for i := 0; i < ht.L-1; i++` loop of `Insert`; returns the level
index and the slot position accepting the key, if any; `fuel = (L-1) - i`. -/
def elasticInsertFrontLoop (ht : ElasticHashTable) (key : Int) (i : Nat) :
    Nat → Except String (Option (Nat × Nat))
  | 0 => pure none
  | fuel + 1 => do
    match ht.levels.get? i with
    | none => .error indexOOBMsg
    | some lvl =>
      match ← elasticInsertLevelLoop key lvl i (List.replicate 16 false) 0 ht.R with
      | some pos => pure (some (i, pos))
      | none => elasticInsertFrontLoop ht key (i + 1) fuel

/-- Final-level scan of `Insert`, fast path (power-of-two size);
`fuel = m - offset`. -/
def elasticInsertLastMask (lvl : List Int) (mask start offset : Nat) :
    Nat → Except String (Option Nat)
  | 0 => pure none
  | fuel + 1 => do
    let pos := (start + offset) &&& mask
    let s ← slotRead lvl pos
    if s = EMPTY ∨ s = TOMBSTONE then pure (some pos)
    else elasticInsertLastMask lvl mask start (offset + 1) fuel

/-- Final-level scan of `Insert`, standard path; `fuel = m - offset`. -/
def elasticInsertLastMod (lvl : List Int) (start offset : Nat) :
    Nat → Except String (Option Nat)
  | 0 => pure none
  | fuel + 1 => do
    let pos := (start + offset) % lvl.length
    let s ← slotRead lvl pos
    if s = EMPTY ∨ s = TOMBSTONE then pure (some pos)
    else elasticInsertLastMod lvl start (offset + 1) fuel

/-- `ElasticHashTable.Insert`.  Result: new table state and `none` for a nil
error, `some msg` for a returned error; `.error` is a run-time panic. -/
def elasticInsert (ht : ElasticHashTable) (key : Int) :
    Except String (ElasticHashTable × Option String) :=
  if ht.capacity ≤ ht.size then
    .ok (ht, some "hash table is full (max load reached)")
  else do
    if ← elasticContains ht key then pure (ht, none)
    else
      match ← elasticInsertFrontLoop ht key 0 (ht.L - 1) with
      | some (i, pos) =>
        let lvl := ht.levels.getD i []
        pure ({ ht with levels := ht.levels.set i (lvl.set pos key)
                        size := ht.size + 1 }, none)
      | none =>
        let lastIdx := ht.L - 1
        match ht.levels.get? lastIdx with
        | none => .error indexOOBMsg
        | some lvl => do
          let m := lvl.length
          let start ← elasticHashFunc key lastIdx 0 m
          let res ← if m &&& (m - 1) = 0 then
              elasticInsertLastMask lvl (m - 1) start 0 m
            else
              elasticInsertLastMod lvl start 0 m
          match res with
          | some pos =>
            pure ({ ht with levels := ht.levels.set lastIdx (lvl.set pos key)
                            size := ht.size + 1 }, none)
          | none =>
            pure (ht, some "no empty slot found in final level (this should not happen under expected conditions)")

/-- The probe loop of `Remove` within one level (`break` on EMPTY);
`fuel = R - attempt`. -/
def elasticRemoveLevelLoop (key : Int) (lvl : List Int) (i : Nat)
    (tried : List Bool) (attempt : Nat) : Nat → Except String (Option Nat)
  | 0 => pure none
  | fuel + 1 => do
    let pos ← elasticHashFunc key i attempt lvl.length
    if pos < tried.length ∧ tried.getD pos false then
      elasticRemoveLevelLoop key lvl i tried (attempt + 1) fuel
    else
      let tried' := if pos < tried.length then tried.set pos true else tried
      let s ← slotRead lvl pos
      if s = key then pure (some pos)
      else if s = EMPTY then pure none
      else elasticRemoveLevelLoop key lvl i tried' (attempt + 1) fuel

/-- The front-level loop of `Remove`; `fuel = (L-1) - i`. -/
def elasticRemoveFrontLoop (ht : ElasticHashTable) (key : Int) (i : Nat) :
    Nat → Except String (Option (Nat × Nat))
  | 0 => pure none
  | fuel + 1 => do
    match ht.levels.get? i with
    | none => .error indexOOBMsg
    | some lvl =>
      match ← elasticRemoveLevelLoop key lvl i (List.replicate 16 false) 0 ht.R with
      | some pos => pure (some (i, pos))
      | none => elasticRemoveFrontLoop ht key (i + 1) fuel

/-- Final-level scan of `Remove`, fast path; `fuel = m - offset`. -/
def elasticRemoveLastMask (key : Int) (lvl : List Int)
    (mask start offset : Nat) : Nat → Except String (Option Nat)
  | 0 => pure none
  | fuel + 1 => do
    let pos := (start + offset) &&& mask
    let s ← slotRead lvl pos
    if s = key then pure (some pos)
    else if s = EMPTY then pure none
    else elasticRemoveLastMask key lvl mask start (offset + 1) fuel

/-- Final-level scan of `Remove`, standard path; `fuel = m - offset`. -/
def elasticRemoveLastMod (key : Int) (lvl : List Int)
    (start offset : Nat) : Nat → Except String (Option Nat)
  | 0 => pure none
  | fuel + 1 => do
    let pos := (start + offset) % lvl.length
    let s ← slotRead lvl pos
    if s = key then pure (some pos)
    else if s = EMPTY then pure none
    else elasticRemoveLastMod key lvl start (offset + 1) fuel

/-- `ElasticHashTable.Remove`. -/
def elasticRemove (ht : ElasticHashTable) (key : Int) :
    Except String (ElasticHashTable × Bool) := do
  match ← elasticRemoveFrontLoop ht key 0 (ht.L - 1) with
  | some (i, pos) =>
    let lvl := ht.levels.getD i []
    pure ({ ht with levels := ht.levels.set i (lvl.set pos TOMBSTONE)
                    size := ht.size - 1 }, true)
  | none =>
    let lastIdx := ht.L - 1
    match ht.levels.get? lastIdx with
    | none => .error indexOOBMsg
    | some lvl => do
      let m := lvl.length
      let start ← elasticHashFunc key lastIdx 0 m
      let res ← if m &&& (m - 1) = 0 then
          elasticRemoveLastMask key lvl (m - 1) start 0 m
        else
          elasticRemoveLastMod key lvl start 0 m
      match res with
      | some pos =>
        pure ({ ht with levels := ht.levels.set lastIdx (lvl.set pos TOMBSTONE)
                        size := ht.size - 1 }, true)
      | none => pure (ht, false)

/-- `ElasticHashTable.Size`. -/
def elasticSize (ht : ElasticHashTable) : Int := ht.size

/-- `ElasticHashTable.Capacity`. -/
def elasticCapacity (ht : ElasticHashTable) : Int := ht.capacity

/-! ## Funnel hashing (`funnel_hash.go`) -/

/-- One level of the funnel table (`Level` in the source): a flat slot array
logically split into `numBuckets` buckets of `b` slots, plus the cached
power-of-two `mask` (0 when `numBuckets` is not a power of two). -/
structure Level where
  slots : List Int
  numBuckets : Int
  mask : Nat
deriving DecidableEq, Repr

structure FunnelHashTable where
  levels : List Level
  special : List Int
  b : Int
  size : Int
  capacity : Int
deriving DecidableEq, Repr

/-- Reading `l[idx]` at a Go `int` index (panic when negative or too large). -/
def slotReadInt (l : List Int) (idx : Int) : Except String Int :=
  if idx < 0 then .error indexOOBMsg else slotRead l idx.toNat

/-- The `powerOf2 := 1; for powerOf2 < numB { powerOf2 <<= 1 }` loop of
`NewFunnelHashTable`; `fuel` bounds the number of doublings (the loop stops
after at most `numB.toNat` of them since `2^k >= k+1`). -/
def goNextPow2Loop (numB p : Int) : Nat → Int
  | 0 => p
  | fuel + 1 => if p < numB then goNextPow2Loop numB (2 * p) fuel else p

/-- Smallest power of two `>= numB`, starting from 1 (the result of the
doubling loop). -/
def goNextPow2 (numB : Int) : Int := goNextPow2Loop numB 1 (numB.toNat + 1)

/-- `delta < 0.1`, computed on the exact rational representation
(`num/den < 1/10` iff `10*num < den`). -/
def deltaLtTenth (delta : ℚ) : Bool := decide (10 * delta.num < (delta.den : Int))

/-- The per-level fractions used by `NewFunnelHashTable`
(`0.6/0.25/0.1` for `B = 3`, `0.5/0.25/0.15/0.05` for `B = 4`). -/
def funnelSizes (B : Nat) : List ℚ :=
  if B = 4 then [Rat.divInt 1 2, Rat.divInt 1 4, Rat.divInt 3 20, Rat.divInt 1 20]
  else [Rat.divInt 3 5, Rat.divInt 1 4, Rat.divInt 1 10]

/-- The level-allocation loop of `NewFunnelHashTable`: for each fraction,
`size_i = int(sizes[i]*float64(N))` (at least `b`), `numB = size_i / b`
(rounded up to a power of two when that inflates it by at most 25%), the
level gets `numB*b` EMPTY slots.  Panics: division by zero when `b = 0`,
`makeslice` when `numB*b < 0`.  Returns the levels and the total number of
slots allocated. -/
def funnelAllocLevels (N : Nat) (b : Int) :
    List ℚ → Except String (List Level × Int)
  | [] => .ok ([], 0)
  | q :: rest => do
    let size0 := goTruncMulNat q N
    let size1 := if size0 < b then b else size0
    if b = 0 then .error divByZeroMsg
    else
      let numB0 := size1.tdiv b
      let p := goNextPow2 numB0
      let numB := if p ≤ (numB0 * 5).tdiv 4 then p else numB0
      let mask : Nat :=
        if 0 < numB ∧ numB.toNat &&& (numB.toNat - 1) = 0
        then uint32Cast (numB - 1) else 0
      if numB * b < 0 then .error makeSliceMsg
      else
        let lvl : Level :=
          { slots := List.replicate (numB * b).toNat EMPTY
            numBuckets := numB
            mask := mask }
        let (lvls, alloc) ← funnelAllocLevels N b rest
        .ok (lvl :: lvls, numB * b + alloc)

/-- `NewFunnelHashTable`.  Panics (`.error`) when `delta < 0 || delta >= 1`;
chooses `B = 3` levels (`B = 4` when `delta < 0.1`); allocates the levels
and gives the special overflow array the remaining slots (at least 1,
rounded up to a power of two when that inflates it by at most 25%).
The bucket size `b` is not validated. -/
def newFunnelHashTable (N : Nat) (b : Int) (delta : ℚ) :
    Except String FunnelHashTable :=
  if deltaOutOfRange delta then .error "delta must be in (0,1)"
  else do
    let B : Nat := if deltaLtTenth delta then 4 else 3
    let maxElems : Int := capacityFormula delta N
    let (lvls, allocated) ← funnelAllocLevels N b (funnelSizes B)
    let special0 : Int := (N : Int) - allocated
    let special1 := if special0 < 1 then 1 else special0
    let p := goNextPow2 special1
    let specialSize := if p ≤ (special1 * 5).tdiv 4 then p else special1
    .ok { levels := lvls
          special := List.replicate specialSize.toNat EMPTY
          b := b
          size := 0
          capacity := maxElems }

/-- The 32-bit mixing chain of `FunnelHashTable.hashFunc`. -/
def funnelMix32 (key : Int) : Nat :=
  let h0 := (uint32Cast key * 0x9e3779b1) % 2 ^ 32
  let h1 := h0 ^^^ (h0 >>> 15)
  let h2 := (h1 * 0x85ebca6b) % 2 ^ 32
  let h3 := h2 ^^^ (h2 >>> 13)
  let h4 := (h3 * 0xc2b2ae35) % 2 ^ 32
  h4 ^^^ (h4 >>> 16)

/-- `FunnelHashTable.hashFunc`: bucket index in level `levelIdx`
(`h & mask` when the mask is set, otherwise `h % uint32(numBuckets)`,
panicking when `uint32(numBuckets) = 0`). -/
def funnelHashFunc (ht : FunnelHashTable) (key : Int) (levelIdx : Nat) :
    Except String Nat :=
  match ht.levels.get? levelIdx with
  | none => .error indexOOBMsg
  | some lvl =>
    let h := funnelMix32 key
    if 0 < lvl.mask then .ok (h &&& lvl.mask)
    else if uint32Cast lvl.numBuckets = 0 then .error divByZeroMsg
    else .ok (h % uint32Cast lvl.numBuckets)

/-- The duplicate-check loop of `Insert` within one bucket
(`for j := 0; j < ht.b; j++ { if slots[start+j] == key ... }`);
`fuel = b - j`. -/
def funnelBucketFindKey (key : Int) (slots : List Int) (start : Int) (j : Nat) :
    Nat → Except String Bool
  | 0 => pure false
  | fuel + 1 => do
    let s ← slotReadInt slots (start + j)
    if s = key then pure true
    else funnelBucketFindKey key slots start (j + 1) fuel

/-- The empty-slot loop of `Insert` within one bucket: first index `j` with
`slots[start+j] == EMPTY`; `fuel = b - j`. -/
def funnelBucketFindEmpty (slots : List Int) (start : Int) (j : Nat) :
    Nat → Except String (Option Nat)
  | 0 => pure none
  | fuel + 1 => do
    let s ← slotReadInt slots (start + j)
    if s = EMPTY then pure (some j)
    else funnelBucketFindEmpty slots start (j + 1) fuel

/-- The level loop of `FunnelHashTable.Insert`: `.inl true` = duplicate found
(no-op success), `.inl (i, slotIndex)` in `.inr` form below; result:
`none` = fall through to the special array, `some (.inl ())` = already
present, `some (.inr (i, idx))` = write `key` at flat index `idx` of level
`i`; `fuel = len(levels) - i`. -/
def funnelInsertLevelLoop (ht : FunnelHashTable) (key : Int) (i : Nat) :
    Nat → Except String (Option (Unit ⊕ Nat × Nat))
  | 0 => pure none
  | fuel + 1 => do
    match ht.levels.get? i with
    | none => .error indexOOBMsg
    | some lvl => do
      let bucketIdx ← funnelHashFunc ht key i
      let start : Int := bucketIdx * ht.b
      if ← funnelBucketFindKey key lvl.slots start 0 ht.b.toNat then
        pure (some (.inl ()))
      else
        match ← funnelBucketFindEmpty lvl.slots start 0 ht.b.toNat with
        | some j => pure (some (.inr (i, (start + j).toNat)))
        | none => funnelInsertLevelLoop ht key (i + 1) fuel

/-- The special-array probe loop of `Insert` (key check before empty check at
each position); positions are `(start + offset) & mask` on the fast path and
`(start + offset) % m` otherwise — `step` selects the reduction;
`fuel = m - offset`.  Result: `.inl ()` = key already present,
`.inr pos` = write at `pos`. -/
def funnelSpecialInsertLoop (key : Int) (special : List Int)
    (step : Nat → Nat) (start offset : Nat) :
    Nat → Except String (Option (Unit ⊕ Nat))
  | 0 => pure none
  | fuel + 1 => do
    let pos := step (start + offset)
    let s ← slotRead special pos
    if s = key then pure (some (.inl ()))
    else if s = EMPTY then pure (some (.inr pos))
    else funnelSpecialInsertLoop key special step start (offset + 1) fuel

/-- `FunnelHashTable.Insert`. -/
def funnelInsert (ht : FunnelHashTable) (key : Int) :
    Except String (FunnelHashTable × Option String) :=
  if ht.capacity ≤ ht.size then .ok (ht, some "hash table is full")
  else do
    match ← funnelInsertLevelLoop ht key 0 ht.levels.length with
    | some (.inl ()) => pure (ht, none)
    | some (.inr (i, idx)) =>
      let lvl := (ht.levels.getD i { slots := [], numBuckets := 0, mask := 0 })
      pure ({ ht with
                levels := ht.levels.set i { lvl with slots := lvl.slots.set idx key }
                size := ht.size + 1 }, none)
    | none =>
      let m := ht.special.length
      let h0 := (uint32Cast key * 0x9e3779b1) % 2 ^ 32
      if 0 < m ∧ m &&& (m - 1) = 0 then do
        -- fast path: `mask := uint32(m-1)`; the offset loop counts to `uint32(m)`
        let mask := (m - 1) % 2 ^ 32
        let start := h0 &&& mask
        match ← funnelSpecialInsertLoop key ht.special (fun x => x &&& mask) start 0 (m % 2 ^ 32) with
        | some (.inl ()) => pure (ht, none)
        | some (.inr pos) =>
          pure ({ ht with special := ht.special.set pos key
                          size := ht.size + 1 }, none)
        | none => pure (ht, some "special array is full - insertion failed")
      else if m % 2 ^ 32 = 0 then .error divByZeroMsg
      else do
        let start := h0 % (m % 2 ^ 32)
        match ← funnelSpecialInsertLoop key ht.special (fun x => x % m) start 0 m with
        | some (.inl ()) => pure (ht, none)
        | some (.inr pos) =>
          pure ({ ht with special := ht.special.set pos key
                          size := ht.size + 1 }, none)
        | none => pure (ht, some "special array is full - insertion failed")

/-- One slot check of the `Contains` bucket scan: `.inl true` = found,
`.inl false` = EMPTY hit (goto nextLevel), `.inr ()` = keep scanning. -/
def funnelContainsSlot (key : Int) (slots : List Int) (idx : Int) :
    Except String (Bool ⊕ Unit) := do
  let s ← slotReadInt slots idx
  if s = key then pure (.inl true)
  else if s = EMPTY then pure (.inl false)
  else pure (.inr ())

/-- The remainder bucket-scan loop of `Contains` (`for j := j0; j < b; j++`);
`fuel = b - j`.  `true` = found, `false` = move to the next level. -/
def funnelContainsBucketLoop (key : Int) (slots : List Int) (start : Int)
    (j : Nat) : Nat → Except String Bool
  | 0 => pure false
  | fuel + 1 => do
    match ← funnelContainsSlot key slots (start + j) with
    | .inl b => pure b
    | .inr () => funnelContainsBucketLoop key slots start (j + 1) fuel

/-- The bucket scan of `Contains` for one level, with the unrolled
`switch { case b >= 8 ...; case b >= 4 ...; default ... }` of the source.
`true` = found, `false` = move to the next level. -/
def funnelContainsBucket (ht : FunnelHashTable) (key : Int)
    (slots : List Int) (start : Int) : Except String Bool := do
  if 8 ≤ ht.b then
    match ← funnelContainsSlot key slots start with
    | .inl b => pure b
    | .inr () =>
    match ← funnelContainsSlot key slots (start + 1) with
    | .inl b => pure b
    | .inr () =>
    match ← funnelContainsSlot key slots (start + 2) with
    | .inl b => pure b
    | .inr () =>
    match ← funnelContainsSlot key slots (start + 3) with
    | .inl b => pure b
    | .inr () =>
    match ← funnelContainsSlot key slots (start + 4) with
    | .inl b => pure b
    | .inr () =>
    match ← funnelContainsSlot key slots (start + 5) with
    | .inl b => pure b
    | .inr () =>
    match ← funnelContainsSlot key slots (start + 6) with
    | .inl b => pure b
    | .inr () =>
    match ← funnelContainsSlot key slots (start + 7) with
    | .inl b => pure b
    | .inr () => funnelContainsBucketLoop key slots start 8 (ht.b.toNat - 8)
  else if 4 ≤ ht.b then
    match ← funnelContainsSlot key slots start with
    | .inl b => pure b
    | .inr () =>
    match ← funnelContainsSlot key slots (start + 1) with
    | .inl b => pure b
    | .inr () =>
    match ← funnelContainsSlot key slots (start + 2) with
    | .inl b => pure b
    | .inr () =>
    match ← funnelContainsSlot key slots (start + 3) with
    | .inl b => pure b
    | .inr () => funnelContainsBucketLoop key slots start 4 (ht.b.toNat - 4)
  else
    funnelContainsBucketLoop key slots start 0 ht.b.toNat

/-- The level loop of `Contains`; `fuel = len(levels) - i`. -/
def funnelContainsLevelLoop (ht : FunnelHashTable) (key : Int) (i : Nat) :
    Nat → Except String Bool
  | 0 => pure false
  | fuel + 1 => do
    match ht.levels.get? i with
    | none => .error indexOOBMsg
    | some lvl => do
      let bucketIdx ← funnelHashFunc ht key i
      let start : Int := bucketIdx * ht.b
      if ← funnelContainsBucket ht key lvl.slots start then pure true
      else funnelContainsLevelLoop ht key (i + 1) fuel

/-- The special-array probe loop of `Contains`; `fuel = m - offset`. -/
def funnelSpecialContainsLoop (key : Int) (special : List Int)
    (step : Nat → Nat) (start offset : Nat) : Nat → Except String Bool
  | 0 => pure false
  | fuel + 1 => do
    let pos := step (start + offset)
    let s ← slotRead special pos
    if s = key then pure true
    else if s = EMPTY then pure false
    else funnelSpecialContainsLoop key special step start (offset + 1) fuel

/-- `FunnelHashTable.Contains`. -/
def funnelContains (ht : FunnelHashTable) (key : Int) : Except String Bool := do
  if ← funnelContainsLevelLoop ht key 0 ht.levels.length then pure true
  else
    let m := ht.special.length
    let h0 := (uint32Cast key * 0x9e3779b1) % 2 ^ 32
    if 0 < m ∧ m &&& (m - 1) = 0 then
      -- fast path: `mask := uint32(m-1)`; the offset loop counts to `uint32(m)`
      funnelSpecialContainsLoop key ht.special (fun x => x &&& ((m - 1) % 2 ^ 32))
        (h0 &&& ((m - 1) % 2 ^ 32)) 0 (m % 2 ^ 32)
    else if m % 2 ^ 32 = 0 then .error divByZeroMsg
    else
      funnelSpecialContainsLoop key ht.special (fun x => x % m) (h0 % (m % 2 ^ 32)) 0 m

/-- `FunnelHashTable.Size`. -/
def funnelSize (ht : FunnelHashTable) : Int := ht.size

/-- `FunnelHashTable.Capacity`. -/
def funnelCapacity (ht : FunnelHashTable) : Int := ht.capacity

/-- Modelled from the spec: the bucket scan of the missing
`FunnelHashTable.Remove` ("same traversal as Contains"): scan the targeted
bucket in slot order; a match is the removal position, EMPTY moves to the
next level; `fuel = b - j`.  Result: `.inl j` = match at offset `j`,
`.inr ()` handled by the caller loop. -/
def funnelRemoveBucketLoop (key : Int) (slots : List Int) (start : Int)
    (j : Nat) : Nat → Except String (Option Nat)
  | 0 => pure none
  | fuel + 1 => do
    let s ← slotReadInt slots (start + j)
    if s = key then pure (some j)
    else if s = EMPTY then pure none
    else funnelRemoveBucketLoop key slots start (j + 1) fuel

/-- Modelled from the spec: the level loop of the missing
`FunnelHashTable.Remove`; same traversal as `Contains`;
`fuel = len(levels) - i`. -/
def funnelRemoveLevelLoop (ht : FunnelHashTable) (key : Int) (i : Nat) :
    Nat → Except String (Option (Nat × Nat))
  | 0 => pure none
  | fuel + 1 => do
    match ht.levels.get? i with
    | none => .error indexOOBMsg
    | some lvl => do
      let bucketIdx ← funnelHashFunc ht key i
      let start : Int := bucketIdx * ht.b
      match ← funnelRemoveBucketLoop key lvl.slots start 0 ht.b.toNat with
      | some j => pure (some (i, (start + j).toNat))
      | none => funnelRemoveLevelLoop ht key (i + 1) fuel

/-- Modelled from the spec: the special-array probe loop of the missing
`FunnelHashTable.Remove`; same probe order as `Contains`;
`fuel = m - offset`. -/
def funnelSpecialRemoveLoop (key : Int) (special : List Int)
    (step : Nat → Nat) (start offset : Nat) : Nat → Except String (Option Nat)
  | 0 => pure none
  | fuel + 1 => do
    let pos := step (start + offset)
    let s ← slotRead special pos
    if s = key then pure (some pos)
    else if s = EMPTY then pure none
    else funnelSpecialRemoveLoop key special step start (offset + 1) fuel

/-- Modelled from the spec: the missing `FunnelHashTable.Remove` — "same
traversal as Contains; replace the matching slot with TOMBSTONE; decrement
occupancy; return whether found".  (The method exists in the repository —
`example.go` calls `fht.Remove(0)` — but its body is not among the provided
sources.) -/
def funnelRemove (ht : FunnelHashTable) (key : Int) :
    Except String (FunnelHashTable × Bool) := do
  match ← funnelRemoveLevelLoop ht key 0 ht.levels.length with
  | some (i, idx) =>
    let lvl := (ht.levels.getD i { slots := [], numBuckets := 0, mask := 0 })
    pure ({ ht with
              levels := ht.levels.set i { lvl with slots := lvl.slots.set idx TOMBSTONE }
              size := ht.size - 1 }, true)
  | none =>
    let m := ht.special.length
    let h0 := (uint32Cast key * 0x9e3779b1) % 2 ^ 32
    let res ←
      if 0 < m ∧ m &&& (m - 1) = 0 then
        funnelSpecialRemoveLoop key ht.special (fun x => x &&& ((m - 1) % 2 ^ 32))
          (h0 &&& ((m - 1) % 2 ^ 32)) 0 (m % 2 ^ 32)
      else if m % 2 ^ 32 = 0 then .error divByZeroMsg
      else
        funnelSpecialRemoveLoop key ht.special (fun x => x % m) (h0 % (m % 2 ^ 32)) 0 m
    match res with
    | some pos =>
      pure ({ ht with special := ht.special.set pos TOMBSTONE
                      size := ht.size - 1 }, true)
    | none => pure (ht, false)

/-! ## Operation sequences and well-formedness -/

deriving instance DecidableEq for Except

/-- An externally invoked mutating operation. -/
inductive TOp where
  | ins (k : Int)
  | rem (k : Int)
deriving DecidableEq, Repr

/-- One mutating step on an elastic table (the returned error/boolean is
discarded; a panic aborts the run). -/
def eStep (ht : ElasticHashTable) : TOp → Except String ElasticHashTable
  | .ins k => do pure (← elasticInsert ht k).1
  | .rem k => do pure (← elasticRemove ht k).1

/-- Run a sequence of operations on an elastic table. -/
def eRun (ht : ElasticHashTable) : List TOp → Except String ElasticHashTable
  | [] => .ok ht
  | op :: ops => do eRun (← eStep ht op) ops

/-- One mutating step on a funnel table. -/
def fStep (ht : FunnelHashTable) : TOp → Except String FunnelHashTable
  | .ins k => do pure (← funnelInsert ht k).1
  | .rem k => do pure (← funnelRemove ht k).1

/-- Run a sequence of operations on a funnel table. -/
def fRun (ht : FunnelHashTable) : List TOp → Except String FunnelHashTable
  | [] => .ok ht
  | op :: ops => do fRun (← fStep ht op) ops

/-- Structural well-formedness of an elastic table, as established by
`newElasticHashTable` for `N ≥ 9`: four levels (`L = R = 4`), the three
front levels nonempty with at most 16 slots (so every probe index fits the
16-slot `tried` array), and a nonempty final level. -/
def elasticWF (ht : ElasticHashTable) : Bool :=
  ht.L == 4 && ht.R == 4 && ht.levels.length == 4 &&
  (ht.levels.take 3).all (fun lvl => decide (0 < lvl.length) && decide (lvl.length ≤ 16)) &&
  decide (0 < (ht.levels.getD 3 []).length)

/-- Structural well-formedness of a funnel table, as established by
`newFunnelHashTable` for `1 ≤ b` and `N < 2^32`: positive bucket size,
every level has positive bucket count with consistent flat-slot length and a
sound bucket-index reduction (mask below the bucket count, or a nonzero
`uint32` modulus), and a nonempty special array shorter than `2^32`. -/
def funnelWF (ht : FunnelHashTable) : Bool :=
  decide (1 ≤ ht.b) &&
  ht.levels.all (fun lvl =>
    decide (0 < lvl.numBuckets) &&
    decide (lvl.slots.length = (lvl.numBuckets * ht.b).toNat) &&
    decide (lvl.mask < lvl.numBuckets.toNat) &&
    (decide (0 < lvl.mask) || decide (0 < uint32Cast lvl.numBuckets))) &&
  decide (0 < ht.special.length) &&
  decide (ht.special.length < 2 ^ 32)

/-! ## Concrete scenarios -/

/-- The keys `0, 2, ..., 48` of Scenario A/B. -/
def scenarioEvens : List Int := (List.range 25).map (fun i => (2 * i : Int))

/-- Insert a list of keys in order; the boolean records whether every insert
returned a nil error. -/
def elasticInsertAllOk : ElasticHashTable → List Int →
    Except String (ElasticHashTable × Bool)
  | ht, [] => .ok (ht, true)
  | ht, k :: ks => do
    let (ht', e) ← elasticInsert ht k
    let (ht'', ok) ← elasticInsertAllOk ht' ks
    .ok (ht'', e.isNone && ok)

/-- Insert a list of keys in order (funnel variant). -/
def funnelInsertAllOk : FunnelHashTable → List Int →
    Except String (FunnelHashTable × Bool)
  | ht, [] => .ok (ht, true)
  | ht, k :: ks => do
    let (ht', e) ← funnelInsert ht k
    let (ht'', ok) ← funnelInsertAllOk ht' ks
    .ok (ht'', e.isNone && ok)

/-- The full observable trace of Scenario A on the elastic table.  The
integer list is `[Capacity; Size after the 25 insertions; Size after
Remove(4); Size after Insert(4)]`; the boolean list is
`[all 25 inserts returned nil; Contains(4); Contains(5); Remove(4) result;
Contains(4) after the removal; Insert(4) returned nil; Contains(4) after the
reinsertion]`. -/
def elasticScenarioA : Except String (List Int × List Bool) := do
  let ht0 ← newElasticHashTable 100 (Rat.divInt 1 4)
  let (ht1, ok1) ← elasticInsertAllOk ht0 scenarioEvens
  let c4 ← elasticContains ht1 4
  let c5 ← elasticContains ht1 5
  let (ht2, r4) ← elasticRemove ht1 4
  let c4b ← elasticContains ht2 4
  let (ht3, e4) ← elasticInsert ht2 4
  let c4c ← elasticContains ht3 4
  pure ([elasticCapacity ht0, elasticSize ht1, elasticSize ht2, elasticSize ht3],
        [ok1, c4, c5, r4, c4b, e4.isNone, c4c])

/-- C3: on an Elastic table with `N = 100`, `delta = 0.25` the capacity is 75;
inserting `0, 2, ..., 48` succeeds and gives `Size() = 25`,
`Contains(4) = true`, `Contains(5) = false`; `Remove(4)` returns true and
gives `Size() = 24`, `Contains(4) = false`; `Insert(4)` succeeds and gives
`Size() = 25`, `Contains(4) = true`. -/
theorem elastic_scenario_A :
    elasticScenarioA =
      .ok ([75, 25, 24, 25], [true, true, false, true, false, true, true]) := by
  decide

/-- A reachable full elastic table: `N = 16`, `delta = 15/16`
(capacity 1), after `Insert(0)`. -/
def elasticFullTable : ElasticHashTable :=
  match (do
      let ht ← newElasticHashTable 16 (Rat.divInt 15 16)
      let (ht, _) ← elasticInsert ht 0
      pure ht : Except String ElasticHashTable) with
  | .ok ht => ht
  | .error _ => { levels := [], L := 0, R := 0, size := 0, capacity := 0 }

/-- A reachable full funnel table: `N = 4`, `b = 1`, `delta = 1/2`
(capacity 2), after `Insert(0)` and `Insert(1)`. -/
def funnelFullTable : FunnelHashTable :=
  match (do
      let ht ← newFunnelHashTable 4 1 (Rat.divInt 1 2)
      let (ht, _) ← funnelInsertAllOk ht [0, 1]
      pure ht : Except String FunnelHashTable) with
  | .ok ht => ht
  | .error _ => { levels := [], special := [], b := 0, size := 0, capacity := 0 }

/-- C4: for both variants, when occupancy equals capacity, Insert of a key
that is not currently present returns the CapacityExceeded error and leaves
the table (every slot and the occupancy counter) unchanged. -/
theorem insert_at_capacity_noop (eht : ElasticHashTable) (fht : FunnelHashTable)
    (k j : Int)
    (he : elasticSize eht = elasticCapacity eht)
    (hf : funnelSize fht = funnelCapacity fht)
    (hke : elasticContains eht k ≠ .ok true)
    (hjf : funnelContains fht j ≠ .ok true) :
    elasticInsert eht k = .ok (eht, some "hash table is full (max load reached)") ∧
    funnelInsert fht j = .ok (fht, some "hash table is full") := by
  constructor
  · have hle : eht.capacity ≤ eht.size := le_of_eq he.symm
    unfold elasticInsert
    simp [hle]
  · have hle : fht.capacity ≤ fht.size := le_of_eq hf.symm
    unfold funnelInsert
    simp [hle]

/-- Witness for `insert_at_capacity_noop` at the concrete full tables. -/
theorem insert_at_capacity_noop_witness :
    (elasticSize elasticFullTable = elasticCapacity elasticFullTable ∧
     funnelSize funnelFullTable = funnelCapacity funnelFullTable ∧
     elasticContains elasticFullTable 1 ≠ .ok true ∧
     funnelContains funnelFullTable 7 ≠ .ok true) ∧
    (elasticInsert elasticFullTable 1 =
        .ok (elasticFullTable, some "hash table is full (max load reached)") ∧
     funnelInsert funnelFullTable 7 = .ok (funnelFullTable, some "hash table is full")) :=
  ⟨⟨by decide, by decide, by decide, by decide⟩,
   insert_at_capacity_noop elasticFullTable funnelFullTable 1 7
     (by decide) (by decide) (by decide) (by decide)⟩

/-- C5 counterexample: in the reachable state `elasticFullTable`
(constructed with valid parameters, occupancy = capacity = 1) the key 0 is
present, yet `Insert(0)` returns the CapacityExceeded error rather than the
claimed no-op success: the capacity guard runs before the duplicate check. -/
theorem duplicate_insert_at_capacity_errors :
    (do
      let ht ← newElasticHashTable 16 (Rat.divInt 15 16)
      let (ht, _) ← elasticInsert ht 0
      pure ht : Except String ElasticHashTable) = .ok elasticFullTable ∧
    elasticContains elasticFullTable 0 = .ok true ∧
    elasticSize elasticFullTable = elasticCapacity elasticFullTable ∧
    elasticInsert elasticFullTable 0 =
      .ok (elasticFullTable, some "hash table is full (max load reached)") := by
  decide

/-- C6 counterexample: `NewFunnelHashTable(100, -1, 1/4)` has bucket size
`-1 < 1` but does not fail — it returns a table (no ConfigurationError, no
panic): the funnel constructor never validates the bucket size. -/
theorem funnel_new_negative_bucket_succeeds :
    (newFunnelHashTable 100 (-1) (Rat.divInt 1 4)).toOption.isSome = true := by
  decide

/-- The C9 elastic counterexample trace: `N = 11`, `delta = 0` (capacity 11),
insert `0..10` (all succeed, within capacity), `Remove(4)` (size 10 < 11),
then `Insert(3140)`.  Outputs: `[Size, Capacity]` before the failing insert,
the error returned by `Insert(3140)`, and a flag checking that all the
preparatory operations succeeded and the failing insert left the table
unchanged. -/
def elasticC9Trace : Except String (List Int × Option String × Bool) := do
  let ht0 ← newElasticHashTable 11 (Rat.divInt 0 1)
  let (ht1, ok) ← elasticInsertAllOk ht0 ((List.range 11).map Int.ofNat)
  let (ht2, r) ← elasticRemove ht1 4
  let (ht3, e) ← elasticInsert ht2 3140
  pure ([elasticSize ht2, elasticCapacity ht2], e, ok && r && decide (ht3 = ht2))

/-- The C9 funnel counterexample trace: `N = 9`, `b = 1`, `delta = 0`
(capacity 9), insert `0..7` (all succeed), then `Insert(8)` at size 8 < 9. -/
def funnelC9Trace : Except String (List Int × Option String × Bool) := do
  let ht0 ← newFunnelHashTable 9 1 (Rat.divInt 0 1)
  let (ht1, ok) ← funnelInsertAllOk ht0 ((List.range 8).map Int.ofNat)
  let (ht2, e) ← funnelInsert ht1 8
  pure ([funnelSize ht1, funnelCapacity ht1], e, ok && decide (ht2 = ht1))

/-- C9 counterexample: on validly constructed tables of both variants,
insert sequences that respect the capacity precondition can reach the
final-region-exhausted branch: the elastic table (`N = 11`, `delta = 0`)
returns the InternalInvariantViolation error for `Insert(3140)` at
occupancy 10 < capacity 11, and the funnel table (`N = 9`, `b = 1`,
`delta = 0`) returns it for `Insert(8)` at occupancy 8 < capacity 9. -/
theorem internal_violation_reachable :
    elasticC9Trace = .ok ([10, 11],
      some "no empty slot found in final level (this should not happen under expected conditions)",
      true) ∧
    funnelC9Trace = .ok ([8, 9], some "special array is full - insertion failed", true) := by
  decide

/-- The elastic table constructed with `N = 8`, `delta = 15/16`
(capacity 0; level sizes 4, 4, 0, 1). -/
def elasticN8Table : ElasticHashTable :=
  match newElasticHashTable 8 (Rat.divInt 15 16) with
  | .ok ht => ht
  | .error _ => { levels := [], L := 0, R := 0, size := 0, capacity := 0 }

/-- C10 counterexample: for `N = 8` with the valid `delta = 15/16` the
capacity is 0, and `Insert(5)` on the fresh table returns the
CapacityExceeded error without ever evaluating the hash function — it does
not panic, contradicting the claim that every subsequent Insert call panics
with a division by zero. -/
theorem elastic_N8_insert_no_panic :
    newElasticHashTable 8 (Rat.divInt 15 16) = .ok elasticN8Table ∧
    elasticN8Table.levels.map List.length = [4, 4, 0, 1] ∧
    elasticN8Table.capacity = 0 ∧
    elasticInsert elasticN8Table 5 =
      .ok (elasticN8Table, some "hash table is full (max load reached)") := by
  decide

/-! ## Canonical probe sequences

The probe loops of the three elastic operations visit, within one level, the
same sequence of positions: attempts in order, skipping a position already
visited (the `tried` array).  `probeAux` computes that visited-position list;
the scan functions below replay the loops as plain list scans.  The final
level is a wraparound linear scan whose position list is `lastAux`. -/

/-- Visited positions of the per-level probe loops, with the same `tried`
dedup discipline as the code; `fuel = R - attempt`. -/
def probeAux (key : Int) (i m : Nat) (tried : List Bool) (attempt : Nat) :
    Nat → List Nat
  | 0 => []
  | fuel + 1 =>
    let pos := splitmix64 key i attempt % m
    if pos < tried.length ∧ tried.getD pos false then
      probeAux key i m tried (attempt + 1) fuel
    else
      pos :: probeAux key i m
        (if pos < tried.length then tried.set pos true else tried) (attempt + 1) fuel

/-- Visited positions of a full `R`-attempt probe of level `i` (size `m`). -/
def probeList (key : Int) (i m R : Nat) : List Nat :=
  probeAux key i m (List.replicate 16 false) 0 R

/-- Visited positions of the final-level wraparound scan; `fuel = m - offset`. -/
def lastAux (m start offset : Nat) : Nat → List Nat
  | 0 => []
  | fuel + 1 => ((start + offset) % m) :: lastAux m start (offset + 1) fuel

/-- All positions of the final-level scan of a level of size `m` from `start`. -/
def lastList (m start : Nat) : List Nat := lastAux m start 0 m

/-- Replay of a `Contains`-style scan over a position list: a key match is a
hit, EMPTY ends the scan unsuccessfully, anything else continues. -/
def scanContains (lvl : List Int) (key : Int) : List Nat → Bool
  | [] => false
  | p :: ps =>
    if lvl.getD p 0 = key then true
    else if lvl.getD p 0 = EMPTY then false
    else scanContains lvl key ps

/-- Replay of an `Insert`-style scan: first position holding EMPTY or
TOMBSTONE. -/
def scanFree (lvl : List Int) : List Nat → Option Nat
  | [] => none
  | p :: ps =>
    if lvl.getD p 0 = EMPTY ∨ lvl.getD p 0 = TOMBSTONE then some p
    else scanFree lvl ps

/-- Replay of a `Remove`-style scan: first position holding the key, stopping
unsuccessfully at EMPTY. -/
def scanKey (lvl : List Int) (key : Int) : List Nat → Option Nat
  | [] => none
  | p :: ps =>
    if lvl.getD p 0 = key then some p
    else if lvl.getD p 0 = EMPTY then none
    else scanKey lvl key ps

/-- A positive number with `m &&& (m-1) = 0` is the power of two `2^(log2 m)`. -/
theorem pow2_of_and_pred (m : Nat) (hm : 0 < m) (h : m &&& (m - 1) = 0) :
    m = 2 ^ Nat.log2 m := by
  by_contra hne
  have h1 : 2 ^ Nat.log2 m ≤ m := Nat.log2_self_le (by omega)
  have h2 : m < 2 ^ (Nat.log2 m + 1) := Nat.lt_log2_self
  have h3 : 2 ^ Nat.log2 m < m := lt_of_le_of_ne h1 fun e => hne e.symm
  have hp : 0 < 2 ^ Nat.log2 m := Nat.pos_pow_of_pos _ (by omega)
  have hm1 : m.testBit (Nat.log2 m) = true := by
    rw [Nat.testBit_to_div_mod]
    have hd : m / 2 ^ Nat.log2 m = 1 := by
      have hlo : 1 ≤ m / 2 ^ Nat.log2 m := (Nat.le_div_iff_mul_le hp).mpr (by omega)
      have hhi : m / 2 ^ Nat.log2 m < 2 := by
        rw [Nat.div_lt_iff_lt_mul hp]
        calc m < 2 ^ (Nat.log2 m + 1) := h2
        _ = 2 * 2 ^ Nat.log2 m := by ring
      omega
    simp [hd]
  have hm2 : (m - 1).testBit (Nat.log2 m) = true := by
    rw [Nat.testBit_to_div_mod]
    have hd : (m - 1) / 2 ^ Nat.log2 m = 1 := by
      have hlo : 1 ≤ (m - 1) / 2 ^ Nat.log2 m := (Nat.le_div_iff_mul_le hp).mpr (by omega)
      have hhi : (m - 1) / 2 ^ Nat.log2 m < 2 := by
        rw [Nat.div_lt_iff_lt_mul hp]
        have : m - 1 < m := by omega
        calc m - 1 < 2 ^ (Nat.log2 m + 1) := by omega
        _ = 2 * 2 ^ Nat.log2 m := by ring
      omega
    simp [hd]
  have hbit : (m &&& (m - 1)).testBit (Nat.log2 m) = true := by
    rw [Nat.testBit_and, hm1, hm2]; rfl
  rw [h] at hbit
  simp [Nat.zero_testBit] at hbit

/-- Bit-masking by `m - 1` is reduction modulo `m` for a power of two `m`. -/
theorem and_pred_eq_mod (m : Nat) (hm : 0 < m) (h : m &&& (m - 1) = 0) (x : Nat) :
    x &&& (m - 1) = x % m := by
  conv_lhs => rw [pow2_of_and_pred m hm h]
  conv_rhs => rw [pow2_of_and_pred m hm h]
  exact Nat.and_pow_two_sub_one_eq_mod x _

/-- Reading in bounds succeeds and yields `getD`. -/
theorem slotRead_ok {l : List Int} {p : Nat} (h : p < l.length) :
    slotRead l p = .ok (l.getD p 0) := by
  have hv' : l[p]? = some (l.getD p 0) := by
    rw [List.getD_eq_getElem?_getD]
    rcases hx : l[p]? with _ | v
    · rw [List.getElem?_eq_none_iff] at hx; omega
    · rfl
  unfold slotRead
  rw [List.get?_eq_getElem?, hv']

/-- `getD` after `set` at the written index. -/
theorem listGetDSetSelf {α : Type} (l : List α) (i : Nat) (v d : α)
    (h : i < l.length) : (l.set i v).getD i d = v := by
  induction l generalizing i with
  | nil => simp at h
  | cons a t ih =>
    cases i with
    | zero => simp [List.getD]
    | succ n =>
      simp only [List.set]
      have := ih n (by simpa using h)
      simpa [List.getD] using this

/-- `getD` after `set` at a different index. -/
theorem listGetDSetNe {α : Type} (l : List α) (i j : Nat) (v d : α)
    (h : i ≠ j) : (l.set i v).getD j d = l.getD j d := by
  induction l generalizing i j with
  | nil => simp
  | cons a t ih =>
    cases i with
    | zero =>
      cases j with
      | zero => exact absurd rfl h
      | succ n => simp [List.getD]
    | succ n =>
      cases j with
      | zero => simp [List.getD]
      | succ k => simpa [List.getD] using ih n k (by omega)

/-- Every visited probe position is in range. -/
theorem probeAux_mem_lt {key : Int} {i m : Nat} (hm : 0 < m) :
    ∀ {tried attempt fuel} {p : Nat}, p ∈ probeAux key i m tried attempt fuel → p < m := by
  intro tried attempt fuel
  induction fuel generalizing tried attempt with
  | zero => intro p hp; simp [probeAux] at hp
  | succ fuel ih =>
    intro p hp
    rw [probeAux] at hp
    split at hp
    · exact ih hp
    · rcases List.mem_cons.mp hp with h | h
      · subst h; exact Nat.mod_lt _ hm
      · exact ih h

/-- Positions already marked in `tried` are never visited (levels fit the
`tried` array: `m ≤ tried.length`). -/
theorem probeAux_not_mem_marked {key : Int} {i m : Nat} (hm : 0 < m) :
    ∀ {tried : List Bool} {attempt fuel} {p : Nat},
      m ≤ tried.length → tried.getD p false = true →
      p ∉ probeAux key i m tried attempt fuel := by
  intro tried attempt fuel
  induction fuel generalizing tried attempt with
  | zero => intro p _ _ hp; simp [probeAux] at hp
  | succ fuel ih =>
    intro p hlen hmark hp
    rw [probeAux] at hp
    have hpos : splitmix64 key i attempt % m < m := Nat.mod_lt _ hm
    have hlt : splitmix64 key i attempt % m < tried.length := by omega
    split at hp
    · exact ih hlen hmark hp
    · next hcond =>
      rcases List.mem_cons.mp hp with h | h
      · exact hcond ⟨hlt, h ▸ hmark⟩
      · have hne : splitmix64 key i attempt % m ≠ p := by
          intro e
          exact hcond ⟨hlt, e ▸ hmark⟩
        have hmark' : ((tried.set (splitmix64 key i attempt % m) true).getD p false) = true := by
          rw [listGetDSetNe _ _ _ _ _ hne]; exact hmark
        exact ih (by simpa using hlen) hmark' h

/-- The visited probe positions are pairwise distinct. -/
theorem probeAux_nodup {key : Int} {i m : Nat} (hm : 0 < m) :
    ∀ {tried : List Bool} {attempt fuel},
      m ≤ tried.length → (probeAux key i m tried attempt fuel).Nodup := by
  intro tried attempt fuel
  induction fuel generalizing tried attempt with
  | zero => intro _; simp [probeAux]
  | succ fuel ih =>
    intro hlen
    rw [probeAux]
    have hpos : splitmix64 key i attempt % m < m := Nat.mod_lt _ hm
    have hlt : splitmix64 key i attempt % m < tried.length := by omega
    split
    · exact ih hlen
    · refine List.nodup_cons.mpr ⟨?_, ih (by simpa using hlen)⟩
      apply probeAux_not_mem_marked hm (by simpa using hlen)
      rw [listGetDSetSelf _ _ _ _ hlt]

/-- Length of the final-level scan list. -/
theorem lastAux_length (m start offset fuel : Nat) :
    (lastAux m start offset fuel).length = fuel := by
  induction fuel generalizing offset with
  | zero => simp [lastAux]
  | succ fuel ih => simp [lastAux, ih]

/-- Membership in the final-level scan list. -/
theorem lastAux_mem_iff {m start offset fuel q : Nat} :
    q ∈ lastAux m start offset fuel ↔
      ∃ j, offset ≤ j ∧ j < offset + fuel ∧ q = (start + j) % m := by
  induction fuel generalizing offset with
  | zero => simp [lastAux]; omega
  | succ fuel ih =>
    simp only [lastAux, List.mem_cons, ih]
    constructor
    · rintro (h | ⟨j, h1, h2, h3⟩)
      · exact ⟨offset, by omega, by omega, h⟩
      · exact ⟨j, by omega, by omega, h3⟩
    · rintro ⟨j, h1, h2, h3⟩
      rcases Nat.eq_or_lt_of_le h1 with he | hl
      · exact Or.inl (by rw [h3, ← he])
      · exact Or.inr ⟨j, by omega, by omega, h3⟩

/-- Every position of the final-level scan is in range. -/
theorem lastAux_mem_lt {m start offset fuel q : Nat} (hm : 0 < m)
    (h : q ∈ lastAux m start offset fuel) : q < m := by
  rcases lastAux_mem_iff.mp h with ⟨j, _, _, rfl⟩
  exact Nat.mod_lt _ hm

/-- The final-level scan visits pairwise distinct positions when it makes at
most `m` steps. -/
theorem lastAux_nodup {m start : Nat} (hm : 0 < m) :
    ∀ {offset fuel}, fuel ≤ m → (lastAux m start offset fuel).Nodup := by
  intro offset fuel
  induction fuel generalizing offset with
  | zero => intro _; simp [lastAux]
  | succ fuel ih =>
    intro hfm
    refine List.nodup_cons.mpr ⟨?_, ih (by omega)⟩
    intro hmem
    rcases lastAux_mem_iff.mp hmem with ⟨j, hj1, hj2, hj3⟩
    have hdvd : m ∣ (start + j) - (start + offset) :=
      (Nat.modEq_iff_dvd' (by omega)).mp hj3
    have h1 : (start + j) - (start + offset) = j - offset := by omega
    rw [h1] at hdvd
    have := Nat.le_of_dvd (by omega) hdvd
    omega

/-- The final-level scan of a whole level visits every position. -/
theorem lastList_complete {m start : Nat} (hm : 0 < m) {q : Nat} (hq : q < m) :
    q ∈ lastList m start := by
  have hs : start % m < m := Nat.mod_lt _ hm
  have hle : start % m ≤ start := Nat.mod_le _ _
  refine lastAux_mem_iff.mpr ⟨(q + m - start % m) % m, by omega, ?_, ?_⟩
  · have := Nat.mod_lt (q + m - start % m) hm
    omega
  · have h1 : (start + (q + m - start % m) % m) % m
        = (start + (q + m - start % m)) % m :=
      Nat.ModEq.add_left start (Nat.mod_modEq _ m)
    have h2 : start + (q + m - start % m) = q + m + (start - start % m) := by omega
    have h3 : start - start % m = m * (start / m) := by
      have := Nat.div_add_mod start m
      omega
    have h4 : (q + m + m * (start / m)) % m = q := by
      have : q + m + m * (start / m) = q + m * (1 + start / m) := by ring
      rw [this, Nat.add_mul_mod_self_left, Nat.mod_eq_of_lt hq]
    have h4' : (q + m + (start - start % m)) % m = q := by rw [h3]; exact h4
    rw [h1, h2]
    exact h4'.symm

/-- Bind on a successful `Except`. -/
theorem exceptBind_ok {α β : Type} (a : α) (f : α → Except String β) :
    (Except.ok a >>= f) = f a := rfl

/-- Bind on a failed `Except`. -/
theorem exceptBind_err {α β : Type} (e : String) (f : α → Except String β) :
    ((Except.error e : Except String α) >>= f) = .error e := rfl

/-- `getD` on `replicate`. -/
theorem replicate_getD {α : Type} (n p : Nat) (v : α) :
    (List.replicate n v).getD p v = v := by
  induction n generalizing p with
  | zero => simp [List.getD]
  | succ n ih =>
    cases p with
    | zero => simp [List.replicate, List.getD]
    | succ q => simpa [List.replicate, List.getD] using ih q

/-- The `Insert` probe loop of one level is the `scanFree` replay of the
canonical visited-position list. -/
theorem elasticInsertLevelLoop_eq (key : Int) (lvl : List Int) (i : Nat)
    (hm : 0 < lvl.length) (hm16 : lvl.length ≤ 16) :
    ∀ {tried : List Bool} {attempt fuel}, tried.length = 16 →
    elasticInsertLevelLoop key lvl i tried attempt fuel =
      .ok (scanFree lvl (probeAux key i lvl.length tried attempt fuel)) := by
  intro tried attempt fuel
  induction fuel generalizing tried attempt with
  | zero => intro _; rfl
  | succ fuel ih =>
    intro htr
    have hpos : splitmix64 key i attempt % lvl.length < lvl.length := Nat.mod_lt _ hm
    have hlt : splitmix64 key i attempt % lvl.length < tried.length := by omega
    rw [elasticInsertLevelLoop, probeAux, elasticHashFunc, if_neg (by omega : ¬ lvl.length = 0)]
    simp only [exceptBind_ok]
    by_cases hc : splitmix64 key i attempt % lvl.length < tried.length ∧
        tried.getD (splitmix64 key i attempt % lvl.length) false = true
    · rw [if_pos hc, if_pos hc]
      exact ih htr
    · rw [if_neg hc, if_neg hc, if_pos hlt, slotRead_ok hpos]
      simp only [exceptBind_ok]
      rw [scanFree]
      by_cases hfree : lvl.getD (splitmix64 key i attempt % lvl.length) 0 = EMPTY ∨
          lvl.getD (splitmix64 key i attempt % lvl.length) 0 = TOMBSTONE
      · rw [if_pos hfree, if_pos hfree]; rfl
      · rw [if_neg hfree, if_neg hfree]
        exact ih (by simpa using htr)

/-- The tail attempts of the `Contains` level scan replay `scanContains`. -/
theorem elasticContainsTail_eq (key : Int) (lvl : List Int) (i : Nat)
    (hm : 0 < lvl.length) (hm16 : lvl.length ≤ 16) :
    ∀ {tried : List Bool} {attempt fuel}, tried.length = 16 →
    elasticContainsTail key lvl i tried attempt fuel =
      .ok (scanContains lvl key (probeAux key i lvl.length tried attempt fuel)) := by
  intro tried attempt fuel
  induction fuel generalizing tried attempt with
  | zero => intro _; rfl
  | succ fuel ih =>
    intro htr
    have hpos : splitmix64 key i attempt % lvl.length < lvl.length := Nat.mod_lt _ hm
    have hlt : splitmix64 key i attempt % lvl.length < tried.length := by omega
    rw [elasticContainsTail, probeAux, elasticHashFunc, if_neg (by omega : ¬ lvl.length = 0)]
    simp only [exceptBind_ok]
    by_cases hc : splitmix64 key i attempt % lvl.length < tried.length ∧
        tried.getD (splitmix64 key i attempt % lvl.length) false = true
    · rw [if_pos hc, if_pos hc]
      exact ih htr
    · rw [if_neg hc, if_neg hc, if_pos hlt, slotRead_ok hpos]
      simp only [exceptBind_ok]
      rw [scanContains]
      by_cases hkey : lvl.getD (splitmix64 key i attempt % lvl.length) 0 = key
      · rw [if_pos hkey, if_pos hkey]; rfl
      · rw [if_neg hkey, if_neg hkey]
        by_cases hemp : lvl.getD (splitmix64 key i attempt % lvl.length) 0 = EMPTY
        · rw [if_pos hemp, if_pos hemp]; rfl
        · rw [if_neg hemp, if_neg hemp]
          exact ih (by simpa using htr)

/-- The `Remove` probe loop of one level replays `scanKey`. -/
theorem elasticRemoveLevelLoop_eq (key : Int) (lvl : List Int) (i : Nat)
    (hm : 0 < lvl.length) (hm16 : lvl.length ≤ 16) :
    ∀ {tried : List Bool} {attempt fuel}, tried.length = 16 →
    elasticRemoveLevelLoop key lvl i tried attempt fuel =
      .ok (scanKey lvl key (probeAux key i lvl.length tried attempt fuel)) := by
  intro tried attempt fuel
  induction fuel generalizing tried attempt with
  | zero => intro _; rfl
  | succ fuel ih =>
    intro htr
    have hpos : splitmix64 key i attempt % lvl.length < lvl.length := Nat.mod_lt _ hm
    have hlt : splitmix64 key i attempt % lvl.length < tried.length := by omega
    rw [elasticRemoveLevelLoop, probeAux, elasticHashFunc, if_neg (by omega : ¬ lvl.length = 0)]
    simp only [exceptBind_ok]
    by_cases hc : splitmix64 key i attempt % lvl.length < tried.length ∧
        tried.getD (splitmix64 key i attempt % lvl.length) false = true
    · rw [if_pos hc, if_pos hc]
      exact ih htr
    · rw [if_neg hc, if_neg hc, if_pos hlt, slotRead_ok hpos]
      simp only [exceptBind_ok]
      rw [scanKey]
      by_cases hkey : lvl.getD (splitmix64 key i attempt % lvl.length) 0 = key
      · rw [if_pos hkey, if_pos hkey]; rfl
      · rw [if_neg hkey, if_neg hkey]
        by_cases hemp : lvl.getD (splitmix64 key i attempt % lvl.length) 0 = EMPTY
        · rw [if_pos hemp, if_pos hemp]; rfl
        · rw [if_neg hemp, if_neg hemp]
          exact ih (by simpa using htr)

/-- Step lemma for the unrolled attempt 0 of `Contains` (run on the all-false
`tried` array): its outcome matches the head of the canonical scan. -/
theorem containsU0_step (key : Int) (lvl : List Int) (i R : Nat)
    (tried : List Bool) (hm : 0 < lvl.length) (hm16 : lvl.length ≤ 16)
    (htr : tried.length = 16) (hun : ∀ p, tried.getD p false = false) :
    ∃ r, elasticContainsU0 key lvl i R tried = .ok r ∧
      scanContains lvl key (probeAux key i lvl.length tried 0 R) =
        (match r with
         | .inl b => b
         | .inr t => scanContains lvl key (probeAux key i lvl.length t 1 (R - 1))) ∧
      ∀ t, r = .inr t → t.length = 16 := by
  have hpos : splitmix64 key i 0 % lvl.length < lvl.length := Nat.mod_lt _ hm
  have hlt : splitmix64 key i 0 % lvl.length < tried.length := by omega
  by_cases hR : 1 ≤ R
  · have hblock : elasticContainsU0 key lvl i R tried =
        (if lvl.getD (splitmix64 key i 0 % lvl.length) 0 = key then .ok (.inl true)
         else if lvl.getD (splitmix64 key i 0 % lvl.length) 0 = EMPTY then .ok (.inl false)
         else .ok (.inr (tried.set (splitmix64 key i 0 % lvl.length) true))) := by
      rw [elasticContainsU0, if_pos hR, elasticHashFunc, if_neg (by omega : ¬ lvl.length = 0)]
      simp only [exceptBind_ok]
      rw [if_pos hlt, slotRead_ok hpos]
      simp only [exceptBind_ok]
      split
      · rfl
      · split
        · rfl
        · rfl
    have hscan : probeAux key i lvl.length tried 0 R =
        (splitmix64 key i 0 % lvl.length) ::
          probeAux key i lvl.length (tried.set (splitmix64 key i 0 % lvl.length) true) 1 (R - 1) := by
      conv_lhs => rw [show R = (R - 1) + 1 from by omega]
      rw [probeAux]
      rw [if_neg (by
        intro hc
        have h2 := hc.2
        rw [hun] at h2
        exact Bool.noConfusion h2)]
      rw [if_pos hlt]
    by_cases hkey : lvl.getD (splitmix64 key i 0 % lvl.length) 0 = key
    · refine ⟨.inl true, by rw [hblock, if_pos hkey], ?_, fun t h => by cases h⟩
      rw [hscan, scanContains, if_pos hkey]
    · by_cases hemp : lvl.getD (splitmix64 key i 0 % lvl.length) 0 = EMPTY
      · refine ⟨.inl false, by rw [hblock, if_neg hkey, if_pos hemp], ?_, fun t h => by cases h⟩
        rw [hscan, scanContains, if_neg hkey, if_pos hemp]
      · refine ⟨.inr (tried.set (splitmix64 key i 0 % lvl.length) true),
          by rw [hblock, if_neg hkey, if_neg hemp], ?_, fun t h => by cases h; simpa using htr⟩
        rw [hscan, scanContains, if_neg hkey, if_neg hemp]
  · have h0 : R = 0 := by omega
    subst h0
    exact ⟨.inr tried, by rw [elasticContainsU0]; rfl, by rfl, fun t h => by cases h; exact htr⟩

/-- Step lemma for the unrolled attempts `a = 1, 2, 3` of `Contains`. -/
theorem containsU_step (key : Int) (lvl : List Int) (i a R : Nat)
    (tried : List Bool) (hm : 0 < lvl.length) (hm16 : lvl.length ≤ 16)
    (htr : tried.length = 16) :
    ∃ r, elasticContainsU key lvl i a R tried = .ok r ∧
      scanContains lvl key (probeAux key i lvl.length tried a (R - a)) =
        (match r with
         | .inl b => b
         | .inr t => scanContains lvl key (probeAux key i lvl.length t (a + 1) (R - (a + 1)))) ∧
      ∀ t, r = .inr t → t.length = 16 := by
  have hpos : splitmix64 key i a % lvl.length < lvl.length := Nat.mod_lt _ hm
  have hlt : splitmix64 key i a % lvl.length < tried.length := by omega
  by_cases hR : a + 1 ≤ R
  · by_cases hskip : tried.getD (splitmix64 key i a % lvl.length) false = true
    · refine ⟨.inr tried, ?_, ?_, fun t h => by cases h; exact htr⟩
      · rw [elasticContainsU, if_pos hR, elasticHashFunc, if_neg (by omega : ¬ lvl.length = 0)]
        simp only [exceptBind_ok]
        rw [if_neg (by
          intro hc
          exact hc.2 hskip)]
        rfl
      · conv_lhs => rw [show R - a = (R - (a + 1)) + 1 from by omega]
        rw [probeAux, if_pos ⟨hlt, hskip⟩]
    · have hblock : elasticContainsU key lvl i a R tried =
          (if lvl.getD (splitmix64 key i a % lvl.length) 0 = key then .ok (.inl true)
           else if lvl.getD (splitmix64 key i a % lvl.length) 0 = EMPTY then .ok (.inl false)
           else .ok (.inr (tried.set (splitmix64 key i a % lvl.length) true))) := by
        rw [elasticContainsU, if_pos hR, elasticHashFunc, if_neg (by omega : ¬ lvl.length = 0)]
        simp only [exceptBind_ok]
        rw [if_pos ⟨hlt, by
          intro hc
          exact hskip hc⟩, slotRead_ok hpos]
        simp only [exceptBind_ok]
        split
        · rfl
        · split
          · rfl
          · rfl
      have hscan : probeAux key i lvl.length tried a (R - a) =
          (splitmix64 key i a % lvl.length) ::
            probeAux key i lvl.length (tried.set (splitmix64 key i a % lvl.length) true)
              (a + 1) (R - (a + 1)) := by
        conv_lhs => rw [show R - a = (R - (a + 1)) + 1 from by omega]
        rw [probeAux]
        rw [if_neg (by
          intro hc
          exact hskip hc.2)]
        rw [if_pos hlt]
      by_cases hkey : lvl.getD (splitmix64 key i a % lvl.length) 0 = key
      · refine ⟨.inl true, by rw [hblock, if_pos hkey], ?_, fun t h => by cases h⟩
        rw [hscan, scanContains, if_pos hkey]
      · by_cases hemp : lvl.getD (splitmix64 key i a % lvl.length) 0 = EMPTY
        · refine ⟨.inl false, by rw [hblock, if_neg hkey, if_pos hemp], ?_, fun t h => by cases h⟩
          rw [hscan, scanContains, if_neg hkey, if_pos hemp]
        · refine ⟨.inr (tried.set (splitmix64 key i a % lvl.length) true),
            by rw [hblock, if_neg hkey, if_neg hemp], ?_, fun t h => by cases h; simpa using htr⟩
          rw [hscan, scanContains, if_neg hkey, if_neg hemp]
  · refine ⟨.inr tried, by rw [elasticContainsU, if_neg hR]; rfl, ?_, fun t h => by cases h; exact htr⟩
    have h1 : R - a = 0 := by omega
    have h2 : R - (a + 1) = 0 := by omega
    rw [h1, h2]
    rfl

/-- One level of `Contains` replays `scanContains` over the canonical probe
list. -/
theorem elasticContainsLevel_eq (key : Int) (lvl : List Int) (i R : Nat)
    (hm : 0 < lvl.length) (hm16 : lvl.length ≤ 16) :
    elasticContainsLevel key lvl i R =
      .ok (scanContains lvl key (probeList key i lvl.length R)) := by
  rw [elasticContainsLevel, probeList]
  have htr0 : (List.replicate 16 false : List Bool).length = 16 := by simp
  obtain ⟨r0, he0, hs0, hl0⟩ := containsU0_step key lvl i R (List.replicate 16 false)
    hm hm16 htr0 (fun p => replicate_getD 16 p false)
  rw [he0]
  simp only [exceptBind_ok]
  rcases r0 with b | t1
  · simp only [hs0]; rfl
  · simp only [hs0]
    obtain ⟨r1, he1, hs1, hl1⟩ := containsU_step key lvl i 1 R t1 hm hm16 (hl0 t1 rfl)
    rw [he1]
    simp only [exceptBind_ok]
    rcases r1 with b | t2
    · simp only [hs1]; rfl
    · simp only [hs1]
      obtain ⟨r2, he2, hs2, hl2⟩ := containsU_step key lvl i 2 R t2 hm hm16 (hl1 t2 rfl)
      rw [he2]
      simp only [exceptBind_ok]
      rcases r2 with b | t3
      · simp only [hs2]; rfl
      · simp only [hs2]
        obtain ⟨r3, he3, hs3, hl3⟩ := containsU_step key lvl i 3 R t3 hm hm16 (hl2 t3 rfl)
        rw [he3]
        simp only [exceptBind_ok]
        rcases r3 with b | t4
        · simp only [hs3]; rfl
        · simp only [hs3]
          exact elasticContainsTail_eq key lvl i hm hm16 (hl3 t4 rfl)

/-- `get?` in bounds yields `getD`. -/
theorem listGetQ_eq_getD {α : Type} (l : List α) (i : Nat) (d : α)
    (h : i < l.length) : l.get? i = some (l.getD i d) := by
  rw [List.get?_eq_getElem?, List.getD_eq_getElem?_getD]
  rcases hx : l[i]? with _ | v
  · rw [List.getElem?_eq_none_iff] at hx; omega
  · rfl

/-- The standard final-level `Contains` scan replays `scanContains`. -/
theorem elasticContainsLastMod_eq (key : Int) (lvl : List Int) (start : Nat)
    (hm : 0 < lvl.length) :
    ∀ {offset fuel}, elasticContainsLastMod key lvl start offset fuel =
      .ok (scanContains lvl key (lastAux lvl.length start offset fuel)) := by
  intro offset fuel
  induction fuel generalizing offset with
  | zero => rfl
  | succ fuel ih =>
    have hpos : (start + offset) % lvl.length < lvl.length := Nat.mod_lt _ hm
    rw [elasticContainsLastMod, lastAux, slotRead_ok hpos]
    simp only [exceptBind_ok]
    rw [scanContains]
    by_cases hkey : lvl.getD ((start + offset) % lvl.length) 0 = key
    · rw [if_pos hkey, if_pos hkey]; rfl
    · rw [if_neg hkey, if_neg hkey]
      by_cases hemp : lvl.getD ((start + offset) % lvl.length) 0 = EMPTY
      · rw [if_pos hemp, if_pos hemp]; rfl
      · rw [if_neg hemp, if_neg hemp]
        exact ih

/-- The fast-path final-level `Contains` scan equals the standard one for a
power-of-two level size. -/
theorem elasticContainsLastMask_eq (key : Int) (lvl : List Int) (start : Nat)
    (hm : 0 < lvl.length) (hpow : lvl.length &&& (lvl.length - 1) = 0) :
    ∀ {offset fuel}, elasticContainsLastMask key lvl (lvl.length - 1) start offset fuel =
      .ok (scanContains lvl key (lastAux lvl.length start offset fuel)) := by
  intro offset fuel
  induction fuel generalizing offset with
  | zero => rfl
  | succ fuel ih =>
    have hmask : (start + offset) &&& (lvl.length - 1) = (start + offset) % lvl.length :=
      and_pred_eq_mod _ hm hpow _
    have hpos : (start + offset) % lvl.length < lvl.length := Nat.mod_lt _ hm
    rw [elasticContainsLastMask, lastAux, hmask, slotRead_ok hpos]
    simp only [exceptBind_ok]
    rw [scanContains]
    by_cases hkey : lvl.getD ((start + offset) % lvl.length) 0 = key
    · rw [if_pos hkey, if_pos hkey]; rfl
    · rw [if_neg hkey, if_neg hkey]
      by_cases hemp : lvl.getD ((start + offset) % lvl.length) 0 = EMPTY
      · rw [if_pos hemp, if_pos hemp]; rfl
      · rw [if_neg hemp, if_neg hemp]
        exact ih

/-- The standard final-level `Insert` scan replays `scanFree`. -/
theorem elasticInsertLastMod_eq (lvl : List Int) (start : Nat)
    (hm : 0 < lvl.length) :
    ∀ {offset fuel}, elasticInsertLastMod lvl start offset fuel =
      .ok (scanFree lvl (lastAux lvl.length start offset fuel)) := by
  intro offset fuel
  induction fuel generalizing offset with
  | zero => rfl
  | succ fuel ih =>
    have hpos : (start + offset) % lvl.length < lvl.length := Nat.mod_lt _ hm
    rw [elasticInsertLastMod, lastAux, slotRead_ok hpos]
    simp only [exceptBind_ok]
    rw [scanFree]
    by_cases hfree : lvl.getD ((start + offset) % lvl.length) 0 = EMPTY ∨
        lvl.getD ((start + offset) % lvl.length) 0 = TOMBSTONE
    · rw [if_pos hfree, if_pos hfree]; rfl
    · rw [if_neg hfree, if_neg hfree]
      exact ih

/-- The fast-path final-level `Insert` scan equals the standard one. -/
theorem elasticInsertLastMask_eq (lvl : List Int) (start : Nat)
    (hm : 0 < lvl.length) (hpow : lvl.length &&& (lvl.length - 1) = 0) :
    ∀ {offset fuel}, elasticInsertLastMask lvl (lvl.length - 1) start offset fuel =
      .ok (scanFree lvl (lastAux lvl.length start offset fuel)) := by
  intro offset fuel
  induction fuel generalizing offset with
  | zero => rfl
  | succ fuel ih =>
    have hmask : (start + offset) &&& (lvl.length - 1) = (start + offset) % lvl.length :=
      and_pred_eq_mod _ hm hpow _
    have hpos : (start + offset) % lvl.length < lvl.length := Nat.mod_lt _ hm
    rw [elasticInsertLastMask, lastAux, hmask, slotRead_ok hpos]
    simp only [exceptBind_ok]
    rw [scanFree]
    by_cases hfree : lvl.getD ((start + offset) % lvl.length) 0 = EMPTY ∨
        lvl.getD ((start + offset) % lvl.length) 0 = TOMBSTONE
    · rw [if_pos hfree, if_pos hfree]; rfl
    · rw [if_neg hfree, if_neg hfree]
      exact ih

/-- The standard final-level `Remove` scan replays `scanKey`. -/
theorem elasticRemoveLastMod_eq (key : Int) (lvl : List Int) (start : Nat)
    (hm : 0 < lvl.length) :
    ∀ {offset fuel}, elasticRemoveLastMod key lvl start offset fuel =
      .ok (scanKey lvl key (lastAux lvl.length start offset fuel)) := by
  intro offset fuel
  induction fuel generalizing offset with
  | zero => rfl
  | succ fuel ih =>
    have hpos : (start + offset) % lvl.length < lvl.length := Nat.mod_lt _ hm
    rw [elasticRemoveLastMod, lastAux, slotRead_ok hpos]
    simp only [exceptBind_ok]
    rw [scanKey]
    by_cases hkey : lvl.getD ((start + offset) % lvl.length) 0 = key
    · rw [if_pos hkey, if_pos hkey]; rfl
    · rw [if_neg hkey, if_neg hkey]
      by_cases hemp : lvl.getD ((start + offset) % lvl.length) 0 = EMPTY
      · rw [if_pos hemp, if_pos hemp]; rfl
      · rw [if_neg hemp, if_neg hemp]
        exact ih

/-- The fast-path final-level `Remove` scan equals the standard one. -/
theorem elasticRemoveLastMask_eq (key : Int) (lvl : List Int) (start : Nat)
    (hm : 0 < lvl.length) (hpow : lvl.length &&& (lvl.length - 1) = 0) :
    ∀ {offset fuel}, elasticRemoveLastMask key lvl (lvl.length - 1) start offset fuel =
      .ok (scanKey lvl key (lastAux lvl.length start offset fuel)) := by
  intro offset fuel
  induction fuel generalizing offset with
  | zero => rfl
  | succ fuel ih =>
    have hmask : (start + offset) &&& (lvl.length - 1) = (start + offset) % lvl.length :=
      and_pred_eq_mod _ hm hpow _
    have hpos : (start + offset) % lvl.length < lvl.length := Nat.mod_lt _ hm
    rw [elasticRemoveLastMask, lastAux, hmask, slotRead_ok hpos]
    simp only [exceptBind_ok]
    rw [scanKey]
    by_cases hkey : lvl.getD ((start + offset) % lvl.length) 0 = key
    · rw [if_pos hkey, if_pos hkey]; rfl
    · rw [if_neg hkey, if_neg hkey]
      by_cases hemp : lvl.getD ((start + offset) % lvl.length) 0 = EMPTY
      · rw [if_pos hemp, if_pos hemp]; rfl
      · rw [if_neg hemp, if_neg hemp]
        exact ih

/-- Level `i` of an elastic table. -/
def lvlAt (ht : ElasticHashTable) (i : Nat) : List Int := ht.levels.getD i []

/-- Canonical probe list of level `i` for `key`. -/
def elasticProbeOf (ht : ElasticHashTable) (key : Int) (i : Nat) : List Nat :=
  probeList key i (lvlAt ht i).length ht.R

/-- Canonical final-level position list for `key` (level index 3 under
well-formedness). -/
def elasticLastOf (ht : ElasticHashTable) (key : Int) : List Nat :=
  lastList (lvlAt ht 3).length (splitmix64 key 3 0 % (lvlAt ht 3).length)

/-- Canonical value of `Contains` on a well-formed elastic table. -/
def containsCanon (ht : ElasticHashTable) (key : Int) : Bool :=
  ((List.range 3).any fun i => scanContains (lvlAt ht i) key (elasticProbeOf ht key i)) ||
    scanContains (lvlAt ht 3) key (elasticLastOf ht key)

/-- Canonical front-level write decision of `Insert`. -/
def insertFind (ht : ElasticHashTable) (key : Int) : Nat → Nat → Option (Nat × Nat)
  | _, 0 => none
  | i, fuel + 1 =>
    match scanFree (lvlAt ht i) (elasticProbeOf ht key i) with
    | some pos => some (i, pos)
    | none => insertFind ht key (i + 1) fuel

/-- Canonical front-level removal decision of `Remove`. -/
def removeFind (ht : ElasticHashTable) (key : Int) : Nat → Nat → Option (Nat × Nat)
  | _, 0 => none
  | i, fuel + 1 =>
    match scanKey (lvlAt ht i) key (elasticProbeOf ht key i) with
    | some pos => some (i, pos)
    | none => removeFind ht key (i + 1) fuel

/-- Unpacking of `elasticWF`. -/
theorem elasticWF_spec (ht : ElasticHashTable) (h : elasticWF ht = true) :
    ht.L = 4 ∧ ht.R = 4 ∧ ht.levels.length = 4 ∧
    (∀ i, i < 3 → 0 < (lvlAt ht i).length ∧ (lvlAt ht i).length ≤ 16) ∧
    0 < (lvlAt ht 3).length := by
  unfold elasticWF at h
  simp only [Bool.and_eq_true, beq_iff_eq, List.all_eq_true, decide_eq_true_eq] at h
  obtain ⟨⟨⟨⟨hL, hR⟩, hlen⟩, hfront⟩, hlast⟩ := h
  refine ⟨hL, hR, hlen, ?_, hlast⟩
  intro i hi
  have hmem : lvlAt ht i ∈ ht.levels.take 3 := by
    apply List.get?_mem (n := i)
    rw [List.get?_take hi]
    exact listGetQ_eq_getD _ _ _ (by omega)
  exact hfront _ hmem

/-- The front-level loop of `Contains` computes the disjunction of the
per-level canonical scans. -/
theorem elasticContainsFrontLoop_eq (ht : ElasticHashTable) (key : Int) :
    ∀ {i fuel : Nat},
      (∀ idx, i ≤ idx → idx < i + fuel →
        idx < ht.levels.length ∧ 0 < (lvlAt ht idx).length ∧ (lvlAt ht idx).length ≤ 16) →
      elasticContainsFrontLoop ht key i fuel =
        .ok ((List.range' i fuel).any fun idx =>
          scanContains (lvlAt ht idx) key (elasticProbeOf ht key idx)) := by
  intro i fuel
  induction fuel generalizing i with
  | zero => intro _; rfl
  | succ fuel ih =>
    intro hcond
    obtain ⟨hilen, hm, hm16⟩ := hcond i (le_refl i) (by omega)
    rw [elasticContainsFrontLoop]
    simp only [show ht.levels.get? i = some (lvlAt ht i) from listGetQ_eq_getD _ _ _ hilen,
      elasticContainsLevel_eq key (lvlAt ht i) i ht.R hm hm16, exceptBind_ok]
    rw [List.range'_succ, List.any_cons]
    simp only [elasticProbeOf]
    by_cases hs : scanContains (lvlAt ht i) key (probeList key i (lvlAt ht i).length ht.R) = true
    · rw [if_pos hs, hs, Bool.true_or]
      rfl
    · rw [if_neg hs, ih (fun idx h1 h2 => hcond idx (by omega) (by omega))]
      simp only [elasticProbeOf]
      rw [Bool.not_eq_true] at hs
      rw [hs, Bool.false_or]

/-- The front-level loop of `Insert` computes `insertFind`. -/
theorem elasticInsertFrontLoop_eq (ht : ElasticHashTable) (key : Int) (hR : ht.R = 4) :
    ∀ {i fuel : Nat},
      (∀ idx, i ≤ idx → idx < i + fuel →
        idx < ht.levels.length ∧ 0 < (lvlAt ht idx).length ∧ (lvlAt ht idx).length ≤ 16) →
      elasticInsertFrontLoop ht key i fuel = .ok (insertFind ht key i fuel) := by
  intro i fuel
  induction fuel generalizing i with
  | zero => intro _; rfl
  | succ fuel ih =>
    intro hcond
    obtain ⟨hilen, hm, hm16⟩ := hcond i (le_refl i) (by omega)
    rw [elasticInsertFrontLoop, insertFind]
    have hloop := @elasticInsertLevelLoop_eq key (lvlAt ht i) i hm hm16
      (List.replicate 16 false) 0 ht.R (by simp)
    simp only [show ht.levels.get? i = some (lvlAt ht i) from listGetQ_eq_getD _ _ _ hilen,
      hloop, exceptBind_ok, elasticProbeOf, probeList]
    by_cases hs : ∃ pos, scanFree (lvlAt ht i) (probeAux key i (lvlAt ht i).length
        (List.replicate 16 false) 0 ht.R) = some pos
    · obtain ⟨pos, hpos⟩ := hs
      rw [hpos]
      rfl
    · rw [Option.eq_none_iff_forall_not_mem.mpr
        (fun pos hmem => hs ⟨pos, hmem⟩)]
      exact ih (fun idx h1 h2 => hcond idx (by omega) (by omega))

/-- The front-level loop of `Remove` computes `removeFind`. -/
theorem elasticRemoveFrontLoop_eq (ht : ElasticHashTable) (key : Int) :
    ∀ {i fuel : Nat},
      (∀ idx, i ≤ idx → idx < i + fuel →
        idx < ht.levels.length ∧ 0 < (lvlAt ht idx).length ∧ (lvlAt ht idx).length ≤ 16) →
      elasticRemoveFrontLoop ht key i fuel = .ok (removeFind ht key i fuel) := by
  intro i fuel
  induction fuel generalizing i with
  | zero => intro _; rfl
  | succ fuel ih =>
    intro hcond
    obtain ⟨hilen, hm, hm16⟩ := hcond i (le_refl i) (by omega)
    rw [elasticRemoveFrontLoop, removeFind]
    have hloop := @elasticRemoveLevelLoop_eq key (lvlAt ht i) i hm hm16
      (List.replicate 16 false) 0 ht.R (by simp)
    simp only [show ht.levels.get? i = some (lvlAt ht i) from listGetQ_eq_getD _ _ _ hilen,
      hloop, exceptBind_ok, elasticProbeOf, probeList]
    by_cases hs : ∃ pos, scanKey (lvlAt ht i) key (probeAux key i (lvlAt ht i).length
        (List.replicate 16 false) 0 ht.R) = some pos
    · obtain ⟨pos, hpos⟩ := hs
      rw [hpos]
      rfl
    · rw [Option.eq_none_iff_forall_not_mem.mpr
        (fun pos hmem => hs ⟨pos, hmem⟩)]
      exact ih (fun idx h1 h2 => hcond idx (by omega) (by omega))

/-- `Contains` on a well-formed elastic table computes `containsCanon`. -/
theorem elasticContains_eq (ht : ElasticHashTable) (key : Int)
    (hwf : elasticWF ht = true) :
    elasticContains ht key = .ok (containsCanon ht key) := by
  obtain ⟨hL, hR, hlen, hfront, hlast⟩ := elasticWF_spec ht hwf
  rw [elasticContains, show ht.L - 1 = 3 from by omega]
  rw [elasticContainsFrontLoop_eq ht key
    (fun idx h1 h2 => ⟨by omega, (hfront idx (by omega)).1, (hfront idx (by omega)).2⟩)]
  simp only [exceptBind_ok]
  rw [containsCanon, List.range_eq_range']
  by_cases hany : ((List.range' 0 3).any fun idx =>
      scanContains (lvlAt ht idx) key (elasticProbeOf ht key idx)) = true
  · rw [if_pos hany, hany, Bool.true_or]
    rfl
  · rw [if_neg hany, Bool.not_eq_true] at *
    rw [hany, Bool.false_or]
    simp only [show ht.levels.get? 3 = some (lvlAt ht 3) from listGetQ_eq_getD _ _ _ (by omega),
      elasticHashFunc, if_neg (show ¬ (lvlAt ht 3).length = 0 from by omega), exceptBind_ok]
    by_cases hpow : (lvlAt ht 3).length &&& ((lvlAt ht 3).length - 1) = 0
    · rw [if_pos hpow,
        elasticContainsLastMask_eq key (lvlAt ht 3) _ hlast hpow]
      rfl
    · rw [if_neg hpow,
        elasticContainsLastMod_eq key (lvlAt ht 3) _ hlast]
      rfl

/-- `Insert` on a well-formed elastic table: canonical description. -/
theorem elasticInsert_eq (ht : ElasticHashTable) (key : Int)
    (hwf : elasticWF ht = true) :
    elasticInsert ht key =
      if ht.capacity ≤ ht.size then
        .ok (ht, some "hash table is full (max load reached)")
      else if containsCanon ht key then .ok (ht, none)
      else
        match insertFind ht key 0 3 with
        | some (i, pos) =>
          .ok ({ ht with levels := ht.levels.set i ((lvlAt ht i).set pos key)
                         size := ht.size + 1 }, none)
        | none =>
          match scanFree (lvlAt ht 3) (elasticLastOf ht key) with
          | some pos =>
            .ok ({ ht with levels := ht.levels.set 3 ((lvlAt ht 3).set pos key)
                           size := ht.size + 1 }, none)
          | none =>
            .ok (ht, some "no empty slot found in final level (this should not happen under expected conditions)") := by
  obtain ⟨hL, hR, hlen, hfront, hlast⟩ := elasticWF_spec ht hwf
  rw [elasticInsert]
  by_cases hcap : ht.capacity ≤ ht.size
  · rw [if_pos hcap, if_pos hcap]
  · rw [if_neg hcap, if_neg hcap]
    rw [elasticContains_eq ht key hwf]
    simp only [exceptBind_ok]
    by_cases hc : containsCanon ht key = true
    · rw [if_pos hc, if_pos hc]
      rfl
    · rw [Bool.not_eq_true] at hc
      rw [hc, if_neg (by simp), if_neg (by simp)]
      rw [show ht.L - 1 = 3 from by omega]
      rw [elasticInsertFrontLoop_eq ht key hR
        (fun idx h1 h2 => ⟨by omega, (hfront idx (by omega)).1, (hfront idx (by omega)).2⟩)]
      simp only [exceptBind_ok]
      rcases hfind : insertFind ht key 0 3 with _ | ⟨i, pos⟩
      · simp only []
        simp only [show ht.levels.get? 3 = some (lvlAt ht 3) from
            listGetQ_eq_getD _ _ _ (by omega),
          elasticHashFunc, if_neg (show ¬ (lvlAt ht 3).length = 0 from by omega),
          exceptBind_ok]
        by_cases hpow : (lvlAt ht 3).length &&& ((lvlAt ht 3).length - 1) = 0
        · rw [if_pos hpow, elasticInsertLastMask_eq (lvlAt ht 3) _ hlast hpow]
          simp only [exceptBind_ok]
          rfl
        · rw [if_neg hpow, elasticInsertLastMod_eq (lvlAt ht 3) _ hlast]
          simp only [exceptBind_ok]
          rfl
      · rfl

/-- `Remove` on a well-formed elastic table: canonical description. -/
theorem elasticRemove_eq (ht : ElasticHashTable) (key : Int)
    (hwf : elasticWF ht = true) :
    elasticRemove ht key =
      match removeFind ht key 0 3 with
      | some (i, pos) =>
        .ok ({ ht with levels := ht.levels.set i ((lvlAt ht i).set pos TOMBSTONE)
                       size := ht.size - 1 }, true)
      | none =>
        match scanKey (lvlAt ht 3) key (elasticLastOf ht key) with
        | some pos =>
          .ok ({ ht with levels := ht.levels.set 3 ((lvlAt ht 3).set pos TOMBSTONE)
                         size := ht.size - 1 }, true)
        | none => .ok (ht, false) := by
  obtain ⟨hL, hR, hlen, hfront, hlast⟩ := elasticWF_spec ht hwf
  rw [elasticRemove]
  rw [show ht.L - 1 = 3 from by omega]
  rw [elasticRemoveFrontLoop_eq ht key
    (fun idx h1 h2 => ⟨by omega, (hfront idx (by omega)).1, (hfront idx (by omega)).2⟩)]
  simp only [exceptBind_ok]
  rcases hfind : removeFind ht key 0 3 with _ | ⟨i, pos⟩
  · simp only []
    simp only [show ht.levels.get? 3 = some (lvlAt ht 3) from
        listGetQ_eq_getD _ _ _ (by omega),
      elasticHashFunc, if_neg (show ¬ (lvlAt ht 3).length = 0 from by omega),
      exceptBind_ok]
    by_cases hpow : (lvlAt ht 3).length &&& ((lvlAt ht 3).length - 1) = 0
    · rw [if_pos hpow, elasticRemoveLastMask_eq key (lvlAt ht 3) _ hlast hpow]
      simp only [exceptBind_ok]
      rfl
    · rw [if_neg hpow, elasticRemoveLastMod_eq key (lvlAt ht 3) _ hlast]
      simp only [exceptBind_ok]
      rfl
  · rfl

/-- The constructor guard tests exactly `delta < 0 ∨ 1 ≤ delta`. -/
theorem deltaOutOfRange_iff (q : ℚ) :
    deltaOutOfRange q = true ↔ (q < 0 ∨ 1 ≤ q) := by
  unfold deltaOutOfRange
  simp only [Bool.or_eq_true, decide_eq_true_eq]
  constructor
  · rintro (h | h)
    · left
      by_contra hn
      push_neg at hn
      exact absurd (Rat.num_nonneg.mpr hn) (not_le.mpr h)
    · right
      rw [Rat.le_def]
      simpa using h
  · rintro (h | h)
    · left
      by_contra hn
      push_neg at hn
      exact absurd (Rat.num_nonneg.mp hn) (not_le.mpr h)
    · right
      rw [Rat.le_def] at h
      simpa using h

/-- The exact-integer capacity computation is the floor formula of the spec:
`capacity = ⌊(1 - delta) * N⌋` for in-range `delta`. -/
theorem capacityFormula_eq_floor (delta : ℚ) (N : Nat)
    (h : deltaOutOfRange delta = false) :
    capacityFormula delta N = ⌊(1 - delta) * (N : ℚ)⌋ := by
  have hnum : 0 ≤ delta.num ∧ delta.num < (delta.den : Int) := by
    unfold deltaOutOfRange at h
    simp only [Bool.or_eq_false_iff, decide_eq_false_iff_not, not_lt, not_le] at h
    exact ⟨h.1, h.2⟩
  have hden : (0 : Int) < (delta.den : Int) := by exact_mod_cast delta.den_pos
  have hdenQ : ((delta.den : ℚ)) ≠ 0 := by exact_mod_cast delta.den_ne_zero
  have hd : (delta * (delta.den : ℚ)) = (delta.num : ℚ) := by
    nth_rewrite 1 [← Rat.num_div_den delta]
    exact div_mul_cancel₀ _ hdenQ
  have hx : (1 - delta) * (N : ℚ)
      = ((((delta.den : Int) - delta.num) * N : Int) : ℚ) / ((delta.den : ℕ) : ℚ) := by
    rw [eq_div_iff hdenQ]
    push_cast
    linear_combination (-(N : ℚ)) * hd
  rw [hx, Rat.floor_intCast_div_natCast, capacityFormula]
  exact Int.tdiv_eq_ediv
    (mul_nonneg (by omega) (Int.natCast_nonneg N)) (le_of_lt hden)

/-- Slot-wise evolution relation for a tracked key `k`: lengths are equal,
occupied slots never become EMPTY again, and slots holding `k` keep `k`. -/
def SlotRel (k : Int) (l l' : List Int) : Prop :=
  l.length = l'.length ∧
  ∀ p, p < l.length →
    ((l.getD p 0 ≠ EMPTY → l'.getD p 0 ≠ EMPTY) ∧
     (l.getD p 0 = k → l'.getD p 0 = k))

theorem SlotRel.refl (k : Int) (l : List Int) : SlotRel k l l :=
  ⟨rfl, fun _ _ => ⟨id, id⟩⟩

/-- A `Contains`-style scan that succeeds still succeeds after evolution. -/
theorem scanContains_mono {k : Int} {l l' : List Int}
    (hrel : SlotRel k l l') :
    ∀ {ps : List Nat}, (∀ p ∈ ps, p < l.length) →
      scanContains l k ps = true → scanContains l' k ps = true := by
  intro ps
  induction ps with
  | nil => intro _ h; exact h
  | cons p ps ih =>
    intro hb hs
    have hp : p < l.length := hb p (List.mem_cons_self _ _)
    obtain ⟨hemp, hkeep⟩ := hrel.2 p hp
    rw [scanContains] at hs ⊢
    by_cases hk' : l'.getD p 0 = k
    · rw [if_pos hk']
    · rw [if_neg hk']
      have hk : l.getD p 0 ≠ k := fun e => hk' (hkeep e)
      rw [if_neg hk] at hs
      by_cases he : l.getD p 0 = EMPTY
      · rw [if_pos he] at hs
        exact absurd hs (by simp)
      · rw [if_neg he] at hs
        rw [if_neg (hemp he)]
        exact ih (fun q hq => hb q (List.mem_cons_of_mem _ hq)) hs

/-- Specification of `scanFree`: a found position is a member holding a free
slot. -/
theorem scanFree_spec {l : List Int} {ps : List Nat} {p : Nat}
    (h : scanFree l ps = some p) :
    p ∈ ps ∧ (l.getD p 0 = EMPTY ∨ l.getD p 0 = TOMBSTONE) := by
  induction ps with
  | nil => cases h
  | cons q ps ih =>
    rw [scanFree] at h
    split at h
    · cases h
      exact ⟨List.mem_cons_self _ _, by assumption⟩
    · obtain ⟨hmem, hfree⟩ := ih h
      exact ⟨List.mem_cons_of_mem _ hmem, hfree⟩

/-- Specification of `scanFree` failure: no visited slot is free. -/
theorem scanFree_none {l : List Int} {ps : List Nat}
    (h : scanFree l ps = none) :
    ∀ p ∈ ps, ¬ (l.getD p 0 = EMPTY ∨ l.getD p 0 = TOMBSTONE) := by
  induction ps with
  | nil => intro p hp; cases hp
  | cons q ps ih =>
    rw [scanFree] at h
    split at h
    · cases h
    · intro p hp
      rcases List.mem_cons.mp hp with rfl | hp'
      · assumption
      · exact ih h p hp'

/-- Specification of `scanKey`: a found position is a member holding the key. -/
theorem scanKey_spec {l : List Int} {k : Int} {ps : List Nat} {p : Nat}
    (h : scanKey l k ps = some p) :
    p ∈ ps ∧ l.getD p 0 = k := by
  induction ps with
  | nil => cases h
  | cons q ps ih =>
    rw [scanKey] at h
    split at h
    · cases h
      exact ⟨List.mem_cons_self _ _, by assumption⟩
    · split at h
      · cases h
      · obtain ⟨hmem, hk⟩ := ih h
        exact ⟨List.mem_cons_of_mem _ hmem, hk⟩

/-- After writing `k` into the first free slot of a probe sequence, the
`Contains` replay of the same sequence finds it. -/
theorem scanContains_after_write {l : List Int} {k : Int} {ps : List Nat} {p : Nat}
    (hfind : scanFree l ps = some p) (hnd : ps.Nodup)
    (hb : ∀ q ∈ ps, q < l.length) :
    scanContains (l.set p k) k ps = true := by
  induction ps with
  | nil => cases hfind
  | cons q ps ih =>
    have hq : q < l.length := hb q (List.mem_cons_self _ _)
    rw [scanFree] at hfind
    rw [scanContains]
    split at hfind
    · cases hfind
      rw [if_pos (by rw [listGetDSetSelf _ _ _ _ hq])]
    · rename_i hocc
      have hnmem : q ∉ ps := (List.nodup_cons.mp hnd).1
      obtain ⟨hpmem, _⟩ := scanFree_spec hfind
      have hqp : p ≠ q := fun e => hnmem (e ▸ hpmem)
      rw [listGetDSetNe _ _ _ _ _ hqp]
      by_cases hk : l.getD q 0 = k
      · rw [if_pos hk]
      · rw [if_neg hk, if_neg (fun he => hocc (Or.inl he))]
        exact ih hfind (List.nodup_cons.mp hnd).2
          (fun r hr => hb r (List.mem_cons_of_mem _ hr))

/-- Packaging of `elasticWF`. -/
theorem elasticWF_intro (ht : ElasticHashTable) (hL : ht.L = 4) (hR : ht.R = 4)
    (hlen : ht.levels.length = 4)
    (hfront : ∀ i, i < 3 → 0 < (lvlAt ht i).length ∧ (lvlAt ht i).length ≤ 16)
    (hlast : 0 < (lvlAt ht 3).length) : elasticWF ht = true := by
  unfold elasticWF
  simp only [Bool.and_eq_true, beq_iff_eq, List.all_eq_true, decide_eq_true_eq]
  refine ⟨⟨⟨⟨hL, hR⟩, hlen⟩, ?_⟩, hlast⟩
  intro x hx
  obtain ⟨n, hn⟩ := List.mem_iff_get?.mp hx
  have hn3 : n < 3 := by
    by_contra hge
    rw [List.get?_eq_none.mpr (by simp; omega)] at hn
    cases hn
  rw [List.get?_take hn3, listGetQ_eq_getD _ _ ([] : List Int) (by omega)] at hn
  cases hn
  exact hfront n hn3

/-- `insertFind` success: which level and a free slot there. -/
theorem insertFind_some {ht : ElasticHashTable} {key : Int} :
    ∀ {i fuel j pos}, insertFind ht key i fuel = some (j, pos) →
      i ≤ j ∧ j < i + fuel ∧
        scanFree (lvlAt ht j) (elasticProbeOf ht key j) = some pos := by
  intro i fuel
  induction fuel generalizing i with
  | zero => intro j pos h; cases h
  | succ fuel ih =>
    intro j pos h
    rw [insertFind] at h
    rcases hs : scanFree (lvlAt ht i) (elasticProbeOf ht key i) with _ | q
    · rw [hs] at h
      obtain ⟨h1, h2, h3⟩ := ih h
      exact ⟨by omega, by omega, h3⟩
    · rw [hs] at h
      cases h
      exact ⟨le_refl _, by omega, hs⟩

/-- `removeFind` success: which level and a slot holding the key there. -/
theorem removeFind_some {ht : ElasticHashTable} {key : Int} :
    ∀ {i fuel j pos}, removeFind ht key i fuel = some (j, pos) →
      i ≤ j ∧ j < i + fuel ∧
        scanKey (lvlAt ht j) key (elasticProbeOf ht key j) = some pos := by
  intro i fuel
  induction fuel generalizing i with
  | zero => intro j pos h; cases h
  | succ fuel ih =>
    intro j pos h
    rw [removeFind] at h
    rcases hs : scanKey (lvlAt ht i) key (elasticProbeOf ht key i) with _ | q
    · rw [hs] at h
      obtain ⟨h1, h2, h3⟩ := ih h
      exact ⟨by omega, by omega, h3⟩
    · rw [hs] at h
      cases h
      exact ⟨le_refl _, by omega, hs⟩

/-- `containsCanon` is monotone under slot evolution. -/
theorem containsCanon_mono (s s₂ : ElasticHashTable) (k : Int)
    (hR : s₂.R = s.R)
    (hrel : ∀ i, i < 4 → SlotRel k (lvlAt s i) (lvlAt s₂ i))
    (hpos : ∀ i, i < 4 → 0 < (lvlAt s i).length)
    (hc : containsCanon s k = true) : containsCanon s₂ k = true := by
  unfold containsCanon at hc ⊢
  simp only [Bool.or_eq_true] at hc
  rcases hc with hfront | hlast
  · obtain ⟨i, hmem, hscan⟩ := List.any_eq_true.mp hfront
    have hi : i < 4 := by
      have := List.mem_range.mp hmem
      omega
    simp only [Bool.or_eq_true]
    left
    apply List.any_eq_true.mpr
    refine ⟨i, hmem, ?_⟩
    have hlen : (lvlAt s i).length = (lvlAt s₂ i).length := (hrel i hi).1
    have hprobe : elasticProbeOf s₂ k i = elasticProbeOf s k i := by
      unfold elasticProbeOf
      rw [← hlen, hR]
    rw [hprobe]
    exact scanContains_mono (hrel i hi)
      (fun p hp => probeAux_mem_lt (hpos i hi) hp) hscan
  · simp only [Bool.or_eq_true]
    right
    have hlen : (lvlAt s 3).length = (lvlAt s₂ 3).length := (hrel 3 (by omega)).1
    have hlast' : elasticLastOf s₂ k = elasticLastOf s k := by
      unfold elasticLastOf
      rw [← hlen]
    rw [hlast']
    exact scanContains_mono (hrel 3 (by omega))
      (fun p hp => lastAux_mem_lt (hpos 3 (by omega)) hp) hlast

/-- Well-formedness survives overwriting one slot of one level. -/
theorem elasticWF_set (s : ElasticHashTable) (i pos : Nat) (v : Int) (sz : Int)
    (hwf : elasticWF s = true) (hi : i < 4) :
    elasticWF { s with levels := s.levels.set i ((lvlAt s i).set pos v)
                       size := sz } = true := by
  obtain ⟨hL, hR, hlen, hfront, hlast⟩ := elasticWF_spec s hwf
  refine elasticWF_intro _ hL hR (by simpa using hlen) ?_ ?_
  · intro j hj
    by_cases hij : i = j
    · subst hij
      have : lvlAt { s with levels := s.levels.set i ((lvlAt s i).set pos v)
                            size := sz } i = (lvlAt s i).set pos v := by
        simp only [lvlAt]
        exact listGetDSetSelf _ _ _ _ (by omega)
      rw [this]
      simpa using hfront i hj
    · have : lvlAt { s with levels := s.levels.set i ((lvlAt s i).set pos v)
                            size := sz } j = lvlAt s j := by
        simp only [lvlAt]
        exact listGetDSetNe _ _ _ _ _ hij
      rw [this]
      exact hfront j hj
  · by_cases hij : i = 3
    · subst hij
      have : lvlAt { s with levels := s.levels.set 3 ((lvlAt s 3).set pos v)
                            size := sz } 3 = (lvlAt s 3).set pos v := by
        simp only [lvlAt]
        exact listGetDSetSelf _ _ _ _ (by omega)
      rw [this]
      simpa using hlast
    · have : lvlAt { s with levels := s.levels.set i ((lvlAt s i).set pos v)
                            size := sz } 3 = lvlAt s 3 := by
        simp only [lvlAt]
        exact listGetDSetNe _ _ _ _ _ hij
      rw [this]
      exact hlast

/-- Writing value `v` into slot `pos` of level `i` induces `SlotRel k` on all
levels, provided the write respects occupation and `k`-slots. -/
theorem slotRel_of_write (s : ElasticHashTable) (i pos : Nat) (v sz : Int) (k : Int)
    (hlen4 : s.levels.length = 4) (hi : i < 4) (hpos : pos < (lvlAt s i).length)
    (ha : (lvlAt s i).getD pos 0 ≠ EMPTY → v ≠ EMPTY)
    (hb : (lvlAt s i).getD pos 0 = k → v = k) :
    ∀ idx, idx < 4 → SlotRel k (lvlAt s idx)
      (lvlAt { s with levels := s.levels.set i ((lvlAt s i).set pos v)
                      size := sz } idx) := by
  intro idx hidx
  by_cases hij : i = idx
  · subst hij
    have heq : lvlAt { s with levels := s.levels.set i ((lvlAt s i).set pos v)
                              size := sz } i = (lvlAt s i).set pos v := by
      simp only [lvlAt]
      exact listGetDSetSelf _ _ _ _ (by omega)
    rw [heq]
    refine ⟨by simp, ?_⟩
    intro p hp
    by_cases hpp : pos = p
    · subst hpp
      rw [listGetDSetSelf _ _ _ _ hpos]
      exact ⟨ha, hb⟩
    · rw [listGetDSetNe _ _ _ _ _ hpp]
      exact ⟨id, id⟩
  · have heq : lvlAt { s with levels := s.levels.set i ((lvlAt s i).set pos v)
                              size := sz } idx = lvlAt s idx := by
      simp only [lvlAt]
      exact listGetDSetNe _ _ _ _ _ hij
    rw [heq]
    exact SlotRel.refl k _

/-- An `Insert` step preserves well-formedness and every true `Contains`
verdict for nonnegative keys. -/
theorem elasticInsert_WF_mono (s s₂ : ElasticHashTable) (j : Int) (e : Option String)
    (hwf : elasticWF s = true) (hj : 0 ≤ j)
    (hins : elasticInsert s j = .ok (s₂, e)) :
    elasticWF s₂ = true ∧
    ∀ k : Int, 0 ≤ k → containsCanon s k = true → containsCanon s₂ k = true := by
  obtain ⟨hL, hR, hlen, hfront, hlast⟩ := elasticWF_spec s hwf
  have hE : EMPTY = -1 := rfl
  have hT : TOMBSTONE = -2 := rfl
  rw [elasticInsert_eq s j hwf] at hins
  by_cases hcap : s.capacity ≤ s.size
  · rw [if_pos hcap] at hins
    obtain ⟨h1, _⟩ := Prod.mk.injEq .. ▸ (Except.ok.injEq .. ▸ hins)
    exact h1 ▸ ⟨hwf, fun k _ hc => hc⟩
  · rw [if_neg hcap] at hins
    by_cases hc : containsCanon s j = true
    · rw [if_pos hc] at hins
      obtain ⟨h1, _⟩ := Prod.mk.injEq .. ▸ (Except.ok.injEq .. ▸ hins)
      exact h1 ▸ ⟨hwf, fun k _ hck => hck⟩
    · rw [if_neg hc] at hins
      rcases hfind : insertFind s j 0 3 with _ | ⟨i, pos⟩
      · rw [hfind] at hins
        rcases hlastf : scanFree (lvlAt s 3) (elasticLastOf s j) with _ | pos
        · rw [hlastf] at hins
          obtain ⟨h1, _⟩ := Prod.mk.injEq .. ▸ (Except.ok.injEq .. ▸ hins)
          exact h1 ▸ ⟨hwf, fun k _ hck => hck⟩
        · rw [hlastf] at hins
          obtain ⟨h1, _⟩ := Prod.mk.injEq .. ▸ (Except.ok.injEq .. ▸ hins)
          subst h1
          obtain ⟨hmem, hfree⟩ := scanFree_spec hlastf
          have hposlt : pos < (lvlAt s 3).length := lastAux_mem_lt hlast hmem
          constructor
          · exact elasticWF_set s 3 pos j _ hwf (by omega)
          · intro k hk hck
            refine containsCanon_mono s _ k ?_ ?_ ?_ hck
            · rfl
            · exact slotRel_of_write s 3 pos j _ k hlen (by omega) hposlt
                (fun _ => by omega) (fun hkk => by
                  rcases hfree with hfe | hft
                  · rw [hkk] at hfe; omega
                  · rw [hkk] at hft; omega)
            · intro i hi
              rcases Nat.lt_or_ge i 3 with h3 | h3
              · exact (hfront i h3).1
              · have : i = 3 := by omega
                rw [this]; exact hlast
      · rw [hfind] at hins
        obtain ⟨h1, _⟩ := Prod.mk.injEq .. ▸ (Except.ok.injEq .. ▸ hins)
        subst h1
        obtain ⟨h0i, hi3, hscan⟩ := insertFind_some hfind
        obtain ⟨hmem, hfree⟩ := scanFree_spec hscan
        have hposlt : pos < (lvlAt s i).length :=
          probeAux_mem_lt (hfront i (by omega)).1 hmem
        constructor
        · exact elasticWF_set s i pos j _ hwf (by omega)
        · intro k hk hck
          refine containsCanon_mono s _ k ?_ ?_ ?_ hck
          · rfl
          · exact slotRel_of_write s i pos j _ k hlen (by omega) hposlt
              (fun _ => by omega) (fun hkk => by
                rcases hfree with hfe | hft
                · rw [hkk] at hfe; omega
                · rw [hkk] at hft; omega)
          · intro i' hi'
            rcases Nat.lt_or_ge i' 3 with h3 | h3
            · exact (hfront i' h3).1
            · have : i' = 3 := by omega
              rw [this]; exact hlast

/-- A `Remove` step preserves well-formedness and every true `Contains`
verdict for keys other than the removed one. -/
theorem elasticRemove_WF_mono (s s₂ : ElasticHashTable) (j : Int) (b : Bool)
    (hwf : elasticWF s = true)
    (hrem : elasticRemove s j = .ok (s₂, b)) :
    elasticWF s₂ = true ∧
    ∀ k : Int, k ≠ j → containsCanon s k = true → containsCanon s₂ k = true := by
  obtain ⟨hL, hR, hlen, hfront, hlast⟩ := elasticWF_spec s hwf
  have hE : EMPTY = -1 := rfl
  have hT : TOMBSTONE = -2 := rfl
  rw [elasticRemove_eq s j hwf] at hrem
  rcases hfind : removeFind s j 0 3 with _ | ⟨i, pos⟩
  · rw [hfind] at hrem
    rcases hlastf : scanKey (lvlAt s 3) j (elasticLastOf s j) with _ | pos
    · rw [hlastf] at hrem
      obtain ⟨h1, _⟩ := Prod.mk.injEq .. ▸ (Except.ok.injEq .. ▸ hrem)
      exact h1 ▸ ⟨hwf, fun k _ hck => hck⟩
    · rw [hlastf] at hrem
      obtain ⟨h1, _⟩ := Prod.mk.injEq .. ▸ (Except.ok.injEq .. ▸ hrem)
      subst h1
      obtain ⟨hmem, hkey⟩ := scanKey_spec hlastf
      have hposlt : pos < (lvlAt s 3).length := lastAux_mem_lt hlast hmem
      constructor
      · exact elasticWF_set s 3 pos TOMBSTONE _ hwf (by omega)
      · intro k hk hck
        refine containsCanon_mono s _ k ?_ ?_ ?_ hck
        · rfl
        · exact slotRel_of_write s 3 pos TOMBSTONE _ k hlen (by omega) hposlt
            (fun _ => by omega)
            (fun hkk => absurd (hkey.symm.trans hkk).symm hk)
        · intro i hi
          rcases Nat.lt_or_ge i 3 with h3 | h3
          · exact (hfront i h3).1
          · have : i = 3 := by omega
            rw [this]; exact hlast
  · rw [hfind] at hrem
    obtain ⟨h1, _⟩ := Prod.mk.injEq .. ▸ (Except.ok.injEq .. ▸ hrem)
    subst h1
    obtain ⟨h0i, hi3, hscan⟩ := removeFind_some hfind
    obtain ⟨hmem, hkey⟩ := scanKey_spec hscan
    have hposlt : pos < (lvlAt s i).length :=
      probeAux_mem_lt (hfront i (by omega)).1 hmem
    constructor
    · exact elasticWF_set s i pos TOMBSTONE _ hwf (by omega)
    · intro k hk hck
      refine containsCanon_mono s _ k ?_ ?_ ?_ hck
      · rfl
      · exact slotRel_of_write s i pos TOMBSTONE _ k hlen (by omega) hposlt
          (fun _ => by omega)
          (fun hkk => absurd (hkey.symm.trans hkk).symm hk)
      · intro i' hi'
        rcases Nat.lt_or_ge i' 3 with h3 | h3
        · exact (hfront i' h3).1
        · have : i' = 3 := by omega
          rw [this]; exact hlast

/-- A successful `Insert` makes the key visible to `Contains`. -/
theorem elasticInsert_contains (s s₂ : ElasticHashTable) (j : Int)
    (hwf : elasticWF s = true) (hj : 0 ≤ j)
    (hins : elasticInsert s j = .ok (s₂, none)) :
    containsCanon s₂ j = true := by
  obtain ⟨hL, hR, hlen, hfront, hlast⟩ := elasticWF_spec s hwf
  rw [elasticInsert_eq s j hwf] at hins
  by_cases hcap : s.capacity ≤ s.size
  · rw [if_pos hcap] at hins
    cases hins
  · rw [if_neg hcap] at hins
    by_cases hc : containsCanon s j = true
    · rw [if_pos hc] at hins
      obtain ⟨h1, _⟩ := Prod.mk.injEq .. ▸ (Except.ok.injEq .. ▸ hins)
      exact h1 ▸ hc
    · rw [if_neg hc] at hins
      rcases hfind : insertFind s j 0 3 with _ | ⟨i, pos⟩
      · rw [hfind] at hins
        rcases hlastf : scanFree (lvlAt s 3) (elasticLastOf s j) with _ | pos
        · rw [hlastf] at hins
          cases hins
        · rw [hlastf] at hins
          obtain ⟨h1, _⟩ := Prod.mk.injEq .. ▸ (Except.ok.injEq .. ▸ hins)
          subst h1
          obtain ⟨hmem, hfree⟩ := scanFree_spec hlastf
          have hposlt : pos < (lvlAt s 3).length := lastAux_mem_lt hlast hmem
          have hlvl : lvlAt { s with levels := s.levels.set 3 ((lvlAt s 3).set pos j),
                                     size := s.size + 1 } 3 = (lvlAt s 3).set pos j := by
            simp only [lvlAt]
            exact listGetDSetSelf _ _ _ _ (by omega)
          unfold containsCanon
          rw [Bool.or_eq_true]
          right
          have hlast' : elasticLastOf { s with
              levels := s.levels.set 3 ((lvlAt s 3).set pos j),
              size := s.size + 1 } j = elasticLastOf s j := by
            unfold elasticLastOf
            rw [hlvl, List.length_set]
          rw [hlvl, hlast']
          refine scanContains_after_write hlastf ?_
            (fun q hq => lastAux_mem_lt hlast hq)
          unfold elasticLastOf lastList
          exact lastAux_nodup hlast (le_refl _)
      · rw [hfind] at hins
        obtain ⟨h1, _⟩ := Prod.mk.injEq .. ▸ (Except.ok.injEq .. ▸ hins)
        subst h1
        obtain ⟨h0i, hi3, hscan⟩ := insertFind_some hfind
        obtain ⟨hmem, hfree⟩ := scanFree_spec hscan
        have hpos0 : 0 < (lvlAt s i).length := (hfront i (by omega)).1
        have hposlt : pos < (lvlAt s i).length := probeAux_mem_lt hpos0 hmem
        have hlvl : lvlAt { s with levels := s.levels.set i ((lvlAt s i).set pos j),
                                   size := s.size + 1 } i = (lvlAt s i).set pos j := by
          simp only [lvlAt]
          exact listGetDSetSelf _ _ _ _ (by omega)
        unfold containsCanon
        rw [Bool.or_eq_true]
        left
        apply List.any_eq_true.mpr
        refine ⟨i, List.mem_range.mpr (by omega), ?_⟩
        have hprobe : elasticProbeOf { s with
            levels := s.levels.set i ((lvlAt s i).set pos j),
            size := s.size + 1 } j i = elasticProbeOf s j i := by
          unfold elasticProbeOf
          rw [hlvl, List.length_set]
        rw [hlvl, hprobe]
        refine scanContains_after_write hscan ?_
          (fun q hq => probeAux_mem_lt hpos0 hq)
        unfold elasticProbeOf probeList
        exact probeAux_nodup hpos0 (by
          rw [List.length_replicate]
          exact (hfront i (by omega)).2)

/-- Eliminate a successful `Except` bind into its two stages. -/
theorem exceptBind_elim {α β : Type} {x : Except String α} {f : α → Except String β}
    {v : β} (h : (x >>= f) = .ok v) : ∃ a, x = .ok a ∧ f a = .ok v := by
  cases x with
  | error e => rw [exceptBind_err] at h; cases h
  | ok a => exact ⟨a, rfl, h⟩

/-- Raw effect of `Insert` on the counters (no well-formedness needed): the
capacity is untouched and the occupancy either stays or, strictly below
capacity, grows by one. -/
theorem elasticInsert_effect {s s₂ : ElasticHashTable} {j : Int}
    {e : Option String} (h : elasticInsert s j = .ok (s₂, e)) :
    s₂.capacity = s.capacity ∧
    (s₂.size = s.size ∨ (s.size < s.capacity ∧ s₂.size = s.size + 1)) := by
  unfold elasticInsert at h
  split at h
  · cases h
    exact ⟨rfl, Or.inl rfl⟩
  · rename_i hcap
    obtain ⟨c, hc, h⟩ := exceptBind_elim h
    split at h
    · cases h
      exact ⟨rfl, Or.inl rfl⟩
    · obtain ⟨r, hr, h⟩ := exceptBind_elim h
      match r with
      | some (i, pos) =>
        cases h
        exact ⟨rfl, Or.inr ⟨by omega, rfl⟩⟩
      | none =>
        rcases hg : s.levels.get? (s.L - 1) with _ | lvl
        · simp only [hg] at h
          cases h
        · simp only [hg] at h
          obtain ⟨start, hstart, h⟩ := exceptBind_elim h
          split at h
          all_goals
            obtain ⟨res, hres, h⟩ := exceptBind_elim h
            match res with
            | some pos =>
              cases h
              exact ⟨rfl, Or.inr ⟨by omega, rfl⟩⟩
            | none =>
              cases h
              exact ⟨rfl, Or.inl rfl⟩

/-- Raw effect of `Remove` on the counters: the capacity is untouched and
the occupancy stays or drops by one. -/
theorem elasticRemove_effect {s s₂ : ElasticHashTable} {j : Int}
    {b : Bool} (h : elasticRemove s j = .ok (s₂, b)) :
    s₂.capacity = s.capacity ∧
    (s₂.size = s.size ∨ s₂.size = s.size - 1) := by
  unfold elasticRemove at h
  obtain ⟨r, hr, h⟩ := exceptBind_elim h
  match r with
  | some (i, pos) =>
    cases h
    exact ⟨rfl, Or.inr rfl⟩
  | none =>
    rcases hg : s.levels.get? (s.L - 1) with _ | lvl
    · simp only [hg] at h
      cases h
    · simp only [hg] at h
      obtain ⟨start, hstart, h⟩ := exceptBind_elim h
      split at h
      all_goals
        obtain ⟨res, hres, h⟩ := exceptBind_elim h
        match res with
        | some pos =>
          cases h
          exact ⟨rfl, Or.inr rfl⟩
        | none =>
          cases h
          exact ⟨rfl, Or.inl rfl⟩

/-- Raw effect of the funnel `Insert` on the counters. -/
theorem funnelInsert_effect {s s₂ : FunnelHashTable} {j : Int}
    {e : Option String} (h : funnelInsert s j = .ok (s₂, e)) :
    s₂.capacity = s.capacity ∧
    (s₂.size = s.size ∨ (s.size < s.capacity ∧ s₂.size = s.size + 1)) := by
  unfold funnelInsert at h
  split at h
  · cases h
    exact ⟨rfl, Or.inl rfl⟩
  · rename_i hcap
    obtain ⟨r, hr, h⟩ := exceptBind_elim h
    match r with
    | some (.inl ()) =>
      cases h
      exact ⟨rfl, Or.inl rfl⟩
    | some (.inr (i, idx)) =>
      cases h
      exact ⟨rfl, Or.inr ⟨by omega, rfl⟩⟩
    | none =>
      by_cases hm : 0 < s.special.length ∧
          s.special.length &&& (s.special.length - 1) = 0
      · rw [if_pos hm] at h
        obtain ⟨r2, hr2, h⟩ := exceptBind_elim h
        match r2 with
        | some (.inl ()) => cases h; exact ⟨rfl, Or.inl rfl⟩
        | some (.inr pos) => cases h; exact ⟨rfl, Or.inr ⟨by omega, rfl⟩⟩
        | none => cases h; exact ⟨rfl, Or.inl rfl⟩
      · rw [if_neg hm] at h
        by_cases hz : s.special.length % 2 ^ 32 = 0
        · rw [if_pos hz] at h
          cases h
        · rw [if_neg hz] at h
          obtain ⟨r2, hr2, h⟩ := exceptBind_elim h
          match r2 with
          | some (.inl ()) => cases h; exact ⟨rfl, Or.inl rfl⟩
          | some (.inr pos) => cases h; exact ⟨rfl, Or.inr ⟨by omega, rfl⟩⟩
          | none => cases h; exact ⟨rfl, Or.inl rfl⟩

/-- Raw effect of the funnel `Remove` on the counters. -/
theorem funnelRemove_effect {s s₂ : FunnelHashTable} {j : Int}
    {b : Bool} (h : funnelRemove s j = .ok (s₂, b)) :
    s₂.capacity = s.capacity ∧
    (s₂.size = s.size ∨ s₂.size = s.size - 1) := by
  unfold funnelRemove at h
  obtain ⟨r, hr, h⟩ := exceptBind_elim h
  match r with
  | some (i, idx) =>
    cases h
    exact ⟨rfl, Or.inr rfl⟩
  | none =>
    by_cases hm : 0 < s.special.length ∧
        s.special.length &&& (s.special.length - 1) = 0
    · rw [if_pos hm] at h
      obtain ⟨res, hres, h⟩ := exceptBind_elim h
      match res with
      | some pos => cases h; exact ⟨rfl, Or.inr rfl⟩
      | none => cases h; exact ⟨rfl, Or.inl rfl⟩
    · rw [if_neg hm] at h
      by_cases hz : s.special.length % 2 ^ 32 = 0
      · rw [if_pos hz] at h
        obtain ⟨res, hres, h⟩ := exceptBind_elim h
        cases hres
      · rw [if_neg hz] at h
        obtain ⟨res, hres, h⟩ := exceptBind_elim h
        match res with
        | some pos => cases h; exact ⟨rfl, Or.inr rfl⟩
        | none => cases h; exact ⟨rfl, Or.inl rfl⟩

/-- One mutating step keeps `size ≤ capacity` and never changes the
capacity (elastic variant). -/
theorem eStep_size_le {ht ht' : ElasticHashTable} {op : TOp}
    (hle : ht.size ≤ ht.capacity) (h : eStep ht op = .ok ht') :
    ht'.size ≤ ht'.capacity ∧ ht'.capacity = ht.capacity := by
  cases op with
  | ins k =>
    rw [eStep] at h
    obtain ⟨p, hp, hpure⟩ := exceptBind_elim h
    obtain ⟨s₂, e⟩ := p
    cases hpure
    obtain ⟨hcap, hsz⟩ := elasticInsert_effect hp
    refine ⟨?_, hcap⟩
    show s₂.size ≤ s₂.capacity
    rcases hsz with h1 | ⟨h1, h2⟩ <;> omega
  | rem k =>
    rw [eStep] at h
    obtain ⟨p, hp, hpure⟩ := exceptBind_elim h
    obtain ⟨s₂, b⟩ := p
    cases hpure
    obtain ⟨hcap, hsz⟩ := elasticRemove_effect hp
    refine ⟨?_, hcap⟩
    show s₂.size ≤ s₂.capacity
    rcases hsz with h1 | h1 <;> omega

/-- One mutating step keeps `size ≤ capacity` and never changes the
capacity (funnel variant). -/
theorem fStep_size_le {ht ht' : FunnelHashTable} {op : TOp}
    (hle : ht.size ≤ ht.capacity) (h : fStep ht op = .ok ht') :
    ht'.size ≤ ht'.capacity ∧ ht'.capacity = ht.capacity := by
  cases op with
  | ins k =>
    rw [fStep] at h
    obtain ⟨p, hp, hpure⟩ := exceptBind_elim h
    obtain ⟨s₂, e⟩ := p
    cases hpure
    obtain ⟨hcap, hsz⟩ := funnelInsert_effect hp
    refine ⟨?_, hcap⟩
    show s₂.size ≤ s₂.capacity
    rcases hsz with h1 | ⟨h1, h2⟩ <;> omega
  | rem k =>
    rw [fStep] at h
    obtain ⟨p, hp, hpure⟩ := exceptBind_elim h
    obtain ⟨s₂, b⟩ := p
    cases hpure
    obtain ⟨hcap, hsz⟩ := funnelRemove_effect hp
    refine ⟨?_, hcap⟩
    show s₂.size ≤ s₂.capacity
    rcases hsz with h1 | h1 <;> omega

/-- Along any successful run, `size ≤ capacity` is invariant and the
capacity is constant (elastic variant). -/
theorem eRun_size_le {ops : List TOp} :
    ∀ {ht s : ElasticHashTable}, ht.size ≤ ht.capacity → eRun ht ops = .ok s →
      s.size ≤ s.capacity ∧ s.capacity = ht.capacity := by
  induction ops with
  | nil =>
    intro ht s hle h
    cases h
    exact ⟨hle, rfl⟩
  | cons op ops ih =>
    intro ht s hle h
    rw [eRun] at h
    obtain ⟨ht', hstep, h⟩ := exceptBind_elim h
    obtain ⟨hle', hcap'⟩ := eStep_size_le hle hstep
    obtain ⟨h1, h2⟩ := ih hle' h
    exact ⟨h1, h2.trans hcap'⟩

/-- Along any successful run, `size ≤ capacity` is invariant and the
capacity is constant (funnel variant). -/
theorem fRun_size_le {ops : List TOp} :
    ∀ {ht s : FunnelHashTable}, ht.size ≤ ht.capacity → fRun ht ops = .ok s →
      s.size ≤ s.capacity ∧ s.capacity = ht.capacity := by
  induction ops with
  | nil =>
    intro ht s hle h
    cases h
    exact ⟨hle, rfl⟩
  | cons op ops ih =>
    intro ht s hle h
    rw [fRun] at h
    obtain ⟨ht', hstep, h⟩ := exceptBind_elim h
    obtain ⟨hle', hcap'⟩ := fStep_size_le hle hstep
    obtain ⟨h1, h2⟩ := ih hle' h
    exact ⟨h1, h2.trans hcap'⟩

/-- What `NewElasticHashTable` guarantees about the counters. -/
theorem newElastic_spec {N : Nat} {delta : ℚ} {ht : ElasticHashTable}
    (h : newElasticHashTable N delta = .ok ht) :
    deltaOutOfRange delta = false ∧ ht.size = 0 ∧
    ht.capacity = capacityFormula delta N := by
  unfold newElasticHashTable at h
  split at h
  · cases h
  · rename_i hd
    cases h
    exact ⟨by simpa using hd, rfl, rfl⟩

/-- What `NewFunnelHashTable` guarantees about the counters. -/
theorem newFunnel_spec {N : Nat} {b : Int} {delta : ℚ} {ht : FunnelHashTable}
    (h : newFunnelHashTable N b delta = .ok ht) :
    deltaOutOfRange delta = false ∧ ht.size = 0 ∧
    ht.capacity = capacityFormula delta N := by
  unfold newFunnelHashTable at h
  split at h
  · cases h
  · rename_i hd
    obtain ⟨p, hp, h⟩ := exceptBind_elim h
    obtain ⟨lvls, alloc⟩ := p
    cases h
    exact ⟨by simpa using hd, rfl, rfl⟩

/-- The capacity formula is nonnegative for in-range `delta`. -/
theorem capacityFormula_nonneg {delta : ℚ} (N : Nat)
    (h : deltaOutOfRange delta = false) : 0 ≤ capacityFormula delta N := by
  unfold deltaOutOfRange at h
  simp only [Bool.or_eq_false_iff, decide_eq_false_iff_not, not_lt, not_le] at h
  unfold capacityFormula
  apply Int.tdiv_nonneg
  · apply mul_nonneg
    · omega
    · exact_mod_cast Nat.zero_le N
  · exact_mod_cast Nat.zero_le _

/-- The elastic table of the capacity-invariant witness
(`N = 100`, `delta = 1/4`). -/
def elasticBaseTable : ElasticHashTable :=
  match newElasticHashTable 100 (Rat.divInt 1 4) with
  | .ok ht => ht
  | .error _ => { levels := [], L := 0, R := 0, size := 0, capacity := 0 }

/-- The funnel table of the capacity-invariant witness
(`N = 100`, `b = 4`, `delta = 1/4`). -/
def funnelBaseTable : FunnelHashTable :=
  match newFunnelHashTable 100 4 (Rat.divInt 1 4) with
  | .ok ht => ht
  | .error _ => { levels := [], special := [], b := 0, size := 0, capacity := 0 }

/-- The elastic table after `Insert(5); Insert(7); Remove(5)` on
`elasticBaseTable`. -/
def elasticBaseRun : ElasticHashTable :=
  match eRun elasticBaseTable [.ins 5, .ins 7, .rem 5] with
  | .ok ht => ht
  | .error _ => { levels := [], L := 0, R := 0, size := 0, capacity := 0 }

/-- The funnel table after `Insert(5); Insert(7); Remove(5)` on
`funnelBaseTable`. -/
def funnelBaseRun : FunnelHashTable :=
  match fRun funnelBaseTable [.ins 5, .ins 7, .rem 5] with
  | .ok ht => ht
  | .error _ => { levels := [], special := [], b := 0, size := 0, capacity := 0 }

/-- Guard for the no-false-negative theorem: an operation either inserts a
nonnegative key or removes a key different from `k`. -/
def opOkFor (k : Int) : TOp → Bool
  | .ins j => decide (0 ≤ j)
  | .rem j => decide (j ≠ k)

/-- A run of guarded operations preserves well-formedness and a true
canonical `Contains` verdict for `k`. -/
theorem eRun_preserves_contains {k : Int} (hk : 0 ≤ k) :
    ∀ {ops : List TOp} {ht s : ElasticHashTable},
      ops.all (opOkFor k) = true →
      elasticWF ht = true → containsCanon ht k = true →
      eRun ht ops = .ok s →
      elasticWF s = true ∧ containsCanon s k = true := by
  intro ops
  induction ops with
  | nil =>
    intro ht s _ hwf hc h
    cases h
    exact ⟨hwf, hc⟩
  | cons op ops ih =>
    intro ht s hops hwf hc h
    rw [List.all_cons, Bool.and_eq_true] at hops
    rw [eRun] at h
    obtain ⟨ht', hstep, h⟩ := exceptBind_elim h
    cases op with
    | ins j =>
      rw [eStep] at hstep
      obtain ⟨p, hp, hpure⟩ := exceptBind_elim hstep
      obtain ⟨s₂, e⟩ := p
      cases hpure
      have hj : 0 ≤ j := of_decide_eq_true hops.1
      obtain ⟨hwf', hmono⟩ := elasticInsert_WF_mono ht s₂ j e hwf hj hp
      exact ih hops.2 hwf' (hmono k hk hc) h
    | rem j =>
      rw [eStep] at hstep
      obtain ⟨p, hp, hpure⟩ := exceptBind_elim hstep
      obtain ⟨s₂, b⟩ := p
      cases hpure
      have hne : j ≠ k := of_decide_eq_true hops.1
      obtain ⟨hwf', hmono⟩ := elasticRemove_WF_mono ht s₂ j b hwf hp
      exact ih hops.2 hwf' (hmono k (Ne.symm hne) hc) h

/-- C1: on a well-formed elastic table, a key whose `Insert` returned a nil
error and that is not removed by any later operation is still reported
present by `Contains` after any interleaving of further inserts of
(nonnegative) keys and removals of other keys — in particular tombstones
left by those removals never mask it. -/
theorem elastic_no_false_negatives
    (s s₁ sFin : ElasticHashTable) (k : Int) (ops : List TOp)
    (hwf : elasticWF s = true) (hk : 0 ≤ k)
    (hins : elasticInsert s k = .ok (s₁, none))
    (hops : ops.all (opOkFor k) = true)
    (hrun : eRun s₁ ops = .ok sFin) :
    elasticContains sFin k = .ok true := by
  obtain ⟨hwf₁, _⟩ := elasticInsert_WF_mono s s₁ k none hwf hk hins
  have hc₁ := elasticInsert_contains s s₁ k hwf hk hins
  obtain ⟨hwfF, hcF⟩ := eRun_preserves_contains hk hops hwf₁ hc₁ hrun
  rw [elasticContains_eq sFin k hwfF, hcF]

/-- The table after `Insert(4)` on `elasticBaseTable`. -/
def elasticC1Mid : ElasticHashTable :=
  match elasticInsert elasticBaseTable 4 with
  | .ok (ht, _) => ht
  | .error _ => { levels := [], L := 0, R := 0, size := 0, capacity := 0 }

/-- The table after `Insert(6); Remove(6); Insert(8)` on `elasticC1Mid`. -/
def elasticC1Fin : ElasticHashTable :=
  match eRun elasticC1Mid [.ins 6, .rem 6, .ins 8] with
  | .ok ht => ht
  | .error _ => { levels := [], L := 0, R := 0, size := 0, capacity := 0 }

/-- Witness for `elastic_no_false_negatives`: on the `N = 100`,
`delta = 1/4` table, insert 4, then insert 6, remove 6 (leaving a
tombstone), insert 8; `Contains(4)` still returns true. -/
theorem elastic_no_false_negatives_witness :
    (elasticWF elasticBaseTable = true ∧ (0 : Int) ≤ 4 ∧
     elasticInsert elasticBaseTable 4 = .ok (elasticC1Mid, none) ∧
     ([TOp.ins 6, TOp.rem 6, TOp.ins 8].all (opOkFor 4) = true) ∧
     eRun elasticC1Mid [.ins 6, .rem 6, .ins 8] = .ok elasticC1Fin) ∧
    elasticContains elasticC1Fin 4 = .ok true :=
  ⟨⟨by decide, by decide, by decide, by decide, by decide⟩,
   elastic_no_false_negatives elasticBaseTable elasticC1Mid elasticC1Fin 4
     [.ins 6, .rem 6, .ins 8]
     (by decide) (by decide) (by decide) (by decide) (by decide)⟩

/-- Closed form of the front-level allocation loop at `L = R = 4`. -/
theorem elasticAllocFront_spec (N : Nat) :
    elasticAllocFront 4 3 N =
      ([List.replicate (min 4 N) EMPTY,
        List.replicate (min 4 (N - 4)) EMPTY,
        List.replicate (min 4 (N - 8)) EMPTY], N - 12) := by
  have h2 : N - min 4 N = N - 4 := by omega
  have h3 : N - 4 - min 4 (N - 4) = N - 8 := by omega
  have h4 : N - 8 - min 4 (N - 8) = N - 12 := by omega
  simp only [elasticAllocFront, h2, h3, h4]

/-- Closed form of `NewElasticHashTable` for in-range `delta`: the
constructor always succeeds, with level sizes
`min 4 N, min 4 (N-4), min 4 (N-8), max (N-12) 1`. -/
theorem newElastic_ok (N : Nat) (delta : ℚ) (h : deltaOutOfRange delta = false) :
    newElasticHashTable N delta =
      .ok { levels := [List.replicate (min 4 N) EMPTY,
                       List.replicate (min 4 (N - 4)) EMPTY,
                       List.replicate (min 4 (N - 8)) EMPTY,
                       List.replicate (max (N - 12) 1) EMPTY],
            L := 4, R := 4, size := 0, capacity := capacityFormula delta N } := by
  unfold newElasticHashTable
  rw [if_neg (by simp [h])]
  have halloc : elasticAllocFront 4 (4 - 1) N =
      ([List.replicate (min 4 N) EMPTY,
        List.replicate (min 4 (N - 4)) EMPTY,
        List.replicate (min 4 (N - 8)) EMPTY], N - 12) := elasticAllocFront_spec N
  simp only [halloc]
  rfl

/-- For `N ≥ 9` the constructed elastic table is well-formed. -/
theorem newElastic_WF {N : Nat} {delta : ℚ} {ht : ElasticHashTable} (hN : 9 ≤ N)
    (h : newElasticHashTable N delta = .ok ht) : elasticWF ht = true := by
  have hd : deltaOutOfRange delta = false := (newElastic_spec h).1
  rw [newElastic_ok N delta hd] at h
  have hht := (Except.ok.inj h)
  subst hht
  refine elasticWF_intro _ rfl rfl rfl ?_ ?_
  · intro i hi
    match i, hi with
    | 0, _ => simp only [lvlAt, List.getD, List.length_replicate]; constructor <;> [skip; skip] <;> simp <;> omega
    | 1, _ => simp only [lvlAt, List.getD, List.length_replicate]; constructor <;> [skip; skip] <;> simp <;> omega
    | 2, _ => simp only [lvlAt, List.getD, List.length_replicate]; constructor <;> [skip; skip] <;> simp <;> omega
  · simp only [lvlAt, List.getD]
    simp

/-- A `Contains` scan over an all-EMPTY level fails (for a valid key). -/
theorem scanContains_replicate_empty {key : Int} (hk : 0 ≤ key) (m : Nat) :
    ∀ ps : List Nat, (∀ p ∈ ps, p < m) →
      scanContains (List.replicate m EMPTY) key ps = false := by
  intro ps hb
  cases ps with
  | nil => rfl
  | cons p ps =>
    have hp : p < m := hb p (List.mem_cons_self _ _)
    rw [scanContains]
    have hget : (List.replicate m EMPTY).getD p 0 = EMPTY := by
      rw [List.getD_eq_getElem?_getD, List.getElem?_replicate]
      simp [hp]
    rw [hget, if_neg (by have : EMPTY = -1 := rfl; omega), if_pos rfl]

/-- A `Remove` scan over an all-EMPTY level finds nothing (for a valid
key). -/
theorem scanKey_replicate_empty {key : Int} (hk : 0 ≤ key) (m : Nat) :
    ∀ ps : List Nat, (∀ p ∈ ps, p < m) →
      scanKey (List.replicate m EMPTY) key ps = none := by
  intro ps hb
  cases ps with
  | nil => rfl
  | cons p ps =>
    have hp : p < m := hb p (List.mem_cons_self _ _)
    rw [scanKey]
    have hget : (List.replicate m EMPTY).getD p 0 = EMPTY := by
      rw [List.getD_eq_getElem?_getD, List.getElem?_replicate]
      simp [hp]
    rw [hget, if_neg (by have : EMPTY = -1 := rfl; omega), if_pos rfl]

/-- On a fresh table with `N ≤ 8` (so the third level has zero slots),
`Contains` panics with the division-by-zero of the hash function. -/
theorem elasticFresh_contains_error (N : Nat) (delta : ℚ) (key : Int)
    (hk : 0 ≤ key) (hN : N ≤ 8) (hd : deltaOutOfRange delta = false)
    {ht : ElasticHashTable} (h : newElasticHashTable N delta = .ok ht) :
    elasticContains ht key = .error divByZeroMsg := by
  rw [newElastic_ok N delta hd] at h
  have hrec := Except.ok.inj h
  have h8 : N - 8 = 0 := by omega
  have hL : ht.L = 4 := by rw [← hrec]
  have hR : ht.R = 4 := by rw [← hrec]
  have hg0 : ht.levels.get? 0 = some (List.replicate (min 4 N) EMPTY) := by
    rw [← hrec]
    rfl
  have hg1 : ht.levels.get? 1 = some (List.replicate (min 4 (N - 4)) EMPTY) := by
    rw [← hrec]
    rfl
  have hg2 : ht.levels.get? 2 = some [] := by
    rw [← hrec, h8]
    rfl
  have herrlvl : ∀ i : Nat, elasticContainsLevel key [] i 4 = .error divByZeroMsg :=
    fun i => rfl
  have hfront : ∀ m i, 0 < m → m ≤ 16 →
      elasticContainsLevel key (List.replicate m EMPTY) i 4 = .ok false := by
    intro m i hm hm16
    rw [elasticContainsLevel_eq key _ i 4 (by simpa using hm) (by simpa using hm16)]
    rw [scanContains_replicate_empty hk m _ (fun p hp => by
      have := probeAux_mem_lt (m := m) (by simpa using hm) (by simpa using hp)
      simpa using this)]
  have hFL : elasticContainsFrontLoop ht key 0 3 = .error divByZeroMsg := by
    rw [elasticContainsFrontLoop]
    simp only [hg0, hR]
    by_cases h1 : min 4 N = 0
    · rw [h1]
      rw [show List.replicate 0 EMPTY = [] from rfl, herrlvl 0]
      rfl
    · rw [hfront (min 4 N) 0 (by omega) (by omega), exceptBind_ok,
        if_neg (by simp)]
      rw [elasticContainsFrontLoop]
      simp only [hg1, hR]
      by_cases h2 : min 4 (N - 4) = 0
      · rw [h2]
        rw [show List.replicate 0 EMPTY = [] from rfl, herrlvl 1]
        rfl
      · rw [hfront (min 4 (N - 4)) 1 (by omega) (by omega), exceptBind_ok,
          if_neg (by simp)]
        rw [elasticContainsFrontLoop]
        simp only [hg2, hR]
        rw [herrlvl 2]
        rfl
  rw [elasticContains, hL, show (4 : Nat) - 1 = 3 from rfl, hFL]
  rfl

/-- On a fresh table with `N ≤ 8`, `Remove` panics with the
division-by-zero of the hash function. -/
theorem elasticFresh_remove_error (N : Nat) (delta : ℚ) (key : Int)
    (hk : 0 ≤ key) (hN : N ≤ 8) (hd : deltaOutOfRange delta = false)
    {ht : ElasticHashTable} (h : newElasticHashTable N delta = .ok ht) :
    elasticRemove ht key = .error divByZeroMsg := by
  rw [newElastic_ok N delta hd] at h
  have hrec := Except.ok.inj h
  have h8 : N - 8 = 0 := by omega
  have hL : ht.L = 4 := by rw [← hrec]
  have hR : ht.R = 4 := by rw [← hrec]
  have hg0 : ht.levels.get? 0 = some (List.replicate (min 4 N) EMPTY) := by
    rw [← hrec]
    rfl
  have hg1 : ht.levels.get? 1 = some (List.replicate (min 4 (N - 4)) EMPTY) := by
    rw [← hrec]
    rfl
  have hg2 : ht.levels.get? 2 = some [] := by
    rw [← hrec, h8]
    rfl
  have herrlvl : ∀ i : Nat,
      elasticRemoveLevelLoop key [] i (List.replicate 16 false) 0 4 =
        .error divByZeroMsg := fun i => rfl
  have hfront : ∀ m i, 0 < m → m ≤ 16 →
      elasticRemoveLevelLoop key (List.replicate m EMPTY) i
        (List.replicate 16 false) 0 4 = .ok none := by
    intro m i hm hm16
    rw [elasticRemoveLevelLoop_eq key _ i (by simpa using hm) (by simpa using hm16)
      (by simp)]
    rw [scanKey_replicate_empty hk m _ (fun p hp => by
      have := probeAux_mem_lt (m := m) (by simpa using hm) (by simpa using hp)
      simpa using this)]
  have hFL : elasticRemoveFrontLoop ht key 0 3 = .error divByZeroMsg := by
    rw [elasticRemoveFrontLoop]
    simp only [hg0, hR]
    by_cases h1 : min 4 N = 0
    · rw [h1]
      rw [show List.replicate 0 EMPTY = [] from rfl, herrlvl 0]
      rfl
    · rw [hfront (min 4 N) 0 (by omega) (by omega), exceptBind_ok]
      rw [elasticRemoveFrontLoop]
      simp only [hg1, hR]
      by_cases h2 : min 4 (N - 4) = 0
      · rw [h2]
        rw [show List.replicate 0 EMPTY = [] from rfl, herrlvl 1]
        rfl
      · rw [hfront (min 4 (N - 4)) 1 (by omega) (by omega), exceptBind_ok]
        rw [elasticRemoveFrontLoop]
        simp only [hg2, hR]
        rw [herrlvl 2]
        rfl
  rw [elasticRemove, hL, show (4 : Nat) - 1 = 3 from rfl, hFL]
  rfl

/-- On a fresh table with `N ≤ 8`, `Insert` returns the CapacityExceeded
error when the capacity is not positive, and otherwise panics inside the
duplicate check. -/
theorem elasticFresh_insert_error (N : Nat) (delta : ℚ) (key : Int)
    (hk : 0 ≤ key) (hN : N ≤ 8) (hd : deltaOutOfRange delta = false)
    {ht : ElasticHashTable} (h : newElasticHashTable N delta = .ok ht) :
    elasticInsert ht key =
      if ht.capacity ≤ 0 then
        .ok (ht, some "hash table is full (max load reached)")
      else .error divByZeroMsg := by
  have hc := elasticFresh_contains_error N delta key hk hN hd h
  have hsz : ht.size = 0 := (newElastic_spec h).2.1
  rw [elasticInsert, hsz]
  by_cases hcap : ht.capacity ≤ 0
  · rw [if_pos hcap, if_pos hcap]
  · rw [if_neg hcap, if_neg hcap, hc]
    rfl

/-- On a well-formed elastic table all three operations return (no panic). -/
theorem elastic_total_of_WF (ht : ElasticHashTable) (key : Int)
    (hwf : elasticWF ht = true) :
    (∃ v, elasticContains ht key = .ok v) ∧
    (∃ v, elasticInsert ht key = .ok v) ∧
    (∃ v, elasticRemove ht key = .ok v) := by
  refine ⟨⟨_, elasticContains_eq ht key hwf⟩, ?_, ?_⟩
  · rw [elasticInsert_eq ht key hwf]
    by_cases hcap : ht.capacity ≤ ht.size
    · rw [if_pos hcap]
      exact ⟨_, rfl⟩
    · rw [if_neg hcap]
      by_cases hc : containsCanon ht key = true
      · rw [if_pos hc]
        exact ⟨_, rfl⟩
      · rw [if_neg hc]
        rcases hfind : insertFind ht key 0 3 with _ | ⟨i, pos⟩
        · rcases hlast : scanFree (lvlAt ht 3) (elasticLastOf ht key) with _ | pos
          · exact ⟨_, rfl⟩
          · exact ⟨_, rfl⟩
        · exact ⟨_, rfl⟩
  · rw [elasticRemove_eq ht key hwf]
    rcases hfind : removeFind ht key 0 3 with _ | ⟨i, pos⟩
    · rcases hlast : scanKey (lvlAt ht 3) key (elasticLastOf ht key) with _ | pos
      · exact ⟨_, rfl⟩
      · exact ⟨_, rfl⟩
    · exact ⟨_, rfl⟩

/-- C10: the elastic constructor succeeds for every `N` with in-range
`delta`; all four levels are nonempty exactly when `N ≥ 9`; for `N ≤ 8`
(where an intermediate level has zero slots) every `Contains` or `Remove`
of a valid key on the fresh table panics with an integer division by zero,
and `Insert` panics too unless the capacity is already exhausted, in which
case it returns the CapacityExceeded error without evaluating the hash; for
`N ≥ 9` all three operations return without panicking. -/
theorem elastic_smallN_behavior (N : Nat) (delta : ℚ) (key : Int)
    (hd : deltaOutOfRange delta = false) (hk : 0 ≤ key) :
    (∃ ht, newElasticHashTable N delta = .ok ht) ∧
    (∀ ht, newElasticHashTable N delta = .ok ht →
      (((ht.levels.all fun lvl => decide (0 < lvl.length)) = true) ↔ 9 ≤ N) ∧
      (N ≤ 8 →
        elasticContains ht key = .error divByZeroMsg ∧
        elasticRemove ht key = .error divByZeroMsg ∧
        elasticInsert ht key =
          (if ht.capacity ≤ 0 then
            .ok (ht, some "hash table is full (max load reached)")
          else .error divByZeroMsg)) ∧
      (9 ≤ N →
        (∃ v, elasticContains ht key = .ok v) ∧
        (∃ v, elasticInsert ht key = .ok v) ∧
        (∃ v, elasticRemove ht key = .ok v))) := by
  refine ⟨⟨_, newElastic_ok N delta hd⟩, ?_⟩
  intro ht h
  have h0 := h
  rw [newElastic_ok N delta hd] at h
  have hrec := Except.ok.inj h
  refine ⟨?_, ?_, ?_⟩
  · rw [← hrec]
    simp only [List.all_cons, List.all_nil, List.length_replicate,
      Bool.and_eq_true, decide_eq_true_eq, Bool.and_true]
    omega
  · intro hN
    exact ⟨elasticFresh_contains_error N delta key hk hN hd h0,
      elasticFresh_remove_error N delta key hk hN hd h0,
      elasticFresh_insert_error N delta key hk hN hd h0⟩
  · intro hN
    exact elastic_total_of_WF ht key (newElastic_WF hN h0)

/-- Witness for `elastic_smallN_behavior` at `N = 8`, `delta = 15/16`,
`key = 5`. -/
theorem elastic_smallN_behavior_witness :
    (deltaOutOfRange (Rat.divInt 15 16) = false ∧ (0 : Int) ≤ 5) ∧
    ((∃ ht, newElasticHashTable 8 (Rat.divInt 15 16) = .ok ht) ∧
     (∀ ht, newElasticHashTable 8 (Rat.divInt 15 16) = .ok ht →
      (((ht.levels.all fun lvl => decide (0 < lvl.length)) = true) ↔ 9 ≤ 8) ∧
      (8 ≤ 8 →
        elasticContains ht 5 = .error divByZeroMsg ∧
        elasticRemove ht 5 = .error divByZeroMsg ∧
        elasticInsert ht 5 =
          (if ht.capacity ≤ 0 then
            .ok (ht, some "hash table is full (max load reached)")
          else .error divByZeroMsg)) ∧
      (9 ≤ 8 →
        (∃ v, elasticContains ht 5 = .ok v) ∧
        (∃ v, elasticInsert ht 5 = .ok v) ∧
        (∃ v, elasticRemove ht 5 = .ok v)))) :=
  ⟨⟨by decide, by decide⟩,
   elastic_smallN_behavior 8 (Rat.divInt 15 16) 5 (by decide) (by decide)⟩

/-! ## Canonical funnel scans

The funnel operations visit, per level, the `b` consecutive slots of one
bucket (its index depending only on the key and the level geometry), and
then the special array along a wraparound scan.  The definitions below
replay those loops as plain list scans over the visited flat positions. -/

/-- The default `Level` used by `getD` on the level list. -/
def defaultLevel : Level := { slots := [], numBuckets := 0, mask := 0 }

/-- Level `i` of a funnel table (the code indexes only in range). -/
def lvlF (ht : FunnelHashTable) (i : Nat) : Level := ht.levels.getD i defaultLevel

/-- The bucket index `hashFunc` computes for `key` in a level. -/
def funnelBucketIdx (lvl : Level) (key : Int) : Nat :=
  if 0 < lvl.mask then funnelMix32 key &&& lvl.mask
  else funnelMix32 key % uint32Cast lvl.numBuckets

/-- The flat slot positions of the bucket visited for `key` in a level. -/
def bucketPs (b : Nat) (lvl : Level) (key : Int) : List Nat :=
  List.range' (funnelBucketIdx lvl key * b) b

/-- Whole-bucket duplicate test of `Insert` (no EMPTY cutoff). -/
def listHasKey (l : List Int) (k : Int) : List Nat → Bool
  | [] => false
  | p :: ps => if l.getD p 0 = k then true else listHasKey l k ps

/-- First EMPTY position of a scan (the `Insert` write search). -/
def scanEmpty (l : List Int) : List Nat → Option Nat
  | [] => none
  | p :: ps => if l.getD p 0 = EMPTY then some p else scanEmpty l ps

/-- The special-array probe of `Insert`: key check before EMPTY check. -/
def scanIns (l : List Int) (k : Int) : List Nat → Option (Unit ⊕ Nat)
  | [] => none
  | p :: ps =>
    if l.getD p 0 = k then some (.inl ())
    else if l.getD p 0 = EMPTY then some (.inr p)
    else scanIns l k ps

/-- The canonical start position of the special-array probes. -/
def specialStart (ht : FunnelHashTable) (key : Int) : Nat :=
  ((uint32Cast key * 0x9e3779b1) % 2 ^ 32) % ht.special.length

/-- The canonical special-array position list. -/
def specialPs (ht : FunnelHashTable) (key : Int) : List Nat :=
  lastList ht.special.length (specialStart ht key)

/-- Canonical form of the `Insert` level loop. -/
def funnelLevelFind (ht : FunnelHashTable) (key : Int) :
    Nat → Nat → Option (Unit ⊕ Nat × Nat)
  | _, 0 => none
  | i, fuel + 1 =>
    if listHasKey (lvlF ht i).slots key (bucketPs ht.b.toNat (lvlF ht i) key) then
      some (.inl ())
    else match scanEmpty (lvlF ht i).slots (bucketPs ht.b.toNat (lvlF ht i) key) with
      | some p => some (.inr (i, p))
      | none => funnelLevelFind ht key (i + 1) fuel

/-- Canonical form of the `Contains` level loop. -/
def funnelLevelHas (ht : FunnelHashTable) (key : Int) : Nat → Nat → Bool
  | _, 0 => false
  | i, fuel + 1 =>
    scanContains (lvlF ht i).slots key (bucketPs ht.b.toNat (lvlF ht i) key) ||
      funnelLevelHas ht key (i + 1) fuel

/-- Canonical form of the `Remove` level loop. -/
def funnelLevelRemoveFind (ht : FunnelHashTable) (key : Int) :
    Nat → Nat → Option (Nat × Nat)
  | _, 0 => none
  | i, fuel + 1 =>
    match scanKey (lvlF ht i).slots key (bucketPs ht.b.toNat (lvlF ht i) key) with
    | some p => some (i, p)
    | none => funnelLevelRemoveFind ht key (i + 1) fuel

/-- Canonical value of `Contains` on a well-formed funnel table. -/
def funnelContainsCanon (ht : FunnelHashTable) (key : Int) : Bool :=
  funnelLevelHas ht key 0 ht.levels.length ||
    scanContains ht.special key (specialPs ht key)

/-- Unpacking of `funnelWF`. -/
theorem funnelWF_spec (ht : FunnelHashTable) (h : funnelWF ht = true) :
    1 ≤ ht.b ∧
    (∀ lvl ∈ ht.levels,
      0 < lvl.numBuckets ∧
      lvl.slots.length = (lvl.numBuckets * ht.b).toNat ∧
      lvl.mask < lvl.numBuckets.toNat ∧
      (0 < lvl.mask ∨ 0 < uint32Cast lvl.numBuckets)) ∧
    0 < ht.special.length ∧ ht.special.length < 2 ^ 32 := by
  unfold funnelWF at h
  simp only [Bool.and_eq_true, List.all_eq_true, Bool.or_eq_true,
    decide_eq_true_eq] at h
  obtain ⟨⟨⟨hb, hl⟩, hs⟩, hs32⟩ := h
  exact ⟨hb, fun lvl hm => by
    obtain ⟨⟨⟨h1, h2⟩, h3⟩, h4⟩ := hl lvl hm
    exact ⟨h1, h2, h3, h4⟩, hs, hs32⟩

/-- The bucket index is below the bucket count. -/
theorem funnelBucketIdx_lt (lvl : Level) (key : Int)
    (hnb : 0 < lvl.numBuckets) (hmask : lvl.mask < lvl.numBuckets.toNat)
    (hnz : 0 < lvl.mask ∨ 0 < uint32Cast lvl.numBuckets) :
    funnelBucketIdx lvl key < lvl.numBuckets.toNat := by
  unfold funnelBucketIdx
  split
  · exact lt_of_le_of_lt (Nat.and_le_right) hmask
  · rename_i hm
    rcases hnz with hz | hz
    · exact absurd hz hm
    · have h1 : funnelMix32 key % uint32Cast lvl.numBuckets <
          uint32Cast lvl.numBuckets := Nat.mod_lt _ hz
      have h2 : uint32Cast lvl.numBuckets ≤ lvl.numBuckets.toNat := by
        unfold uint32Cast
        omega
      omega

/-- Reading at a nonnegative in-bounds `int` index. -/
theorem slotReadInt_ok {l : List Int} {idx : Int} (h0 : 0 ≤ idx)
    (hlt : idx.toNat < l.length) :
    slotReadInt l idx = .ok (l.getD idx.toNat 0) := by
  unfold slotReadInt
  rw [if_neg (by omega)]
  exact slotRead_ok hlt

/-- `hashFunc` on a well-formed level. -/
theorem funnelHashFunc_eq (ht : FunnelHashTable) (key : Int) (i : Nat)
    (lvl : Level) (hg : ht.levels.get? i = some lvl)
    (hnz : 0 < lvl.mask ∨ 0 < uint32Cast lvl.numBuckets) :
    funnelHashFunc ht key i = .ok (funnelBucketIdx lvl key) := by
  have hred : funnelHashFunc ht key i =
      (if 0 < lvl.mask then .ok (funnelMix32 key &&& lvl.mask)
       else if uint32Cast lvl.numBuckets = 0 then .error divByZeroMsg
       else .ok (funnelMix32 key % uint32Cast lvl.numBuckets)) := by
    unfold funnelHashFunc
    rw [hg]
  rw [hred]
  unfold funnelBucketIdx
  split
  · rfl
  · rename_i hm
    rcases hnz with hz | hz
    · exact absurd hz hm
    · rw [if_neg (by omega)]

/-- The duplicate-check bucket loop of `Insert` as a canonical scan. -/
theorem funnelBucketFindKey_eq (key : Int) (slots : List Int) (s : Nat) :
    ∀ {j fuel : Nat}, s + j + fuel ≤ slots.length →
      funnelBucketFindKey key slots (s : Int) j fuel =
        .ok (listHasKey slots key (List.range' (s + j) fuel)) := by
  intro j fuel
  induction fuel generalizing j with
  | zero => intro _; rfl
  | succ fuel ih =>
    intro hb
    rw [funnelBucketFindKey]
    have hidx : ((s : Int) + (j : Nat)) = (((s + j : Nat) : Nat) : Int) := by
      push_cast
      ring
    rw [hidx, slotReadInt_ok (by omega) (by omega), Int.toNat_natCast, exceptBind_ok]
    rw [List.range'_succ, listHasKey]
    by_cases hk : slots.getD (s + j) 0 = key
    · rw [if_pos hk, if_pos hk]
      rfl
    · rw [if_neg hk, if_neg hk]
      have := ih (j := j + 1) (by omega)
      rw [show s + (j + 1) = s + j + 1 from by omega] at this
      rw [this]

/-- The empty-slot bucket loop of `Insert` as a canonical scan (the code
returns the offset within the bucket, the scan the flat position). -/
theorem funnelBucketFindEmpty_eq (slots : List Int) (s : Nat) :
    ∀ {j fuel : Nat}, s + j + fuel ≤ slots.length →
      funnelBucketFindEmpty slots (s : Int) j fuel =
        .ok ((scanEmpty slots (List.range' (s + j) fuel)).map (fun p => p - s)) := by
  intro j fuel
  induction fuel generalizing j with
  | zero => intro _; rfl
  | succ fuel ih =>
    intro hb
    rw [funnelBucketFindEmpty]
    have hidx : ((s : Int) + (j : Nat)) = (((s + j : Nat) : Nat) : Int) := by
      push_cast
      ring
    rw [hidx, slotReadInt_ok (by omega) (by omega), Int.toNat_natCast, exceptBind_ok]
    rw [List.range'_succ, scanEmpty]
    by_cases he : slots.getD (s + j) 0 = EMPTY
    · rw [if_pos he, if_pos he]
      have hmap : Option.map (fun p => p - s) (some (s + j)) = some j := by
        simp
      rw [hmap]
      rfl
    · rw [if_neg he, if_neg he]
      have := ih (j := j + 1) (by omega)
      rw [show s + (j + 1) = s + j + 1 from by omega] at this
      rw [this]

/-- The plain bucket loop of `Contains` as a canonical scan. -/
theorem funnelContainsBucketLoop_eq (key : Int) (slots : List Int) (s : Nat) :
    ∀ {j fuel : Nat}, s + j + fuel ≤ slots.length →
      funnelContainsBucketLoop key slots (s : Int) j fuel =
        .ok (scanContains slots key (List.range' (s + j) fuel)) := by
  intro j fuel
  induction fuel generalizing j with
  | zero => intro _; rfl
  | succ fuel ih =>
    intro hb
    rw [funnelContainsBucketLoop]
    have hidx : ((s : Int) + (j : Nat)) = (((s + j : Nat) : Nat) : Int) := by
      push_cast
      ring
    rw [List.range'_succ, scanContains]
    unfold funnelContainsSlot
    rw [hidx, slotReadInt_ok (by omega) (by omega), Int.toNat_natCast, exceptBind_ok]
    by_cases hk : slots.getD (s + j) 0 = key
    · rw [if_pos hk, if_pos hk]
      rfl
    · rw [if_neg hk, if_neg hk]
      by_cases he : slots.getD (s + j) 0 = EMPTY
      · rw [if_pos he, if_pos he]
        rfl
      · rw [if_neg he, if_neg he]
        have := ih (j := j + 1) (by omega)
        rw [show s + (j + 1) = s + j + 1 from by omega] at this
        exact this

/-- The bucket loop of the modelled `Remove` as a canonical scan. -/
theorem funnelRemoveBucketLoop_eq (key : Int) (slots : List Int) (s : Nat) :
    ∀ {j fuel : Nat}, s + j + fuel ≤ slots.length →
      funnelRemoveBucketLoop key slots (s : Int) j fuel =
        .ok ((scanKey slots key (List.range' (s + j) fuel)).map (fun p => p - s)) := by
  intro j fuel
  induction fuel generalizing j with
  | zero => intro _; rfl
  | succ fuel ih =>
    intro hb
    rw [funnelRemoveBucketLoop]
    have hidx : ((s : Int) + (j : Nat)) = (((s + j : Nat) : Nat) : Int) := by
      push_cast
      ring
    rw [hidx, slotReadInt_ok (by omega) (by omega), Int.toNat_natCast, exceptBind_ok]
    rw [List.range'_succ, scanKey]
    by_cases hk : slots.getD (s + j) 0 = key
    · rw [if_pos hk, if_pos hk]
      have hmap : Option.map (fun p => p - s) (some (s + j)) = some j := by
        simp
      rw [hmap]
      rfl
    · rw [if_neg hk, if_neg hk]
      by_cases he : slots.getD (s + j) 0 = EMPTY
      · rw [if_pos he, if_pos he]
        rfl
      · rw [if_neg he, if_neg he]
        have := ih (j := j + 1) (by omega)
        rw [show s + (j + 1) = s + j + 1 from by omega] at this
        rw [this]

/-- The special-array probe loop of `Contains` (mod reduction) as a
canonical scan. -/
theorem funnelSpecialContainsLoop_eq (key : Int) (special : List Int)
    (hm : 0 < special.length) :
    ∀ {start offset fuel : Nat},
      funnelSpecialContainsLoop key special (fun x => x % special.length)
        start offset fuel =
        .ok (scanContains special key (lastAux special.length start offset fuel)) := by
  intro start offset fuel
  induction fuel generalizing offset with
  | zero => rfl
  | succ fuel ih =>
    rw [funnelSpecialContainsLoop, lastAux, scanContains]
    rw [slotRead_ok (Nat.mod_lt _ hm), exceptBind_ok]
    by_cases hk : special.getD ((start + offset) % special.length) 0 = key
    · rw [if_pos hk, if_pos hk]
      rfl
    · rw [if_neg hk, if_neg hk]
      by_cases he : special.getD ((start + offset) % special.length) 0 = EMPTY
      · rw [if_pos he, if_pos he]
        rfl
      · rw [if_neg he, if_neg he]
        exact ih

/-- The special-array probe loop of `Insert` (mod reduction) as a canonical
scan. -/
theorem funnelSpecialInsertLoop_eq (key : Int) (special : List Int)
    (hm : 0 < special.length) :
    ∀ {start offset fuel : Nat},
      funnelSpecialInsertLoop key special (fun x => x % special.length)
        start offset fuel =
        .ok (scanIns special key (lastAux special.length start offset fuel)) := by
  intro start offset fuel
  induction fuel generalizing offset with
  | zero => rfl
  | succ fuel ih =>
    rw [funnelSpecialInsertLoop, lastAux, scanIns]
    rw [slotRead_ok (Nat.mod_lt _ hm), exceptBind_ok]
    by_cases hk : special.getD ((start + offset) % special.length) 0 = key
    · rw [if_pos hk, if_pos hk]
      rfl
    · rw [if_neg hk, if_neg hk]
      by_cases he : special.getD ((start + offset) % special.length) 0 = EMPTY
      · rw [if_pos he, if_pos he]
        rfl
      · rw [if_neg he, if_neg he]
        exact ih

/-- The special-array probe loop of the modelled `Remove` (mod reduction)
as a canonical scan. -/
theorem funnelSpecialRemoveLoop_eq (key : Int) (special : List Int)
    (hm : 0 < special.length) :
    ∀ {start offset fuel : Nat},
      funnelSpecialRemoveLoop key special (fun x => x % special.length)
        start offset fuel =
        .ok (scanKey special key (lastAux special.length start offset fuel)) := by
  intro start offset fuel
  induction fuel generalizing offset with
  | zero => rfl
  | succ fuel ih =>
    rw [funnelSpecialRemoveLoop, lastAux, scanKey]
    rw [slotRead_ok (Nat.mod_lt _ hm), exceptBind_ok]
    by_cases hk : special.getD ((start + offset) % special.length) 0 = key
    · rw [if_pos hk, if_pos hk]
      rfl
    · rw [if_neg hk, if_neg hk]
      by_cases he : special.getD ((start + offset) % special.length) 0 = EMPTY
      · rw [if_pos he, if_pos he]
        rfl
      · rw [if_neg he, if_neg he]
        exact ih

/-- One unrolled slot check of the `Contains` bucket switch extends a
canonical scan by one position. -/
theorem funnelContainsSlot_cons (key : Int) (slots : List Int) (p : Nat)
    (hp : p < slots.length) (rest : Except String Bool) (ps : List Nat)
    (hrest : rest = .ok (scanContains slots key ps)) :
    (do
      match ← funnelContainsSlot key slots (p : Int) with
      | .inl b => pure b
      | .inr () => rest) = .ok (scanContains slots key (p :: ps)) := by
  unfold funnelContainsSlot
  rw [slotReadInt_ok (by omega) (by simpa using hp), Int.toNat_natCast]
  simp only [exceptBind_ok]
  rw [scanContains]
  by_cases hk : slots.getD p 0 = key
  · rw [if_pos hk, if_pos hk]
    rfl
  · rw [if_neg hk, if_neg hk]
    by_cases he : slots.getD p 0 = EMPTY
    · rw [if_pos he, if_pos he]
      rfl
    · rw [if_neg he, if_neg he, hrest]
      rfl

/-- The unrolled bucket switch of `Contains` equals the canonical bucket
scan. -/
theorem funnelContainsBucket_eq (ht : FunnelHashTable) (key : Int)
    (slots : List Int) (s : Nat) (hb : 1 ≤ ht.b)
    (hlen : s + ht.b.toNat ≤ slots.length) :
    funnelContainsBucket ht key slots (s : Int) =
      .ok (scanContains slots key (List.range' s ht.b.toNat)) := by
  unfold funnelContainsBucket
  by_cases h8 : 8 ≤ ht.b
  · rw [if_pos h8]
    have hb8 : 8 ≤ ht.b.toNat := by omega
    rw [show (s : Int) + 1 = ((s + 1 : Nat) : Int) from by push_cast; ring,
      show (s : Int) + 2 = ((s + 2 : Nat) : Int) from by push_cast; ring,
      show (s : Int) + 3 = ((s + 3 : Nat) : Int) from by push_cast; ring,
      show (s : Int) + 4 = ((s + 4 : Nat) : Int) from by push_cast; ring,
      show (s : Int) + 5 = ((s + 5 : Nat) : Int) from by push_cast; ring,
      show (s : Int) + 6 = ((s + 6 : Nat) : Int) from by push_cast; ring,
      show (s : Int) + 7 = ((s + 7 : Nat) : Int) from by push_cast; ring]
    conv_rhs =>
      rw [show ht.b.toNat =
        ((((((((ht.b.toNat - 8) + 1) + 1) + 1) + 1) + 1) + 1) + 1) + 1 from by omega]
      rw [List.range'_succ, List.range'_succ, List.range'_succ, List.range'_succ,
        List.range'_succ, List.range'_succ, List.range'_succ, List.range'_succ]
    refine funnelContainsSlot_cons key slots s (by omega) _ _ ?_
    refine funnelContainsSlot_cons key slots (s + 1) (by omega) _ _ ?_
    refine funnelContainsSlot_cons key slots (s + 2) (by omega) _ _ ?_
    refine funnelContainsSlot_cons key slots (s + 3) (by omega) _ _ ?_
    refine funnelContainsSlot_cons key slots (s + 4) (by omega) _ _ ?_
    refine funnelContainsSlot_cons key slots (s + 5) (by omega) _ _ ?_
    refine funnelContainsSlot_cons key slots (s + 6) (by omega) _ _ ?_
    refine funnelContainsSlot_cons key slots (s + 7) (by omega) _ _ ?_
    have := @funnelContainsBucketLoop_eq key slots s
      8 (ht.b.toNat - 8) (by omega)
    rw [this]
  · rw [if_neg h8]
    by_cases h4 : 4 ≤ ht.b
    · rw [if_pos h4]
      have hb4 : 4 ≤ ht.b.toNat := by omega
      rw [show (s : Int) + 1 = ((s + 1 : Nat) : Int) from by push_cast; ring,
        show (s : Int) + 2 = ((s + 2 : Nat) : Int) from by push_cast; ring,
        show (s : Int) + 3 = ((s + 3 : Nat) : Int) from by push_cast; ring]
      conv_rhs =>
        rw [show ht.b.toNat = ((((ht.b.toNat - 4) + 1) + 1) + 1) + 1 from by omega]
        rw [List.range'_succ, List.range'_succ, List.range'_succ, List.range'_succ]
      refine funnelContainsSlot_cons key slots s (by omega) _ _ ?_
      refine funnelContainsSlot_cons key slots (s + 1) (by omega) _ _ ?_
      refine funnelContainsSlot_cons key slots (s + 2) (by omega) _ _ ?_
      refine funnelContainsSlot_cons key slots (s + 3) (by omega) _ _ ?_
      have := @funnelContainsBucketLoop_eq key slots s
        4 (ht.b.toNat - 4) (by omega)
      rw [this]
    · rw [if_neg h4]
      have := @funnelContainsBucketLoop_eq key slots s
        0 ht.b.toNat (by omega)
      rw [this]
      rw [show s + 0 = s from by omega]

/-- `toNat` distributes over products of nonnegatives. -/
theorem toNat_mul_nonneg {a b : Int} (ha : 0 ≤ a) (hb : 0 ≤ b) :
    (a * b).toNat = a.toNat * b.toNat := by
  obtain ⟨m, rfl⟩ := Int.eq_ofNat_of_zero_le ha
  obtain ⟨n, rfl⟩ := Int.eq_ofNat_of_zero_le hb
  rw [← Int.natCast_mul, Int.toNat_natCast, Int.toNat_natCast, Int.toNat_natCast]

/-- Specification of `scanEmpty`. -/
theorem scanEmpty_spec {l : List Int} {ps : List Nat} {p : Nat}
    (h : scanEmpty l ps = some p) : p ∈ ps ∧ l.getD p 0 = EMPTY := by
  induction ps with
  | nil => cases h
  | cons q ps ih =>
    rw [scanEmpty] at h
    split at h
    · cases h
      exact ⟨List.mem_cons_self _ _, by assumption⟩
    · obtain ⟨hmem, he⟩ := ih h
      exact ⟨List.mem_cons_of_mem _ hmem, he⟩

/-- The visited bucket lies inside the flat slot array. -/
theorem bucket_bound (ht : FunnelHashTable) (lvl : Level) (key : Int)
    (hb : 1 ≤ ht.b) (hnb : 0 < lvl.numBuckets)
    (hslots : lvl.slots.length = (lvl.numBuckets * ht.b).toNat)
    (hmask : lvl.mask < lvl.numBuckets.toNat)
    (hnz : 0 < lvl.mask ∨ 0 < uint32Cast lvl.numBuckets) :
    funnelBucketIdx lvl key * ht.b.toNat + ht.b.toNat ≤ lvl.slots.length := by
  have hidx := funnelBucketIdx_lt lvl key hnb hmask hnz
  have hmul : (funnelBucketIdx lvl key + 1) * ht.b.toNat ≤
      lvl.numBuckets.toNat * ht.b.toNat :=
    Nat.mul_le_mul_right _ hidx
  rw [Nat.succ_mul] at hmul
  rw [hslots, toNat_mul_nonneg (by omega) (by omega)]
  omega

/-- The level loop of the funnel `Insert` computes `funnelLevelFind`. -/
theorem funnelInsertLevelLoop_eq (ht : FunnelHashTable) (key : Int)
    (hwf : funnelWF ht = true) :
    ∀ {i fuel : Nat}, i + fuel ≤ ht.levels.length →
      funnelInsertLevelLoop ht key i fuel = .ok (funnelLevelFind ht key i fuel) := by
  obtain ⟨hb, hlvls, hsp, hsp32⟩ := funnelWF_spec ht hwf
  intro i fuel
  induction fuel generalizing i with
  | zero => intro _; rfl
  | succ fuel ih =>
    intro hbound
    have hilen : i < ht.levels.length := by omega
    have hget : ht.levels.get? i = some (lvlF ht i) :=
      listGetQ_eq_getD _ _ _ hilen
    obtain ⟨hnb, hslots, hmask, hnz⟩ :=
      hlvls (lvlF ht i) (List.get?_mem hget)
    rw [funnelInsertLevelLoop, funnelLevelFind]
    simp only [hget]
    rw [funnelHashFunc_eq ht key i (lvlF ht i) hget hnz, exceptBind_ok]
    have hbc : (ht.b : Int) = (ht.b.toNat : Int) :=
      (Int.toNat_of_nonneg (by omega)).symm
    have hcast : (funnelBucketIdx (lvlF ht i) key : Int) * ht.b =
        ((funnelBucketIdx (lvlF ht i) key * ht.b.toNat : Nat) : Int) := by
      conv_lhs => rw [hbc]
      rw [← Int.natCast_mul]
    rw [hcast]
    have hsb := bucket_bound ht (lvlF ht i) key hb hnb hslots hmask hnz
    rw [@funnelBucketFindKey_eq key (lvlF ht i).slots _
      0 ht.b.toNat (by omega), exceptBind_ok]
    rw [show funnelBucketIdx (lvlF ht i) key * ht.b.toNat + 0 =
      funnelBucketIdx (lvlF ht i) key * ht.b.toNat from by omega]
    by_cases hk : listHasKey (lvlF ht i).slots key
        (bucketPs ht.b.toNat (lvlF ht i) key) = true
    · rw [if_pos (by exact hk), if_pos hk]
      rfl
    · rw [if_neg (by exact hk), if_neg hk]
      rw [@funnelBucketFindEmpty_eq (lvlF ht i).slots _
        0 ht.b.toNat (by omega), exceptBind_ok]
      rw [show funnelBucketIdx (lvlF ht i) key * ht.b.toNat + 0 =
        funnelBucketIdx (lvlF ht i) key * ht.b.toNat from by omega]
      rcases hscan : scanEmpty (lvlF ht i).slots
          (bucketPs ht.b.toNat (lvlF ht i) key) with _ | p
      · rw [show scanEmpty (lvlF ht i).slots
          (List.range' (funnelBucketIdx (lvlF ht i) key * ht.b.toNat) ht.b.toNat) =
          none from hscan]
        exact ih (by omega)
      · rw [show scanEmpty (lvlF ht i).slots
          (List.range' (funnelBucketIdx (lvlF ht i) key * ht.b.toNat) ht.b.toNat) =
          some p from hscan]
        obtain ⟨hmem, _⟩ := scanEmpty_spec hscan
        have hsp' : funnelBucketIdx (lvlF ht i) key * ht.b.toNat ≤ p := by
          have := List.mem_range'_1.mp hmem
          omega
        have hX : ((funnelBucketIdx (lvlF ht i) key * ht.b.toNat : Nat) : Int)
            + ((p - funnelBucketIdx (lvlF ht i) key * ht.b.toNat : Nat) : Int) = (p : Int) := by
          omega
        rw [show Option.map (fun q => q - funnelBucketIdx (lvlF ht i) key * ht.b.toNat)
          (some p) = some (p - funnelBucketIdx (lvlF ht i) key * ht.b.toNat) from rfl]
        simp only [hX, Int.toNat_natCast]
        rfl

/-- The level loop of the funnel `Contains` computes `funnelLevelHas`. -/
theorem funnelContainsLevelLoop_eq (ht : FunnelHashTable) (key : Int)
    (hwf : funnelWF ht = true) :
    ∀ {i fuel : Nat}, i + fuel ≤ ht.levels.length →
      funnelContainsLevelLoop ht key i fuel = .ok (funnelLevelHas ht key i fuel) := by
  obtain ⟨hb, hlvls, hsp, hsp32⟩ := funnelWF_spec ht hwf
  intro i fuel
  induction fuel generalizing i with
  | zero => intro _; rfl
  | succ fuel ih =>
    intro hbound
    have hilen : i < ht.levels.length := by omega
    have hget : ht.levels.get? i = some (lvlF ht i) :=
      listGetQ_eq_getD _ _ _ hilen
    obtain ⟨hnb, hslots, hmask, hnz⟩ :=
      hlvls (lvlF ht i) (List.get?_mem hget)
    rw [funnelContainsLevelLoop, funnelLevelHas]
    simp only [hget]
    rw [funnelHashFunc_eq ht key i (lvlF ht i) hget hnz, exceptBind_ok]
    have hbc : (ht.b : Int) = (ht.b.toNat : Int) :=
      (Int.toNat_of_nonneg (by omega)).symm
    have hcast : (funnelBucketIdx (lvlF ht i) key : Int) * ht.b =
        ((funnelBucketIdx (lvlF ht i) key * ht.b.toNat : Nat) : Int) := by
      conv_lhs => rw [hbc]
      rw [← Int.natCast_mul]
    rw [hcast]
    have hsb := bucket_bound ht (lvlF ht i) key hb hnb hslots hmask hnz
    rw [funnelContainsBucket_eq ht key (lvlF ht i).slots _ hb (by omega),
      exceptBind_ok]
    by_cases hs : scanContains (lvlF ht i).slots key
        (bucketPs ht.b.toNat (lvlF ht i) key) = true
    · rw [if_pos (by exact hs), hs, Bool.true_or]
      rfl
    · rw [if_neg (by exact hs)]
      rw [Bool.not_eq_true] at hs
      rw [hs, Bool.false_or]
      exact ih (by omega)

/-- The level loop of the modelled funnel `Remove` computes
`funnelLevelRemoveFind`. -/
theorem funnelRemoveLevelLoop_eq (ht : FunnelHashTable) (key : Int)
    (hwf : funnelWF ht = true) :
    ∀ {i fuel : Nat}, i + fuel ≤ ht.levels.length →
      funnelRemoveLevelLoop ht key i fuel =
        .ok (funnelLevelRemoveFind ht key i fuel) := by
  obtain ⟨hb, hlvls, hsp, hsp32⟩ := funnelWF_spec ht hwf
  intro i fuel
  induction fuel generalizing i with
  | zero => intro _; rfl
  | succ fuel ih =>
    intro hbound
    have hilen : i < ht.levels.length := by omega
    have hget : ht.levels.get? i = some (lvlF ht i) :=
      listGetQ_eq_getD _ _ _ hilen
    obtain ⟨hnb, hslots, hmask, hnz⟩ :=
      hlvls (lvlF ht i) (List.get?_mem hget)
    rw [funnelRemoveLevelLoop, funnelLevelRemoveFind]
    simp only [hget]
    rw [funnelHashFunc_eq ht key i (lvlF ht i) hget hnz, exceptBind_ok]
    have hbc : (ht.b : Int) = (ht.b.toNat : Int) :=
      (Int.toNat_of_nonneg (by omega)).symm
    have hcast : (funnelBucketIdx (lvlF ht i) key : Int) * ht.b =
        ((funnelBucketIdx (lvlF ht i) key * ht.b.toNat : Nat) : Int) := by
      conv_lhs => rw [hbc]
      rw [← Int.natCast_mul]
    rw [hcast]
    have hsb := bucket_bound ht (lvlF ht i) key hb hnb hslots hmask hnz
    rw [@funnelRemoveBucketLoop_eq key (lvlF ht i).slots _
      0 ht.b.toNat (by omega), exceptBind_ok]
    rw [show funnelBucketIdx (lvlF ht i) key * ht.b.toNat + 0 =
      funnelBucketIdx (lvlF ht i) key * ht.b.toNat from by omega]
    rcases hscan : scanKey (lvlF ht i).slots key
        (bucketPs ht.b.toNat (lvlF ht i) key) with _ | p
    · rw [show scanKey (lvlF ht i).slots key
        (List.range' (funnelBucketIdx (lvlF ht i) key * ht.b.toNat) ht.b.toNat) =
        none from hscan]
      exact ih (by omega)
    · rw [show scanKey (lvlF ht i).slots key
        (List.range' (funnelBucketIdx (lvlF ht i) key * ht.b.toNat) ht.b.toNat) =
        some p from hscan]
      obtain ⟨hmem, _⟩ := scanKey_spec hscan
      have hsp' : funnelBucketIdx (lvlF ht i) key * ht.b.toNat ≤ p := by
        have := List.mem_range'_1.mp hmem
        omega
      have hX : ((funnelBucketIdx (lvlF ht i) key * ht.b.toNat : Nat) : Int)
          + ((p - funnelBucketIdx (lvlF ht i) key * ht.b.toNat : Nat) : Int) = (p : Int) := by
        omega
      rw [show Option.map (fun q => q - funnelBucketIdx (lvlF ht i) key * ht.b.toNat)
        (some p) = some (p - funnelBucketIdx (lvlF ht i) key * ht.b.toNat) from rfl]
      simp only [hX, Int.toNat_natCast]
      rfl

/-- `Contains` on a well-formed funnel table computes `funnelContainsCanon`. -/
theorem funnelContains_eq (ht : FunnelHashTable) (key : Int)
    (hwf : funnelWF ht = true) :
    funnelContains ht key = .ok (funnelContainsCanon ht key) := by
  obtain ⟨hb, hlvls, hsp, hsp32⟩ := funnelWF_spec ht hwf
  simp only [funnelContains]
  rw [funnelContainsLevelLoop_eq ht key hwf (by omega), exceptBind_ok]
  unfold funnelContainsCanon
  by_cases hlh : funnelLevelHas ht key 0 ht.levels.length = true
  · rw [if_pos (by exact hlh), hlh, Bool.true_or]
    rfl
  · rw [if_neg (by exact hlh)]
    rw [Bool.not_eq_true] at hlh
    rw [hlh, Bool.false_or]
    have hm1 : (ht.special.length - 1) % 2 ^ 32 = ht.special.length - 1 :=
      Nat.mod_eq_of_lt (by omega)
    have hmm : ht.special.length % 2 ^ 32 = ht.special.length :=
      Nat.mod_eq_of_lt hsp32
    by_cases hpm : 0 < ht.special.length ∧
        ht.special.length &&& (ht.special.length - 1) = 0
    · rw [if_pos hpm]
      simp only [hm1, hmm]
      have hstep : (fun x : Nat => x &&& (ht.special.length - 1)) =
          (fun x : Nat => x % ht.special.length) :=
        funext fun x => and_pred_eq_mod _ hsp hpm.2 x
      rw [hstep, and_pred_eq_mod _ hsp hpm.2]
      rw [funnelSpecialContainsLoop_eq key ht.special hsp]
      rfl
    · rw [if_neg hpm, if_neg (by omega)]
      simp only [hmm]
      rw [funnelSpecialContainsLoop_eq key ht.special hsp]
      rfl

/-- `Insert` on a well-formed funnel table: canonical description. -/
theorem funnelInsert_eq (ht : FunnelHashTable) (key : Int)
    (hwf : funnelWF ht = true) :
    funnelInsert ht key =
      if ht.capacity ≤ ht.size then .ok (ht, some "hash table is full")
      else
        match funnelLevelFind ht key 0 ht.levels.length with
        | some (.inl ()) => .ok (ht, none)
        | some (.inr (i, idx)) =>
          .ok ({ ht with
                  levels := ht.levels.set i
                    { lvlF ht i with slots := (lvlF ht i).slots.set idx key },
                  size := ht.size + 1 }, none)
        | none =>
          match scanIns ht.special key (specialPs ht key) with
          | some (.inl ()) => .ok (ht, none)
          | some (.inr pos) =>
            .ok ({ ht with special := ht.special.set pos key,
                           size := ht.size + 1 }, none)
          | none => .ok (ht, some "special array is full - insertion failed") := by
  obtain ⟨hb, hlvls, hsp, hsp32⟩ := funnelWF_spec ht hwf
  simp only [funnelInsert]
  by_cases hcap : ht.capacity ≤ ht.size
  · rw [if_pos hcap, if_pos hcap]
  · rw [if_neg hcap, if_neg hcap]
    rw [funnelInsertLevelLoop_eq ht key hwf (by omega), exceptBind_ok]
    rcases hfind : funnelLevelFind ht key 0 ht.levels.length
      with _ | x
    · simp only []
      have hm1 : (ht.special.length - 1) % 2 ^ 32 = ht.special.length - 1 :=
        Nat.mod_eq_of_lt (by omega)
      have hmm : ht.special.length % 2 ^ 32 = ht.special.length :=
        Nat.mod_eq_of_lt hsp32
      by_cases hpm : 0 < ht.special.length ∧
          ht.special.length &&& (ht.special.length - 1) = 0
      · rw [if_pos hpm]
        simp only [hm1, hmm]
        have hstep : (fun x : Nat => x &&& (ht.special.length - 1)) =
            (fun x : Nat => x % ht.special.length) :=
          funext fun x => and_pred_eq_mod _ hsp hpm.2 x
        rw [hstep, and_pred_eq_mod _ hsp hpm.2]
        rw [funnelSpecialInsertLoop_eq key ht.special hsp, exceptBind_ok]
        rcases hscan : scanIns ht.special key
            (lastAux ht.special.length
              (uint32Cast key * 2654435761 % 2 ^ 32 % ht.special.length) 0
              ht.special.length) with _ | (_ | pos)
        · rw [show scanIns ht.special key (specialPs ht key) = none from hscan]
          rfl
        · rw [show scanIns ht.special key (specialPs ht key) = some (.inl ()) from hscan]
          rfl
        · rw [show scanIns ht.special key (specialPs ht key) = some (.inr pos) from hscan]
          rfl
      · rw [if_neg hpm, if_neg (by omega)]
        simp only [hmm]
        rw [funnelSpecialInsertLoop_eq key ht.special hsp, exceptBind_ok]
        rcases hscan : scanIns ht.special key
            (lastAux ht.special.length
              (uint32Cast key * 2654435761 % 2 ^ 32 % ht.special.length) 0
              ht.special.length) with _ | (_ | pos)
        · rw [show scanIns ht.special key (specialPs ht key) = none from hscan]
          rfl
        · rw [show scanIns ht.special key (specialPs ht key) = some (.inl ()) from hscan]
          rfl
        · rw [show scanIns ht.special key (specialPs ht key) = some (.inr pos) from hscan]
          rfl
    · rcases x with _ | ⟨i, idx⟩
      · rfl
      · rfl

/-- The modelled `Remove` on a well-formed funnel table: canonical
description. -/
theorem funnelRemove_eq (ht : FunnelHashTable) (key : Int)
    (hwf : funnelWF ht = true) :
    funnelRemove ht key =
      match funnelLevelRemoveFind ht key 0 ht.levels.length with
      | some (i, idx) =>
        .ok ({ ht with
                levels := ht.levels.set i
                  { lvlF ht i with slots := (lvlF ht i).slots.set idx TOMBSTONE },
                size := ht.size - 1 }, true)
      | none =>
        match scanKey ht.special key (specialPs ht key) with
        | some pos =>
          .ok ({ ht with special := ht.special.set pos TOMBSTONE,
                         size := ht.size - 1 }, true)
        | none => .ok (ht, false) := by
  obtain ⟨hb, hlvls, hsp, hsp32⟩ := funnelWF_spec ht hwf
  simp only [funnelRemove]
  rw [funnelRemoveLevelLoop_eq ht key hwf (by omega), exceptBind_ok]
  rcases hfind : funnelLevelRemoveFind ht key 0 ht.levels.length with _ | ⟨i, idx⟩
  · simp only []
    have hm1 : (ht.special.length - 1) % 2 ^ 32 = ht.special.length - 1 :=
      Nat.mod_eq_of_lt (by omega)
    have hmm : ht.special.length % 2 ^ 32 = ht.special.length :=
      Nat.mod_eq_of_lt hsp32
    by_cases hpm : 0 < ht.special.length ∧
        ht.special.length &&& (ht.special.length - 1) = 0
    · rw [if_pos hpm]
      simp only [hm1, hmm]
      have hstep : (fun x : Nat => x &&& (ht.special.length - 1)) =
          (fun x : Nat => x % ht.special.length) :=
        funext fun x => and_pred_eq_mod _ hsp hpm.2 x
      rw [hstep, and_pred_eq_mod _ hsp hpm.2]
      rw [funnelSpecialRemoveLoop_eq key ht.special hsp, exceptBind_ok]
      rcases hscan : scanKey ht.special key
          (lastAux ht.special.length
            (uint32Cast key * 2654435761 % 2 ^ 32 % ht.special.length) 0
            ht.special.length) with _ | pos
      · rw [show scanKey ht.special key (specialPs ht key) = none from hscan]
        rfl
      · rw [show scanKey ht.special key (specialPs ht key) = some pos from hscan]
        rfl
    · rw [if_neg hpm, if_neg (by omega)]
      simp only [hmm]
      rw [funnelSpecialRemoveLoop_eq key ht.special hsp, exceptBind_ok]
      rcases hscan : scanKey ht.special key
          (lastAux ht.special.length
            (uint32Cast key * 2654435761 % 2 ^ 32 % ht.special.length) 0
            ht.special.length) with _ | pos
      · rw [show scanKey ht.special key (specialPs ht key) = none from hscan]
        rfl
      · rw [show scanKey ht.special key (specialPs ht key) = some pos from hscan]
        rfl
  · rfl

/-- A `Contains`-style scan succeeds exactly when the matching
`Remove`-style scan finds a position. -/
theorem scanContains_eq_isSome (l : List Int) (k : Int) :
    ∀ ps : List Nat, scanContains l k ps = (scanKey l k ps).isSome := by
  intro ps
  induction ps with
  | nil => rfl
  | cons p ps ih =>
    rw [scanContains, scanKey]
    by_cases hk : l.getD p 0 = k
    · rw [if_pos hk, if_pos hk]
      rfl
    · rw [if_neg hk, if_neg hk]
      by_cases he : l.getD p 0 = EMPTY
      · rw [if_pos he, if_pos he]
        rfl
      · rw [if_neg he, if_neg he]
        exact ih

/-- The canonical `Contains` level loop succeeds exactly when the canonical
`Remove` level loop finds a slot. -/
theorem funnelLevelHas_eq_isSome (ht : FunnelHashTable) (key : Int) :
    ∀ fuel i, funnelLevelHas ht key i fuel =
      (funnelLevelRemoveFind ht key i fuel).isSome := by
  intro fuel
  induction fuel with
  | zero => intro i; rfl
  | succ fuel ih =>
    intro i
    rw [funnelLevelHas, funnelLevelRemoveFind,
      scanContains_eq_isSome]
    rcases hscan : scanKey (lvlF ht i).slots key
        (bucketPs ht.b.toNat (lvlF ht i) key) with _ | p
    · rw [Option.isSome_none, Bool.false_or]
      exact ih (i + 1)
    · rfl

/-- Which slot the canonical funnel `Remove` selects. -/
theorem funnelLevelRemoveFind_some {ht : FunnelHashTable} {key : Int} :
    ∀ {i fuel j p}, funnelLevelRemoveFind ht key i fuel = some (j, p) →
      i ≤ j ∧ j < i + fuel ∧
        scanKey (lvlF ht j).slots key (bucketPs ht.b.toNat (lvlF ht j) key) = some p := by
  intro i fuel
  induction fuel generalizing i with
  | zero => intro j p h; cases h
  | succ fuel ih =>
    intro j p h
    rw [funnelLevelRemoveFind] at h
    rcases hscan : scanKey (lvlF ht i).slots key
        (bucketPs ht.b.toNat (lvlF ht i) key) with _ | q
    · rw [hscan] at h
      obtain ⟨h1, h2, h3⟩ := ih h
      exact ⟨by omega, by omega, h3⟩
    · rw [hscan] at h
      cases h
      exact ⟨le_refl _, by omega, hscan⟩

/-- The full observable trace of Scenario B on the funnel table, with the
same observables as `elasticScenarioA`. -/
def funnelScenarioB : Except String (List Int × List Bool) := do
  let ht0 ← newFunnelHashTable 100 4 (Rat.divInt 1 4)
  let (ht1, ok1) ← funnelInsertAllOk ht0 scenarioEvens
  let c4 ← funnelContains ht1 4
  let c5 ← funnelContains ht1 5
  let (ht2, r4) ← funnelRemove ht1 4
  let c4b ← funnelContains ht2 4
  let (ht3, e4) ← funnelInsert ht2 4
  let c4c ← funnelContains ht3 4
  pure ([funnelCapacity ht0, funnelSize ht1, funnelSize ht2, funnelSize ht3],
        [ok1, c4, c5, r4, c4b, e4.isNone, c4c])

/-- C2: on every well-formed funnel table the modelled `Remove` has the
elastic contract — it returns, its boolean is true exactly when `Contains`
reports the key, a hit replaces the one matching slot with TOMBSTONE and
decrements the occupancy by one, a miss changes nothing — and the Scenario B
trace (N = 100, b = 4, delta = 1/4) coincides observation-for-observation
with Scenario A on the elastic table. -/
theorem funnel_remove_contract (ht : FunnelHashTable) (key : Int)
    (hwf : funnelWF ht = true) :
    (∃ s₂ found, funnelRemove ht key = .ok (s₂, found) ∧
      ((found = true) ↔ funnelContains ht key = .ok true) ∧
      (found = true →
        funnelCapacity s₂ = funnelCapacity ht ∧
        funnelSize s₂ = funnelSize ht - 1 ∧
        ((∃ i p, (lvlF ht i).slots.getD p 0 = key ∧
            s₂ = { ht with
                    levels := ht.levels.set i
                      { lvlF ht i with slots := (lvlF ht i).slots.set p TOMBSTONE },
                    size := ht.size - 1 }) ∨
         (∃ p, ht.special.getD p 0 = key ∧
            s₂ = { ht with special := ht.special.set p TOMBSTONE,
                           size := ht.size - 1 }))) ∧
      (found = false → s₂ = ht)) ∧
    funnelScenarioB = elasticScenarioA := by
  constructor
  · rw [funnelRemove_eq ht key hwf, funnelContains_eq ht key hwf]
    have hcanon : funnelContainsCanon ht key =
        ((funnelLevelRemoveFind ht key 0 ht.levels.length).isSome ||
          (scanKey ht.special key (specialPs ht key)).isSome) := by
      unfold funnelContainsCanon
      rw [funnelLevelHas_eq_isSome, scanContains_eq_isSome]
    rcases hfind : funnelLevelRemoveFind ht key 0 ht.levels.length with _ | ⟨i, p⟩
    · rcases hsk : scanKey ht.special key (specialPs ht key) with _ | pos
      · refine ⟨ht, false, rfl, ?_, by simp, fun _ => rfl⟩
        rw [hcanon, hfind, hsk]
        simp
      · refine ⟨_, true, rfl, ?_, ?_, by simp⟩
        · rw [hcanon, hfind, hsk]
          simp
        · intro _
          obtain ⟨hmem, hkey⟩ := scanKey_spec hsk
          exact ⟨rfl, rfl, Or.inr ⟨pos, hkey, rfl⟩⟩
    · refine ⟨_, true, rfl, ?_, ?_, by simp⟩
      · rw [hcanon, hfind]
        simp
      · intro _
        obtain ⟨h0i, hilt, hscan⟩ := funnelLevelRemoveFind_some hfind
        obtain ⟨hmem, hkey⟩ := scanKey_spec hscan
        exact ⟨rfl, rfl, Or.inl ⟨i, p, hkey, rfl⟩⟩
  · decide

/-- Witness for `funnel_remove_contract` on the freshly built
`N = 100`, `b = 4`, `delta = 1/4` table with key 4. -/
theorem funnel_remove_contract_witness :
    funnelWF funnelBaseTable = true ∧
    ((∃ s₂ found, funnelRemove funnelBaseTable 4 = .ok (s₂, found) ∧
      ((found = true) ↔ funnelContains funnelBaseTable 4 = .ok true) ∧
      (found = true →
        funnelCapacity s₂ = funnelCapacity funnelBaseTable ∧
        funnelSize s₂ = funnelSize funnelBaseTable - 1 ∧
        ((∃ i p, (lvlF funnelBaseTable i).slots.getD p 0 = 4 ∧
            s₂ = { funnelBaseTable with
                    levels := funnelBaseTable.levels.set i
                      { lvlF funnelBaseTable i with
                          slots := (lvlF funnelBaseTable i).slots.set p TOMBSTONE },
                    size := funnelBaseTable.size - 1 }) ∨
         (∃ p, funnelBaseTable.special.getD p 0 = 4 ∧
            s₂ = { funnelBaseTable with
                    special := funnelBaseTable.special.set p TOMBSTONE,
                    size := funnelBaseTable.size - 1 }))) ∧
      (found = false → s₂ = funnelBaseTable)) ∧
    funnelScenarioB = elasticScenarioA) :=
  ⟨by decide, funnel_remove_contract funnelBaseTable 4 (by decide)⟩

/-- The doubling loop stays positive. -/
theorem goNextPow2Loop_pos (numB : Int) :
    ∀ fuel (p : Int), 1 ≤ p → 1 ≤ goNextPow2Loop numB p fuel := by
  intro fuel
  induction fuel with
  | zero => intro p hp; exact hp
  | succ fuel ih =>
    intro p hp
    rw [goNextPow2Loop]
    split
    · exact ih _ (by omega)
    · exact hp

/-- `goNextPow2` is positive. -/
theorem goNextPow2_pos (numB : Int) : 1 ≤ goNextPow2 numB :=
  goNextPow2Loop_pos numB _ 1 (le_refl _)

/-- The level-allocation loop of the funnel constructor never panics when
the bucket size is nonzero and the fractions are nonnegative. -/
theorem funnelAllocLevels_ok (N : Nat) (b : Int) (hb : b ≠ 0) :
    ∀ qs : List ℚ, (∀ q ∈ qs, 0 ≤ q.num) →
      ∃ r, funnelAllocLevels N b qs = .ok r := by
  intro qs
  induction qs with
  | nil => intro _; exact ⟨_, rfl⟩
  | cons q rest ih =>
    intro hq
    obtain ⟨r, hr⟩ := ih (fun x hx => hq x (List.mem_cons_of_mem _ hx))
    rw [funnelAllocLevels]
    have hsize0 : 0 ≤ goTruncMulNat q N := by
      unfold goTruncMulNat
      apply Int.tdiv_nonneg
      · exact mul_nonneg (hq q (List.mem_cons_self _ _)) (by exact_mod_cast Nat.zero_le N)
      · exact_mod_cast Nat.zero_le _
    rw [if_neg hb]
    set size0 := goTruncMulNat q N with hs0
    set size1 : Int := if size0 < b then b else size0 with hs1
    have hnumB : ¬ ((if goNextPow2 (size1.tdiv b) ≤ ((size1.tdiv b) * 5).tdiv 4
          then goNextPow2 (size1.tdiv b) else size1.tdiv b) * b < 0) := by
      rcases lt_or_le b 0 with hbn | hbp
      · have hsize1 : 0 ≤ size1 := by
          rw [hs1]
          split
          · omega
          · exact hsize0
        have hnb0 : size1.tdiv b ≤ 0 := Int.tdiv_nonpos hsize1 (by omega)
        have hcond : ¬ goNextPow2 (size1.tdiv b) ≤ ((size1.tdiv b) * 5).tdiv 4 := by
          have h5 : (size1.tdiv b) * 5 ≤ 0 := by nlinarith
          have h4 : ((size1.tdiv b) * 5).tdiv 4 ≤ 0 := by
            have hneg : 0 ≤ -((size1.tdiv b) * 5) := by omega
            have hpos := Int.tdiv_nonneg hneg (by omega : (0 : Int) ≤ 4)
            have hrw : (-((size1.tdiv b) * 5)).tdiv 4 = -(((size1.tdiv b) * 5).tdiv 4) :=
              Int.neg_tdiv _ _
            omega
          have := goNextPow2_pos (size1.tdiv b)
          omega
        rw [if_neg hcond]
        nlinarith
      · have hb1 : 1 ≤ b := by omega
        split
        · have := goNextPow2_pos (size1.tdiv b)
          nlinarith
        · have hsize1 : 0 ≤ size1 := by
            rw [hs1]
            split
            · omega
            · exact hsize0
          have : 0 ≤ size1.tdiv b := Int.tdiv_nonneg hsize1 (by omega)
          nlinarith
    rw [if_neg hnumB]
    rw [hr]
    exact ⟨_, rfl⟩

/-- All level fractions are nonnegative. -/
theorem funnelSizes_nonneg (B : Nat) : ∀ q ∈ funnelSizes B, 0 ≤ q.num := by
  intro q hq
  unfold funnelSizes at hq
  split at hq
  · fin_cases hq <;> decide
  · fin_cases hq <;> decide

/-- The funnel constructor succeeds for every nonzero bucket size and
in-range `delta`. -/
theorem newFunnel_ok (N : Nat) (b : Int) (delta : ℚ)
    (hd : deltaOutOfRange delta = false) (hb : b ≠ 0) :
    ∃ ht, newFunnelHashTable N b delta = .ok ht := by
  unfold newFunnelHashTable
  rw [if_neg (by simp [hd])]
  obtain ⟨r, hr⟩ := funnelAllocLevels_ok N b hb
    (funnelSizes (if deltaLtTenth delta then 4 else 3))
    (funnelSizes_nonneg _)
  obtain ⟨lvls, alloc⟩ := r
  simp only [hr, exceptBind_ok]
  exact ⟨_, rfl⟩

/-- With bucket size zero the allocation loop divides by zero at the first
level. -/
theorem funnelAllocLevels_b0 (N : Nat) (B : Nat) :
    funnelAllocLevels N 0 (funnelSizes B) = .error divByZeroMsg := by
  unfold funnelSizes
  split
  · rfl
  · rfl

/-- C6: construction of the elastic table fails (with the delta panic, not
a ConfigurationError value) exactly when `delta ∉ [0,1)`; the funnel
constructor performs no bucket-size validation: for in-range `delta` it
returns a table for every nonzero `b` — including negative ones — and
panics with an integer division by zero for `b = 0`. -/
theorem construction_validation (N : Nat) (delta : ℚ) (b : Int) :
    ((∃ ht, newElasticHashTable N delta = .ok ht) ↔ deltaOutOfRange delta = false) ∧
    ((∃ ht, newFunnelHashTable N b delta = .ok ht) ↔
      (deltaOutOfRange delta = false ∧ b ≠ 0)) ∧
    (deltaOutOfRange delta = true →
      newElasticHashTable N delta = .error "delta must be in (0,1)" ∧
      newFunnelHashTable N b delta = .error "delta must be in (0,1)") ∧
    (deltaOutOfRange delta = false → b = 0 →
      newFunnelHashTable N b delta = .error divByZeroMsg) ∧
    (deltaOutOfRange delta = true ↔ (delta < 0 ∨ 1 ≤ delta)) := by
  have hb0 : deltaOutOfRange delta = false → b = 0 →
      newFunnelHashTable N b delta = .error divByZeroMsg := by
    intro hd hbz
    subst hbz
    unfold newFunnelHashTable
    rw [if_neg (by simp [hd])]
    simp only [funnelAllocLevels_b0]
    rfl
  refine ⟨?_, ?_, ?_, hb0, deltaOutOfRange_iff delta⟩
  · constructor
    · rintro ⟨ht, hht⟩
      by_contra hd
      rw [Bool.not_eq_false] at hd
      unfold newElasticHashTable at hht
      rw [if_pos (by simp [hd])] at hht
      cases hht
    · intro hd
      exact ⟨_, newElastic_ok N delta hd⟩
  · constructor
    · rintro ⟨ht, hht⟩
      constructor
      · by_contra hd
        rw [Bool.not_eq_false] at hd
        unfold newFunnelHashTable at hht
        rw [if_pos (by simp [hd])] at hht
        cases hht
      · intro hbz
        by_cases hd : deltaOutOfRange delta = false
        · rw [hb0 hd hbz] at hht
          cases hht
        · rw [Bool.not_eq_false] at hd
          unfold newFunnelHashTable at hht
          rw [if_pos (by simp [hd])] at hht
          cases hht
    · rintro ⟨hd, hbz⟩
      exact newFunnel_ok N b delta hd hbz
  · intro hd
    constructor
    · unfold newElasticHashTable
      rw [if_pos (by simp [hd])]
    · unfold newFunnelHashTable
      rw [if_pos (by simp [hd])]

/-! ## Slot counting -/

/-- Number of slots holding exactly `k`. -/
def countK (k : Int) : List Int → Nat
  | [] => 0
  | a :: l => (if a = k then 1 else 0) + countK k l

/-- Number of occupied slots (neither EMPTY nor TOMBSTONE). -/
def countOcc : List Int → Nat
  | [] => 0
  | a :: l => (if a ≠ EMPTY ∧ a ≠ TOMBSTONE then 1 else 0) + countOcc l

/-- Effect of one write on `countK`. -/
theorem countK_set (k v : Int) :
    ∀ (l : List Int) (p : Nat), p < l.length →
      countK k (l.set p v) + (if l.getD p 0 = k then 1 else 0) =
        countK k l + (if v = k then 1 else 0) := by
  intro l
  induction l with
  | nil => intro p hp; cases hp
  | cons a l ih =>
    intro p hp
    cases p with
    | zero =>
      simp only [List.set, countK, List.getD_cons_zero]
      omega
    | succ p =>
      simp only [List.set, countK, List.getD_cons_succ] at *
      have := ih p (by simpa using hp)
      omega

/-- Effect of one write on `countOcc`. -/
theorem countOcc_set (v : Int) :
    ∀ (l : List Int) (p : Nat), p < l.length →
      countOcc (l.set p v) + (if l.getD p 0 ≠ EMPTY ∧ l.getD p 0 ≠ TOMBSTONE then 1 else 0) =
        countOcc l + (if v ≠ EMPTY ∧ v ≠ TOMBSTONE then 1 else 0) := by
  intro l
  induction l with
  | nil => intro p hp; cases hp
  | cons a l ih =>
    intro p hp
    cases p with
    | zero =>
      simp only [List.set, countOcc, List.getD_cons_zero]
      omega
    | succ p =>
      simp only [List.set, countOcc, List.getD_cons_succ] at *
      have := ih p (by simpa using hp)
      omega

/-- A slot holding `k` makes `countK` positive. -/
theorem countK_pos (k : Int) :
    ∀ (l : List Int) (p : Nat), p < l.length → l.getD p 0 = k →
      1 ≤ countK k l := by
  intro l
  induction l with
  | nil => intro p hp; cases hp
  | cons a l ih =>
    intro p hp hk
    cases p with
    | zero =>
      simp only [List.getD_cons_zero] at hk
      rw [countK, if_pos hk]
      omega
    | succ p =>
      have := ih p (by simpa using hp) (by simpa using hk)
      simp only [countK]
      omega

/-- An all-EMPTY array holds no valid key. -/
theorem countK_replicate (k : Int) (hk : k ≠ EMPTY) (n : Nat) :
    countK k (List.replicate n EMPTY) = 0 := by
  induction n with
  | zero => rfl
  | succ n ih =>
    rw [List.replicate_succ, countK, if_neg (fun h => hk h.symm), ih]

/-- An all-EMPTY array has no occupied slot. -/
theorem countOcc_replicate (n : Nat) :
    countOcc (List.replicate n EMPTY) = 0 := by
  induction n with
  | zero => rfl
  | succ n ih =>
    rw [List.replicate_succ, countOcc, if_neg (by simp), ih]

/-- If every slot is occupied, `countOcc` is the length. -/
theorem countOcc_full :
    ∀ l : List Int, (∀ p, p < l.length → l.getD p 0 ≠ EMPTY ∧ l.getD p 0 ≠ TOMBSTONE) →
      countOcc l = l.length := by
  intro l
  induction l with
  | nil => intro _; rfl
  | cons a l ih =>
    intro h
    have h0 := h 0 (by simp)
    simp only [List.getD_cons_zero] at h0
    rw [countOcc, if_pos h0, ih (fun p hp => by
      have := h (p + 1) (by simpa using hp)
      simpa using this), List.length_cons]
    omega

/-- `countK` is bounded by `countOcc` for valid keys. -/
theorem countK_le_countOcc (k : Int) (hk : 0 ≤ k) :
    ∀ l : List Int, countK k l ≤ countOcc l := by
  intro l
  induction l with
  | nil => exact le_refl _
  | cons a l ih =>
    rw [countK, countOcc]
    by_cases ha : a = k
    · rw [if_pos ha, if_pos (by
        constructor <;> rw [ha] <;> intro h <;>
          [exact absurd h (by have : EMPTY = -1 := rfl; omega);
           exact absurd h (by have : TOMBSTONE = -2 := rfl; omega)])]
      omega
    · rw [if_neg ha]
      have : countK k l ≤ countOcc l := ih
      split <;> omega

/-- Effect of replacing one element on a summed statistic. -/
theorem sum_map_set {α : Type} (f : α → Nat) (x : α) (d : α) :
    ∀ (ls : List α) (i : Nat), i < ls.length →
      ((ls.set i x).map f).sum + f (ls.getD i d) = (ls.map f).sum + f x := by
  intro ls
  induction ls with
  | nil => intro i hi; cases hi
  | cons a ls ih =>
    intro i hi
    cases i with
    | zero =>
      simp only [List.set, List.map, List.sum_cons, List.getD_cons_zero]
      omega
    | succ i =>
      simp only [List.set, List.map, List.sum_cons, List.getD_cons_succ] at *
      have := ih i (by simpa using hi)
      omega

/-- Each element's statistic is bounded by the sum. -/
theorem le_sum_map {α : Type} (f : α → Nat) (d : α) :
    ∀ (ls : List α) (i : Nat), i < ls.length →
      f (ls.getD i d) ≤ (ls.map f).sum := by
  intro ls
  induction ls with
  | nil => intro i hi; cases hi
  | cons a ls ih =>
    intro i hi
    cases i with
    | zero =>
      simp only [List.map, List.sum_cons, List.getD_cons_zero]
      omega
    | succ i =>
      simp only [List.map, List.sum_cons, List.getD_cons_succ] at *
      have := ih i (by simpa using hi)
      omega

/-- A successful `Contains` scan exhibits a slot holding the key. -/
theorem scanContains_true_mem {l : List Int} {k : Int} :
    ∀ {ps : List Nat}, scanContains l k ps = true →
      ∃ p ∈ ps, l.getD p 0 = k := by
  intro ps
  induction ps with
  | nil => intro h; cases h
  | cons p ps ih =>
    intro h
    rw [scanContains] at h
    by_cases hk : l.getD p 0 = k
    · exact ⟨p, List.mem_cons_self _ _, hk⟩
    · rw [if_neg hk] at h
      by_cases he : l.getD p 0 = EMPTY
      · rw [if_pos he] at h
        cases h
      · rw [if_neg he] at h
        obtain ⟨q, hq, hqk⟩ := ih h
        exact ⟨q, List.mem_cons_of_mem _ hq, hqk⟩

/-- Total number of slots holding `k` across the elastic levels. -/
def elasticKeyCount (ht : ElasticHashTable) (k : Int) : Nat :=
  (ht.levels.map (countK k)).sum

/-- Total number of occupied slots across the elastic levels. -/
def elasticOcc (ht : ElasticHashTable) : Nat :=
  (ht.levels.map countOcc).sum

/-- The counter/uniqueness invariant of reachable elastic states. -/
def EInvP (ht : ElasticHashTable) : Prop :=
  (∀ k : Int, 0 ≤ k → elasticKeyCount ht k ≤ 1 ∧
    (1 ≤ elasticKeyCount ht k → containsCanon ht k = true)) ∧
  ht.size = (elasticOcc ht : Int)

/-- A true canonical `Contains` verdict exhibits a stored copy of the key. -/
theorem containsCanon_count_pos (ht : ElasticHashTable) (k : Int)
    (hwf : elasticWF ht = true) (hc : containsCanon ht k = true) :
    1 ≤ elasticKeyCount ht k := by
  obtain ⟨hL, hR, hlen, hfront, hlast⟩ := elasticWF_spec ht hwf
  unfold containsCanon at hc
  rw [Bool.or_eq_true] at hc
  have hcnt : ∃ i, i < 4 ∧ 1 ≤ countK k (lvlAt ht i) := by
    rcases hc with hfr | hls
    · obtain ⟨i, hmem, hscan⟩ := List.any_eq_true.mp hfr
      have hi : i < 3 := by
        have := List.mem_range.mp hmem
        omega
      obtain ⟨p, hp, hpk⟩ := scanContains_true_mem hscan
      exact ⟨i, by omega, countK_pos k _ p
        (probeAux_mem_lt (hfront i hi).1 hp) hpk⟩
    · obtain ⟨p, hp, hpk⟩ := scanContains_true_mem hls
      exact ⟨3, by omega, countK_pos k _ p (lastAux_mem_lt hlast hp) hpk⟩
  obtain ⟨i, hi, hcnt⟩ := hcnt
  have := le_sum_map (countK k) ([] : List Int) ht.levels i (by omega)
  unfold elasticKeyCount
  unfold lvlAt at hcnt
  omega

/-- `Insert` preserves the counter/uniqueness invariant. -/
theorem elasticInsert_inv (s s₂ : ElasticHashTable) (j : Int) (e : Option String)
    (hwf : elasticWF s = true) (hj : 0 ≤ j)
    (hins : elasticInsert s j = .ok (s₂, e)) (hinv : EInvP s) : EInvP s₂ := by
  obtain ⟨hL, hR, hlen, hfront, hlast⟩ := elasticWF_spec s hwf
  obtain ⟨hwf₂, hmono⟩ := elasticInsert_WF_mono s s₂ j e hwf hj hins
  obtain ⟨hcnt, hocc⟩ := hinv
  have hE : EMPTY = -1 := rfl
  have hT : TOMBSTONE = -2 := rfl
  rw [elasticInsert_eq s j hwf] at hins
  by_cases hcap : s.capacity ≤ s.size
  · rw [if_pos hcap] at hins
    obtain ⟨h1, _⟩ := Prod.mk.injEq .. ▸ (Except.ok.injEq .. ▸ hins)
    exact h1 ▸ ⟨hcnt, hocc⟩
  · rw [if_neg hcap] at hins
    by_cases hc : containsCanon s j = true
    · rw [if_pos hc] at hins
      obtain ⟨h1, _⟩ := Prod.mk.injEq .. ▸ (Except.ok.injEq .. ▸ hins)
      exact h1 ▸ ⟨hcnt, hocc⟩
    · rw [if_neg hc] at hins
      have hkey : ∀ i pos, i < 4 → pos < (lvlAt s i).length →
          ((lvlAt s i).getD pos 0 = EMPTY ∨ (lvlAt s i).getD pos 0 = TOMBSTONE) →
          ∀ s₂' : ElasticHashTable,
            s₂'.levels = s.levels.set i ((lvlAt s i).set pos j) →
            s₂'.size = s.size + 1 →
            (∀ k : Int, 0 ≤ k → containsCanon s k = true → containsCanon s₂' k = true) →
            containsCanon s₂' j = true →
            EInvP s₂' := by
        intro i pos hi hpos hfree s₂' hlv hsz hmono' hcont
        constructor
        · intro k hk
          have hsum := sum_map_set (countK k) ((lvlAt s i).set pos j)
            ([] : List Int) s.levels i (by omega)
          have hset := countK_set k j (lvlAt s i) pos hpos
          have hold : (if (lvlAt s i).getD pos 0 = k then 1 else 0) = 0 := by
            rcases hfree with hfe | hft
            · rw [if_neg (by omega)]
            · rw [if_neg (by omega)]
          have hkc : elasticKeyCount s₂' k + countK k (lvlAt s i) =
              elasticKeyCount s k + countK k ((lvlAt s i).set pos j) := by
            unfold elasticKeyCount
            rw [hlv]
            exact hsum
          by_cases hkj : j = k
          · subst hkj
            have hc0 : elasticKeyCount s j = 0 := by
              by_contra hne
              exact hc ((hcnt j hj).2 (by omega))
            rw [if_pos rfl] at hset
            refine ⟨by omega, fun _ => ?_⟩
            exact hcont
          · rw [if_neg hkj] at hset
            have heq : elasticKeyCount s₂' k = elasticKeyCount s k := by omega
            rw [heq]
            exact ⟨(hcnt k hk).1, fun h1 => hmono' k hk ((hcnt k hk).2 h1)⟩
        · have hsum := sum_map_set countOcc ((lvlAt s i).set pos j)
            ([] : List Int) s.levels i (by omega)
          have hset := countOcc_set j (lvlAt s i) pos hpos
          have hold : (if (lvlAt s i).getD pos 0 ≠ EMPTY ∧
              (lvlAt s i).getD pos 0 ≠ TOMBSTONE then 1 else 0) = 0 := by
            rcases hfree with hfe | hft
            · rw [if_neg (by omega)]
            · rw [if_neg (by omega)]
          have hnew : (if j ≠ EMPTY ∧ j ≠ TOMBSTONE then 1 else 0) = 1 := by
            rw [if_pos (by omega)]
          have hkc : elasticOcc s₂' + countOcc (lvlAt s i) =
              elasticOcc s + countOcc ((lvlAt s i).set pos j) := by
            unfold elasticOcc
            rw [hlv]
            exact hsum
          rw [hsz, hocc]
          omega
      rcases hfind : insertFind s j 0 3 with _ | ⟨i, pos⟩
      · rw [hfind] at hins
        rcases hlastf : scanFree (lvlAt s 3) (elasticLastOf s j) with _ | pos
        · rw [hlastf] at hins
          obtain ⟨h1, _⟩ := Prod.mk.injEq .. ▸ (Except.ok.injEq .. ▸ hins)
          exact h1 ▸ ⟨hcnt, hocc⟩
        · rw [hlastf] at hins
          obtain ⟨h1, h2⟩ := Prod.mk.injEq .. ▸ (Except.ok.injEq .. ▸ hins)
          obtain ⟨hmem, hfree⟩ := scanFree_spec hlastf
          have hposlt : pos < (lvlAt s 3).length := lastAux_mem_lt hlast hmem
          refine hkey 3 pos (by omega) hposlt hfree s₂ ?_ ?_ hmono ?_
          · rw [← h1]
          · rw [← h1]
          · refine elasticInsert_contains s s₂ j hwf hj ?_
            rw [elasticInsert_eq s j hwf, if_neg hcap, if_neg hc]
            simp only [hfind, hlastf]
            rw [h1]
      · rw [hfind] at hins
        obtain ⟨h1, h2⟩ := Prod.mk.injEq .. ▸ (Except.ok.injEq .. ▸ hins)
        obtain ⟨h0i, hi3, hscan⟩ := insertFind_some hfind
        obtain ⟨hmem, hfree⟩ := scanFree_spec hscan
        have hposlt : pos < (lvlAt s i).length :=
          probeAux_mem_lt (hfront i (by omega)).1 hmem
        refine hkey i pos (by omega) hposlt hfree s₂ ?_ ?_ hmono ?_
        · rw [← h1]
        · rw [← h1]
        · refine elasticInsert_contains s s₂ j hwf hj ?_
          rw [elasticInsert_eq s j hwf, if_neg hcap, if_neg hc]
          simp only [hfind]
          rw [h1]

/-- `Remove` preserves the counter/uniqueness invariant (for a valid key). -/
theorem elasticRemove_inv (s s₂ : ElasticHashTable) (j : Int) (b : Bool)
    (hwf : elasticWF s = true) (hj : 0 ≤ j)
    (hrem : elasticRemove s j = .ok (s₂, b)) (hinv : EInvP s) : EInvP s₂ := by
  obtain ⟨hL, hR, hlen, hfront, hlast⟩ := elasticWF_spec s hwf
  obtain ⟨hwf₂, hmono⟩ := elasticRemove_WF_mono s s₂ j b hwf hrem
  obtain ⟨hcnt, hocc⟩ := hinv
  have hE : EMPTY = -1 := rfl
  have hT : TOMBSTONE = -2 := rfl
  rw [elasticRemove_eq s j hwf] at hrem
  have hkey : ∀ i pos, i < 4 → pos < (lvlAt s i).length →
      (lvlAt s i).getD pos 0 = j →
      ∀ s₂' : ElasticHashTable,
        s₂'.levels = s.levels.set i ((lvlAt s i).set pos TOMBSTONE) →
        s₂'.size = s.size - 1 →
        (∀ k : Int, k ≠ j → containsCanon s k = true → containsCanon s₂' k = true) →
        EInvP s₂' := by
    intro i pos hi hpos hslot s₂' hlv hsz hmono'
    have hcKpos : 1 ≤ countK j (lvlAt s i) := countK_pos j _ pos hpos hslot
    constructor
    · intro k hk
      have hsum := sum_map_set (countK k) ((lvlAt s i).set pos TOMBSTONE)
        ([] : List Int) s.levels i (by omega)
      have hset := countK_set k TOMBSTONE (lvlAt s i) pos hpos
      have hnew : (if TOMBSTONE = k then 1 else 0) = 0 := by
        rw [if_neg (by omega)]
      have hkc : elasticKeyCount s₂' k + countK k (lvlAt s i) =
          elasticKeyCount s k + countK k ((lvlAt s i).set pos TOMBSTONE) := by
        unfold elasticKeyCount
        rw [hlv]
        exact hsum
      by_cases hkj : j = k
      · subst hkj
        rw [if_pos hslot] at hset
        have hjle := (hcnt j hk).1
        have hjcount : 1 ≤ elasticKeyCount s j := by
          have := le_sum_map (countK j) ([] : List Int) s.levels i (by omega)
          unfold elasticKeyCount
          unfold lvlAt at hcKpos
          omega
        refine ⟨by omega, fun h1 => ?_⟩
        · exfalso
          have := le_sum_map (countK j) ([] : List Int) s.levels i (by omega)
          omega
      · rw [if_neg (fun hh : (lvlAt s i).getD pos 0 = k => hkj (hslot ▸ hh))] at hset
        have heq : elasticKeyCount s₂' k = elasticKeyCount s k := by omega
        rw [heq]
        exact ⟨(hcnt k hk).1, fun h1 =>
          hmono' k (fun he => hkj he.symm) ((hcnt k hk).2 h1)⟩
    · have hsum := sum_map_set countOcc ((lvlAt s i).set pos TOMBSTONE)
        ([] : List Int) s.levels i (by omega)
      have hset := countOcc_set TOMBSTONE (lvlAt s i) pos hpos
      have hold : (if (lvlAt s i).getD pos 0 ≠ EMPTY ∧
          (lvlAt s i).getD pos 0 ≠ TOMBSTONE then 1 else 0) = 1 := by
        rw [if_pos (by omega)]
      have hnew : (if TOMBSTONE ≠ EMPTY ∧ TOMBSTONE ≠ TOMBSTONE then 1 else 0) = 0 := by
        rw [if_neg (by omega)]
      have hoccpos : 1 ≤ countOcc (lvlAt s i) := by omega
      have hge := le_sum_map countOcc ([] : List Int) s.levels i (by omega)
      have hkc : elasticOcc s₂' + countOcc (lvlAt s i) =
          elasticOcc s + countOcc ((lvlAt s i).set pos TOMBSTONE) := by
        unfold elasticOcc
        rw [hlv]
        exact hsum
      rw [hsz, hocc]
      unfold elasticOcc at *
      simp only [lvlAt] at hkc hoccpos hset hold hnew
      omega
  rcases hfind : removeFind s j 0 3 with _ | ⟨i, pos⟩
  · rw [hfind] at hrem
    rcases hlastf : scanKey (lvlAt s 3) j (elasticLastOf s j) with _ | pos
    · rw [hlastf] at hrem
      obtain ⟨h1, _⟩ := Prod.mk.injEq .. ▸ (Except.ok.injEq .. ▸ hrem)
      exact h1 ▸ ⟨hcnt, hocc⟩
    · rw [hlastf] at hrem
      obtain ⟨h1, _⟩ := Prod.mk.injEq .. ▸ (Except.ok.injEq .. ▸ hrem)
      obtain ⟨hmem, hkeyp⟩ := scanKey_spec hlastf
      have hposlt : pos < (lvlAt s 3).length := lastAux_mem_lt hlast hmem
      refine hkey 3 pos (by omega) hposlt hkeyp s₂ ?_ ?_
        (fun k hk hck => hmono k hk hck)
      · rw [← h1]
      · rw [← h1]
  · rw [hfind] at hrem
    obtain ⟨h1, _⟩ := Prod.mk.injEq .. ▸ (Except.ok.injEq .. ▸ hrem)
    obtain ⟨h0i, hi3, hscan⟩ := removeFind_some hfind
    obtain ⟨hmem, hkeyp⟩ := scanKey_spec hscan
    have hposlt : pos < (lvlAt s i).length :=
      probeAux_mem_lt (hfront i (by omega)).1 hmem
    refine hkey i pos (by omega) hposlt hkeyp s₂ ?_ ?_
      (fun k hk hck => hmono k hk hck)
    · rw [← h1]
    · rw [← h1]

/-- Guard: the operation's key is nonnegative. -/
def opKeyNonneg : TOp → Bool
  | .ins j => decide (0 ≤ j)
  | .rem j => decide (0 ≤ j)

/-- Any all-EMPTY table with zero size satisfies the invariant. -/
theorem EInvP_empty (ht : ElasticHashTable) (hsz : ht.size = 0)
    (hlv : ∀ l ∈ ht.levels, ∃ n, l = List.replicate n EMPTY) : EInvP ht := by
  have hsum : ∀ (f : List Int → Nat), (∀ n, f (List.replicate n EMPTY) = 0) →
      ∀ ls : List (List Int), (∀ l ∈ ls, ∃ n, l = List.replicate n EMPTY) →
        (ls.map f).sum = 0 := by
    intro f hf ls
    induction ls with
    | nil => intro _; rfl
    | cons a ls ih =>
      intro hmem
      obtain ⟨n, rfl⟩ := hmem a (List.mem_cons_self _ _)
      rw [List.map, List.sum_cons, hf n,
        ih (fun l hl => hmem l (List.mem_cons_of_mem _ hl))]
  constructor
  · intro k hk
    have hkc : elasticKeyCount ht k = 0 :=
      hsum (countK k) (countK_replicate k (by have : EMPTY = -1 := rfl; omega))
        ht.levels hlv
    rw [hkc]
    exact ⟨by omega, fun h1 => absurd h1 (by omega)⟩
  · have hoc : elasticOcc ht = 0 := hsum countOcc countOcc_replicate ht.levels hlv
    rw [hsz, hoc]
    rfl

/-- The fresh elastic table satisfies the counter/uniqueness invariant. -/
theorem newElastic_EInv {N : Nat} {delta : ℚ} {ht : ElasticHashTable}
    (h : newElasticHashTable N delta = .ok ht) : EInvP ht := by
  have hd := (newElastic_spec h).1
  rw [newElastic_ok N delta hd] at h
  have hht := Except.ok.inj h
  subst hht
  refine EInvP_empty _ rfl ?_
  intro l hl
  simp only [List.mem_cons, List.not_mem_nil, or_false] at hl
  rcases hl with rfl | rfl | rfl | rfl
  · exact ⟨_, rfl⟩
  · exact ⟨_, rfl⟩
  · exact ⟨_, rfl⟩
  · exact ⟨_, rfl⟩

/-- One guarded step preserves well-formedness and the invariant. -/
theorem eStep_inv {ht ht' : ElasticHashTable} {op : TOp}
    (hop : opKeyNonneg op = true) (hwf : elasticWF ht = true) (hinv : EInvP ht)
    (h : eStep ht op = .ok ht') : elasticWF ht' = true ∧ EInvP ht' := by
  cases op with
  | ins j =>
    rw [eStep] at h
    obtain ⟨p, hp, hpure⟩ := exceptBind_elim h
    obtain ⟨s₂, e⟩ := p
    cases hpure
    have hj : 0 ≤ j := of_decide_eq_true hop
    exact ⟨(elasticInsert_WF_mono ht s₂ j e hwf hj hp).1,
      elasticInsert_inv ht s₂ j e hwf hj hp hinv⟩
  | rem j =>
    rw [eStep] at h
    obtain ⟨p, hp, hpure⟩ := exceptBind_elim h
    obtain ⟨s₂, b⟩ := p
    cases hpure
    have hj : 0 ≤ j := of_decide_eq_true hop
    exact ⟨(elasticRemove_WF_mono ht s₂ j b hwf hp).1,
      elasticRemove_inv ht s₂ j b hwf hj hp hinv⟩

/-- A guarded run preserves well-formedness and the invariant. -/
theorem eRun_inv {ops : List TOp} :
    ∀ {ht s : ElasticHashTable}, ops.all opKeyNonneg = true →
      elasticWF ht = true → EInvP ht → eRun ht ops = .ok s →
      elasticWF s = true ∧ EInvP s := by
  induction ops with
  | nil =>
    intro ht s _ hwf hinv h
    cases h
    exact ⟨hwf, hinv⟩
  | cons op ops ih =>
    intro ht s hops hwf hinv h
    rw [List.all_cons, Bool.and_eq_true] at hops
    rw [eRun] at h
    obtain ⟨ht', hstep, h⟩ := exceptBind_elim h
    obtain ⟨hwf', hinv'⟩ := eStep_inv hops.1 hwf hinv hstep
    exact ih hops.2 hwf' hinv' h

/-- If the final level has at least `capacity` slots, `Insert` never
returns the internal-invariant error on an invariant-satisfying table. -/
theorem elasticInsert_no_internal (s : ElasticHashTable) (j : Int)
    (hwf : elasticWF s = true) (hinv : EInvP s)
    (hcap : s.capacity ≤ ((lvlAt s 3).length : Int)) :
    ∀ s₂, elasticInsert s j ≠ .ok (s₂,
      some "no empty slot found in final level (this should not happen under expected conditions)") := by
  obtain ⟨hL, hR, hlen, hfront, hlast⟩ := elasticWF_spec s hwf
  obtain ⟨hcnt, hocc⟩ := hinv
  intro s₂ hins
  rw [elasticInsert_eq s j hwf] at hins
  by_cases hcg : s.capacity ≤ s.size
  · rw [if_pos hcg] at hins
    obtain ⟨_, h2⟩ := Prod.mk.injEq .. ▸ (Except.ok.injEq .. ▸ hins)
    simp at h2
  · rw [if_neg hcg] at hins
    by_cases hc : containsCanon s j = true
    · rw [if_pos hc] at hins
      obtain ⟨_, h2⟩ := Prod.mk.injEq .. ▸ (Except.ok.injEq .. ▸ hins)
      cases h2
    · rw [if_neg hc] at hins
      rcases hfind : insertFind s j 0 3 with _ | ⟨i, pos⟩
      · rw [hfind] at hins
        rcases hlastf : scanFree (lvlAt s 3) (elasticLastOf s j) with _ | pos
        · rw [hlastf] at hins
          have hfull : ∀ p, p < (lvlAt s 3).length →
              (lvlAt s 3).getD p 0 ≠ EMPTY ∧ (lvlAt s 3).getD p 0 ≠ TOMBSTONE := by
            intro p hp
            have hmem : p ∈ elasticLastOf s j := by
              unfold elasticLastOf lastList
              exact lastList_complete hlast hp
            have := scanFree_none hlastf p hmem
            exact ⟨fun he => this (Or.inl he), fun ht' => this (Or.inr ht')⟩
          have hoccfull : countOcc (lvlAt s 3) = (lvlAt s 3).length :=
            countOcc_full _ hfull
          have hge := le_sum_map countOcc ([] : List Int) s.levels 3 (by omega)
          have : (lvlAt s 3).length ≤ elasticOcc s := by
            unfold elasticOcc
            unfold lvlAt at hoccfull
            simp only [lvlAt] at hoccfull hge ⊢
            omega
          omega
        · rw [hlastf] at hins
          obtain ⟨_, h2⟩ := Prod.mk.injEq .. ▸ (Except.ok.injEq .. ▸ hins)
          cases h2
      · rw [hfind] at hins
        obtain ⟨_, h2⟩ := Prod.mk.injEq .. ▸ (Except.ok.injEq .. ▸ hins)
        cases h2

/-! ## Funnel reachable-state invariant -/

/-- Total number of slots holding `k` across funnel levels and special. -/
def funnelKeyCount (ht : FunnelHashTable) (k : Int) : Nat :=
  (ht.levels.map (fun lvl => countK k lvl.slots)).sum + countK k ht.special

/-- Total number of occupied funnel slots. -/
def funnelOcc (ht : FunnelHashTable) : Nat :=
  (ht.levels.map (fun lvl => countOcc lvl.slots)).sum + countOcc ht.special

/-- A positive `listHasKey` exhibits a member position. -/
theorem listHasKey_true_mem {l : List Int} {k : Int} :
    ∀ {ps : List Nat}, listHasKey l k ps = true → ∃ p ∈ ps, l.getD p 0 = k := by
  intro ps
  induction ps with
  | nil => intro h; cases h
  | cons p ps ih =>
    intro h
    rw [listHasKey] at h
    by_cases hk : l.getD p 0 = k
    · exact ⟨p, List.mem_cons_self _ _, hk⟩
    · rw [if_neg hk] at h
      obtain ⟨q, hq, hqk⟩ := ih h
      exact ⟨q, List.mem_cons_of_mem _ hq, hqk⟩

/-- A member position holding the key makes `listHasKey` true. -/
theorem mem_listHasKey {l : List Int} {k : Int} :
    ∀ {ps : List Nat} {p : Nat}, p ∈ ps → l.getD p 0 = k →
      listHasKey l k ps = true := by
  intro ps
  induction ps with
  | nil => intro p hp; cases hp
  | cons q ps ih =>
    intro p hp hpk
    rw [listHasKey]
    rcases List.mem_cons.mp hp with rfl | hp'
    · rw [if_pos hpk]
    · by_cases hq : l.getD q 0 = k
      · rw [if_pos hq]
      · rw [if_neg hq]
        exact ih hp' hpk

/-- A write of a non-key value neither creates nor destroys `listHasKey`
when the old slot did not hold the key. -/
theorem listHasKey_set {l : List Int} {k v : Int} {pos : Nat}
    (hpos : pos < l.length) (hv : v ≠ k) (hold : l.getD pos 0 ≠ k) :
    ∀ ps : List Nat, listHasKey (l.set pos v) k ps = listHasKey l k ps := by
  intro ps
  induction ps with
  | nil => rfl
  | cons p ps ih =>
    rw [listHasKey, listHasKey]
    by_cases hpp : pos = p
    · subst hpp
      rw [listGetDSetSelf _ _ _ _ hpos, if_neg hv, if_neg hold]
      exact ih
    · rw [listGetDSetNe _ _ _ _ _ hpp]
      split
      · rfl
      · exact ih

/-- Failure of `scanEmpty` means no visited slot is EMPTY. -/
theorem scanEmpty_none_spec {l : List Int} :
    ∀ {ps : List Nat}, scanEmpty l ps = none →
      ∀ p ∈ ps, l.getD p 0 ≠ EMPTY := by
  intro ps
  induction ps with
  | nil => intro _ p hp; cases hp
  | cons q ps ih =>
    intro h p hp
    rw [scanEmpty] at h
    split at h
    · cases h
    · rcases List.mem_cons.mp hp with rfl | hp'
      · assumption
      · exact ih h p hp'

/-- A non-EMPTY write preserves the absence of EMPTY slots. -/
theorem scanEmpty_none_set {l : List Int} {v : Int} {pos : Nat}
    (hv : v ≠ EMPTY) :
    ∀ {ps : List Nat}, scanEmpty l ps = none → scanEmpty (l.set pos v) ps = none := by
  intro ps
  induction ps with
  | nil => intro _; rfl
  | cons q ps ih =>
    intro h
    rw [scanEmpty] at h
    split at h
    · cases h
    · rename_i hq
      rw [scanEmpty]
      by_cases hpp : pos = q
      · subst hpp
        by_cases hlt : pos < l.length
        · rw [if_neg (by rw [listGetDSetSelf _ _ _ _ hlt]; exact hv)]
          exact ih h
        · rw [if_neg (by
            rw [List.set_eq_of_length_le (by omega)]
            exact hq)]
          exact ih h
      · rw [if_neg (by rw [listGetDSetNe _ _ _ _ _ hpp]; exact hq)]
        exact ih h

/-- Failure of `scanIns` means no visited slot holds the key or EMPTY. -/
theorem scanIns_none_spec {l : List Int} {k : Int} :
    ∀ {ps : List Nat}, scanIns l k ps = none →
      ∀ p ∈ ps, l.getD p 0 ≠ k ∧ l.getD p 0 ≠ EMPTY := by
  intro ps
  induction ps with
  | nil => intro _ p hp; cases hp
  | cons q ps ih =>
    intro h p hp
    rw [scanIns] at h
    split at h
    · cases h
    · split at h
      · cases h
      · rcases List.mem_cons.mp hp with rfl | hp'
        · exact ⟨by assumption, by assumption⟩
        · exact ih h p hp'

/-- A write-slot verdict of `scanIns` names a member EMPTY slot. -/
theorem scanIns_inr_spec {l : List Int} {k : Int} :
    ∀ {ps : List Nat} {p : Nat}, scanIns l k ps = some (.inr p) →
      p ∈ ps ∧ l.getD p 0 = EMPTY := by
  intro ps
  induction ps with
  | nil => intro p h; cases h
  | cons q ps ih =>
    intro p h
    rw [scanIns] at h
    split at h
    · cases h
    · split at h
      · cases h
        exact ⟨List.mem_cons_self _ _, by assumption⟩
      · obtain ⟨hmem, he⟩ := ih h
        exact ⟨List.mem_cons_of_mem _ hmem, he⟩

/-- After writing the key into the EMPTY slot `scanIns` selected, the same
scan reports the key as present. -/
theorem scanIns_after_write {l : List Int} {k : Int} :
    ∀ {ps : List Nat} {p : Nat}, scanIns l k ps = some (.inr p) → ps.Nodup →
      scanIns (l.set p k) k ps = some (.inl ()) := by
  intro ps
  induction ps with
  | nil => intro p h; cases h
  | cons q ps ih =>
    intro p h hnd
    rw [scanIns] at h
    rw [scanIns]
    split at h
    · cases h
    · rename_i hqk
      split at h
      · cases h
        rename_i hqe
        have hql : q < l.length := by
          by_contra hge
          rw [List.getD_eq_getElem?_getD,
            List.getElem?_eq_none_iff.mpr (by omega)] at hqe
          have hE : EMPTY = -1 := rfl
          simp only [Option.getD_none] at hqe
          omega
        rw [if_pos (listGetDSetSelf _ _ _ _ hql)]
      · rename_i hqe
        obtain ⟨hpmem, _⟩ := scanIns_inr_spec h
        have hpq : p ≠ q := fun he => (List.nodup_cons.mp hnd).1 (he ▸ hpmem)
        rw [listGetDSetNe _ _ _ _ _ hpq, if_neg hqk, if_neg hqe]
        exact ih h (List.nodup_cons.mp hnd).2

/-- A write that neither is the key nor EMPTY, over a slot that did not
hold the key, preserves a present verdict of `scanIns`. -/
theorem scanIns_inl_set {l : List Int} {k v : Int} {pos : Nat}
    (hvk : v ≠ k) (hvE : v ≠ EMPTY) (hpk : l.getD pos 0 ≠ k)
    (hposlt : pos < l.length) :
    ∀ {ps : List Nat}, scanIns l k ps = some (.inl ()) →
      scanIns (l.set pos v) k ps = some (.inl ()) := by
  intro ps
  induction ps with
  | nil => intro h; cases h
  | cons q ps ih =>
    intro h
    rw [scanIns] at h
    rw [scanIns]
    split at h
    · rename_i hqk
      have hq : pos ≠ q := fun he => hpk (he ▸ hqk)
      rw [if_pos (by rw [listGetDSetNe _ _ _ _ _ hq]; exact hqk)]
    · rename_i hqk
      split at h
      · cases h
      · rename_i hqe
        by_cases hq : pos = q
        · subst hq
          rw [if_neg (by rw [listGetDSetSelf _ _ _ _ hposlt]; exact hvk),
            if_neg (by rw [listGetDSetSelf _ _ _ _ hposlt]; exact hvE)]
          exact ih h
        · rw [if_neg (by rw [listGetDSetNe _ _ _ _ _ hq]; exact hqk),
            if_neg (by rw [listGetDSetNe _ _ _ _ _ hq]; exact hqe)]
          exact ih h

/-- Membership makes `countK` positive. -/
theorem countK_pos_of_mem {k : Int} :
    ∀ {l : List Int}, k ∈ l → 1 ≤ countK k l := by
  intro l
  induction l with
  | nil => intro h; cases h
  | cons a l ih =>
    intro h
    rw [countK]
    rcases List.mem_cons.mp h with rfl | h'
    · rw [if_pos rfl]
      omega
    · have := ih h'
      omega

/-- A positive `countK` exhibits an in-bounds slot holding `k`. -/
theorem countK_pos_mem {k : Int} :
    ∀ {l : List Int}, 1 ≤ countK k l → ∃ p, p < l.length ∧ l.getD p 0 = k := by
  intro l
  induction l with
  | nil => intro h; exact absurd h (by rw [countK]; omega)
  | cons a l ih =>
    intro h
    rw [countK] at h
    by_cases ha : a = k
    · exact ⟨0, by simp, by simpa using ha⟩
    · rw [if_neg ha] at h
      obtain ⟨p, hp, hpk⟩ := ih (by omega)
      exact ⟨p + 1, by simpa using hp, by simpa using hpk⟩

/-- What a `none` result of the canonical `Insert` level loop means. -/
theorem funnelLevelFind_none {ht : FunnelHashTable} {key : Int} :
    ∀ {i fuel : Nat}, funnelLevelFind ht key i fuel = none →
      ∀ idx, i ≤ idx → idx < i + fuel →
        listHasKey (lvlF ht idx).slots key (bucketPs ht.b.toNat (lvlF ht idx) key) = false ∧
        scanEmpty (lvlF ht idx).slots (bucketPs ht.b.toNat (lvlF ht idx) key) = none := by
  intro i fuel
  induction fuel generalizing i with
  | zero => intro _ idx h1 h2; omega
  | succ fuel ih =>
    intro h idx h1 h2
    rw [funnelLevelFind] at h
    split at h
    · cases h
    · rename_i hk
      rw [Bool.not_eq_true] at hk
      rcases hscan : scanEmpty (lvlF ht i).slots (bucketPs ht.b.toNat (lvlF ht i) key)
        with _ | p
      · rw [hscan] at h
        rcases Nat.eq_or_lt_of_le h1 with rfl | hlt
        · exact ⟨hk, hscan⟩
        · exact ih h idx hlt (by omega)
      · rw [hscan] at h
        cases h

/-- What an `inr` result of the canonical `Insert` level loop means. -/
theorem funnelLevelFind_inr {ht : FunnelHashTable} {key : Int} :
    ∀ {i fuel i₀ idx : Nat}, funnelLevelFind ht key i fuel = some (.inr (i₀, idx)) →
      i ≤ i₀ ∧ i₀ < i + fuel ∧
      listHasKey (lvlF ht i₀).slots key (bucketPs ht.b.toNat (lvlF ht i₀) key) = false ∧
      scanEmpty (lvlF ht i₀).slots (bucketPs ht.b.toNat (lvlF ht i₀) key) = some idx ∧
      (∀ idx', i ≤ idx' → idx' < i₀ →
        listHasKey (lvlF ht idx').slots key (bucketPs ht.b.toNat (lvlF ht idx') key) = false ∧
        scanEmpty (lvlF ht idx').slots (bucketPs ht.b.toNat (lvlF ht idx') key) = none) := by
  intro i fuel
  induction fuel generalizing i with
  | zero => intro i₀ idx h; cases h
  | succ fuel ih =>
    intro i₀ idx h
    rw [funnelLevelFind] at h
    split at h
    · cases h
    · rename_i hk
      rw [Bool.not_eq_true] at hk
      rcases hscan : scanEmpty (lvlF ht i).slots (bucketPs ht.b.toNat (lvlF ht i) key)
        with _ | p
      · rw [hscan] at h
        obtain ⟨h1, h2, h3, h4, h5⟩ := ih h
        refine ⟨by omega, by omega, h3, h4, ?_⟩
        intro idx' hge hlt
        rcases Nat.eq_or_lt_of_le hge with rfl | hgt
        · exact ⟨hk, hscan⟩
        · exact h5 idx' hgt hlt
      · rw [hscan] at h
        cases h
        exact ⟨le_refl _, by omega, hk, hscan, fun idx' hge hlt => by omega⟩

/-- What an `inl` result of the canonical `Insert` level loop means. -/
theorem funnelLevelFind_inl {ht : FunnelHashTable} {key : Int} :
    ∀ {i fuel : Nat}, funnelLevelFind ht key i fuel = some (.inl ()) →
      ∃ i₀, i ≤ i₀ ∧ i₀ < i + fuel ∧
        listHasKey (lvlF ht i₀).slots key (bucketPs ht.b.toNat (lvlF ht i₀) key) = true := by
  intro i fuel
  induction fuel generalizing i with
  | zero => intro h; cases h
  | succ fuel ih =>
    intro h
    rw [funnelLevelFind] at h
    split at h
    · rename_i hk
      exact ⟨i, le_refl _, by omega, hk⟩
    · rcases hscan : scanEmpty (lvlF ht i).slots (bucketPs ht.b.toNat (lvlF ht i) key)
        with _ | p
      · rw [hscan] at h
        obtain ⟨i₀, h1, h2, h3⟩ := ih h
        exact ⟨i₀, by omega, by omega, h3⟩
      · rw [hscan] at h
        cases h

/-- Well-formedness survives overwriting one slot of one level. -/
theorem funnelWF_set_level (ht : FunnelHashTable) (i idx : Nat) (v sz : Int)
    (hwf : funnelWF ht = true) (hi : i < ht.levels.length) :
    funnelWF { ht with
      levels := ht.levels.set i { lvlF ht i with slots := (lvlF ht i).slots.set idx v },
      size := sz } = true := by
  obtain ⟨hb, hlvls, hsp, hsp32⟩ := funnelWF_spec ht hwf
  have hmemi : lvlF ht i ∈ ht.levels :=
    List.get?_mem (listGetQ_eq_getD _ _ _ hi)
  unfold funnelWF
  simp only [Bool.and_eq_true, List.all_eq_true, Bool.or_eq_true, decide_eq_true_eq]
  refine ⟨⟨⟨hb, ?_⟩, hsp⟩, hsp32⟩
  intro lvl hmem
  rcases List.mem_or_eq_of_mem_set hmem with hold | rfl
  · obtain ⟨h1, h2, h3, h4⟩ := hlvls lvl hold
    exact ⟨⟨⟨h1, h2⟩, h3⟩, h4⟩
  · obtain ⟨h1, h2, h3, h4⟩ := hlvls (lvlF ht i) hmemi
    exact ⟨⟨⟨h1, by simpa using h2⟩, h3⟩, h4⟩

/-- Well-formedness survives overwriting one special slot. -/
theorem funnelWF_set_special (ht : FunnelHashTable) (pos : Nat) (v sz : Int)
    (hwf : funnelWF ht = true) :
    funnelWF { ht with special := ht.special.set pos v, size := sz } = true := by
  obtain ⟨hb, hlvls, hsp, hsp32⟩ := funnelWF_spec ht hwf
  unfold funnelWF
  simp only [Bool.and_eq_true, List.all_eq_true, Bool.or_eq_true, decide_eq_true_eq,
    List.length_set]
  refine ⟨⟨⟨hb, ?_⟩, hsp⟩, hsp32⟩
  intro lvl hmem
  obtain ⟨h1, h2, h3, h4⟩ := hlvls lvl hmem
  exact ⟨⟨⟨h1, h2⟩, h3⟩, h4⟩

/-- The reachable-state invariant of funnel tables: each valid key is
stored at most once; every stored copy sits in the key's own bucket; a copy
at level `j` certifies that the key's buckets at earlier levels are
saturated (no EMPTY slot); a copy in the special array certifies that all
the key's buckets are saturated and that the key precedes every EMPTY slot
on its special probe path. -/
def FInvP (ht : FunnelHashTable) : Prop :=
  ∀ k : Int, 0 ≤ k →
    funnelKeyCount ht k ≤ 1 ∧
    (∀ j p, j < ht.levels.length → p < (lvlF ht j).slots.length →
      (lvlF ht j).slots.getD p 0 = k → p ∈ bucketPs ht.b.toNat (lvlF ht j) k) ∧
    (∀ j, j < ht.levels.length →
      listHasKey (lvlF ht j).slots k (bucketPs ht.b.toNat (lvlF ht j) k) = true →
      ∀ i, i < j →
        scanEmpty (lvlF ht i).slots (bucketPs ht.b.toNat (lvlF ht i) k) = none) ∧
    (1 ≤ countK k ht.special →
      (∀ i, i < ht.levels.length →
        scanEmpty (lvlF ht i).slots (bucketPs ht.b.toNat (lvlF ht i) k) = none) ∧
      scanIns ht.special k (specialPs ht k) = some (.inl ()))

/-- A positive sum has a positive summand. -/
theorem sum_map_pos {α : Type} (f : α → Nat) (d : α) :
    ∀ ls : List α, 1 ≤ (ls.map f).sum →
      ∃ i, i < ls.length ∧ 1 ≤ f (ls.getD i d) := by
  intro ls
  induction ls with
  | nil => intro h; exact absurd h (by simp)
  | cons a ls ih =>
    intro h
    rw [List.map, List.sum_cons] at h
    rcases Nat.lt_or_ge (f a) 1 with h0 | h1
    · obtain ⟨i, hi, hfi⟩ := ih (by omega)
      exact ⟨i + 1, by simpa using hi, by simpa using hfi⟩
    · exact ⟨0, by simp, by simpa using h1⟩

/-- The special probe path only depends on the special length. -/
theorem specialPs_set (ht : FunnelHashTable) (pos : Nat) (v sz : Int) (k : Int) :
    specialPs { ht with special := ht.special.set pos v, size := sz } k =
      specialPs ht k := by
  unfold specialPs specialStart lastList
  rw [List.length_set]

/-- The special probe path ignores level updates. -/
theorem specialPs_setlvl (ht : FunnelHashTable) (i : Nat) (x : Level) (sz : Int)
    (k : Int) :
    specialPs { ht with levels := ht.levels.set i x, size := sz } k =
      specialPs ht k := rfl

/-- Levels after a level write. -/
theorem lvlF_set_self (ht : FunnelHashTable) (i : Nat) (x : Level) (sz : Int)
    (hi : i < ht.levels.length) :
    lvlF { ht with levels := ht.levels.set i x, size := sz } i = x := by
  unfold lvlF
  exact listGetDSetSelf _ _ _ _ hi

theorem lvlF_set_ne (ht : FunnelHashTable) (i j : Nat) (x : Level) (sz : Int)
    (hij : i ≠ j) :
    lvlF { ht with levels := ht.levels.set i x, size := sz } j = lvlF ht j := by
  unfold lvlF
  exact listGetDSetNe _ _ _ _ _ hij

/-- Levels are untouched by a special write. -/
theorem lvlF_set_special (ht : FunnelHashTable) (pos : Nat) (v sz : Int) (j : Nat) :
    lvlF { ht with special := ht.special.set pos v, size := sz } j = lvlF ht j := rfl

/-- The bucket of a level does not depend on its slot contents. -/
theorem bucketPs_slots (b : Nat) (lvl : Level) (x : List Int) (k : Int) :
    bucketPs b { lvl with slots := x } k = bucketPs b lvl k := rfl

/-- All WF facts of one level. -/
theorem funnelWF_level (ht : FunnelHashTable) (hwf : funnelWF ht = true)
    (j : Nat) (hj : j < ht.levels.length) :
    0 < (lvlF ht j).numBuckets ∧
    (lvlF ht j).slots.length = ((lvlF ht j).numBuckets * ht.b).toNat ∧
    (lvlF ht j).mask < (lvlF ht j).numBuckets.toNat ∧
    (0 < (lvlF ht j).mask ∨ 0 < uint32Cast (lvlF ht j).numBuckets) :=
  (funnelWF_spec ht hwf).2.1 _ (List.get?_mem (listGetQ_eq_getD _ _ _ hj))

/-- Bucket positions are in bounds. -/
theorem bucketPs_lt (ht : FunnelHashTable) (hwf : funnelWF ht = true)
    (j : Nat) (hj : j < ht.levels.length) (k : Int) :
    ∀ p ∈ bucketPs ht.b.toNat (lvlF ht j) k, p < (lvlF ht j).slots.length := by
  obtain ⟨hnb, hslots, hmask, hnz⟩ := funnelWF_level ht hwf j hj
  have hb := (funnelWF_spec ht hwf).1
  have hsb := bucket_bound ht (lvlF ht j) k hb hnb hslots hmask hnz
  intro p hp
  have := List.mem_range'_1.mp hp
  omega

/-- Special probe positions are in bounds. -/
theorem specialPs_lt (ht : FunnelHashTable) (hwf : funnelWF ht = true) (k : Int) :
    ∀ p ∈ specialPs ht k, p < ht.special.length := by
  have hsp := (funnelWF_spec ht hwf).2.2.1
  intro p hp
  exact lastAux_mem_lt hsp hp

/-- The special probe path has no repeats. -/
theorem specialPs_nodup (ht : FunnelHashTable) (hwf : funnelWF ht = true) (k : Int) :
    (specialPs ht k).Nodup := by
  have hsp := (funnelWF_spec ht hwf).2.2.1
  unfold specialPs lastList
  exact lastAux_nodup hsp (le_refl _)

/-- If the key is visible in no bucket and not in the special array, it is
stored nowhere. -/
theorem funnelKeyCount_zero_of (s : FunnelHashTable) (j : Int) (hj : 0 ≤ j)
    (hinv : FInvP s)
    (hlevels : ∀ j₀, j₀ < s.levels.length →
      listHasKey (lvlF s j₀).slots j (bucketPs s.b.toNat (lvlF s j₀) j) = true → False)
    (hspecial : 1 ≤ countK j s.special → False) :
    funnelKeyCount s j = 0 := by
  by_contra h0
  have h1 : 1 ≤ funnelKeyCount s j := by omega
  unfold funnelKeyCount at h1
  rcases Nat.lt_or_ge (countK j s.special) 1 with hsp0 | hsp1
  · have hsum : 1 ≤ (s.levels.map (fun lvl => countK j lvl.slots)).sum := by omega
    obtain ⟨j₀, hj₀, hcnt⟩ := sum_map_pos _ defaultLevel s.levels hsum
    obtain ⟨p, hp, hpk⟩ := countK_pos_mem hcnt
    have hmemB := (hinv j hj).2.1 j₀ p hj₀ hp hpk
    exact hlevels j₀ hj₀ (mem_listHasKey hmemB hpk)
  · exact hspecial hsp1

/-- A level write of `Insert` preserves the invariant. -/
theorem funnelInsert_FInv_level (s : FunnelHashTable) (j : Int) (i₀ idx : Nat)
    (hwf : funnelWF s = true) (hj : 0 ≤ j) (hinv : FInvP s)
    (hfind : funnelLevelFind s j 0 s.levels.length = some (.inr (i₀, idx))) :
    FInvP { s with
      levels := s.levels.set i₀
        { lvlF s i₀ with slots := (lvlF s i₀).slots.set idx j },
      size := s.size + 1 } := by
  have hE : EMPTY = -1 := rfl
  have hT : TOMBSTONE = -2 := rfl
  obtain ⟨h0i, hi₀, hkF, hscan, hpre⟩ := funnelLevelFind_inr hfind
  have hi₀' : i₀ < s.levels.length := by omega
  obtain ⟨hidxmem, hidxE⟩ := scanEmpty_spec hscan
  have hidxlt : idx < (lvlF s i₀).slots.length :=
    bucketPs_lt s hwf i₀ hi₀' j idx hidxmem
  have hcount0 : funnelKeyCount s j = 0 := by
    refine funnelKeyCount_zero_of s j hj hinv ?_ ?_
    · intro j₀ hj₀ hhk
      rcases Nat.lt_trichotomy j₀ i₀ with hlt | rfl | hgt
      · rw [(hpre j₀ (by omega) hlt).1] at hhk
        cases hhk
      · rw [hkF] at hhk
        cases hhk
      · have := (hinv j hj).2.2.1 j₀ hj₀ hhk i₀ hgt
        rw [this] at hscan
        cases hscan
    · intro hsp1
      have := ((hinv j hj).2.2.2 hsp1).1 i₀ hi₀'
      rw [this] at hscan
      cases hscan
  generalize hnew : ({ lvlF s i₀ with
      slots := (lvlF s i₀).slots.set idx j } : Level) = newlvl
  generalize hs2 : ({ s with
      levels := s.levels.set i₀ newlvl,
      size := s.size + 1 } : FunnelHashTable) = s₂
  have hslots2 : newlvl.slots = (lvlF s i₀).slots.set idx j := by
    rw [← hnew]
  have hsl : newlvl.slots.length = (lvlF s i₀).slots.length := by
    rw [hslots2, List.length_set]
  have hBidx : ∀ k : Int, bucketPs s.b.toNat newlvl k =
      bucketPs s.b.toNat (lvlF s i₀) k := by
    intro k
    unfold bucketPs funnelBucketIdx
    rw [← hnew]
  have hlv : s₂.levels = s.levels.set i₀ newlvl := by
    rw [← hs2]
  have hspc : s₂.special = s.special := by
    rw [← hs2]
  have hbb : s₂.b = s.b := by
    rw [← hs2]
  have hlen2 : s₂.levels.length = s.levels.length := by
    rw [hlv, List.length_set]
  have hlvl2i : lvlF s₂ i₀ = newlvl := by
    unfold lvlF
    rw [hlv]
    exact listGetDSetSelf _ _ _ _ hi₀'
  have hlvl2 : ∀ j', j' ≠ i₀ → lvlF s₂ j' = lvlF s j' := by
    intro j' hne
    unfold lvlF
    rw [hlv]
    exact listGetDSetNe _ _ _ _ _ (fun he => hne he.symm)
  have hsPs : ∀ k : Int, specialPs s₂ k = specialPs s k := by
    intro k
    unfold specialPs specialStart
    rw [hspc]
  have hCnt2 : ∀ k : Int, funnelKeyCount s₂ k + countK k (lvlF s i₀).slots =
      funnelKeyCount s k + countK k newlvl.slots := by
    intro k
    unfold funnelKeyCount
    have hms := sum_map_set (fun lvl => countK k lvl.slots) newlvl defaultLevel
      s.levels i₀ hi₀'
    simp only [] at hms
    rw [hlv, hspc]
    unfold lvlF
    omega
  intro k hk
  obtain ⟨hA, hB, hC, hD⟩ := hinv k hk
  have hsetK := countK_set k j (lvlF s i₀).slots idx hidxlt
  have holdK : (if (lvlF s i₀).slots.getD idx 0 = k then 1 else 0) = 0 := by
    rw [if_neg (by omega)]
  have hCnt2k := hCnt2 k
  rw [hslots2] at hCnt2k
  refine ⟨?_, ?_, ?_, ?_⟩
  · by_cases hkj : j = k
    · subst hkj
      rw [if_pos rfl] at hsetK
      omega
    · rw [if_neg hkj] at hsetK
      omega
  · intro j' p hj' hp hpk
    by_cases hj'i : j' = i₀
    · subst hj'i
      rw [hlvl2i] at hp hpk ⊢
      rw [hbb, hBidx]
      rw [hslots2] at hpk
      rw [hsl] at hp
      by_cases hpidx : idx = p
      · subst hpidx
        rw [listGetDSetSelf _ _ _ _ hidxlt] at hpk
        subst hpk
        exact hidxmem
      · rw [listGetDSetNe _ _ _ _ _ hpidx] at hpk
        exact hB j' p hi₀' hp hpk
    · rw [hlvl2 j' hj'i] at hp hpk ⊢
      rw [hbb]
      rw [hlen2] at hj'
      exact hB j' p hj' hp hpk
  · intro j₀ hj₀ hhk i hij₀
    rw [hlen2] at hj₀
    have hscemp : ∀ i', i' < s.levels.length →
        scanEmpty (lvlF s i').slots (bucketPs s.b.toNat (lvlF s i') k) = none →
        scanEmpty (lvlF s₂ i').slots (bucketPs s₂.b.toNat (lvlF s₂ i') k) = none := by
      intro i' hi' hnone
      by_cases hii : i' = i₀
      · subst hii
        rw [hlvl2i, hbb, hBidx, hslots2]
        exact scanEmpty_none_set (by omega) hnone
      · rw [hlvl2 i' hii, hbb]
        exact hnone
    by_cases hkj : j = k
    · subst hkj
      by_cases hj₀i : j₀ = i₀
      · subst hj₀i
        exact hscemp i (by omega) ((hpre i (by omega) hij₀).2)
      · rw [hlvl2 j₀ hj₀i, hbb] at hhk
        exfalso
        obtain ⟨p, hpmem, hpk⟩ := listHasKey_true_mem hhk
        have hplt := bucketPs_lt s hwf j₀ hj₀ j p hpmem
        have h1 : 1 ≤ countK j (lvlF s j₀).slots := countK_pos j _ p hplt hpk
        have hge := le_sum_map (fun lvl => countK j lvl.slots) defaultLevel
          s.levels j₀ hj₀
        simp only [] at hge
        unfold funnelKeyCount at hcount0
        unfold lvlF at h1
        omega
    · have hhk2 : listHasKey (lvlF s j₀).slots k
          (bucketPs s.b.toNat (lvlF s j₀) k) = true := by
        by_cases hj₀i : j₀ = i₀
        · subst hj₀i
          rw [hlvl2i, hbb, hBidx, hslots2] at hhk
          rw [listHasKey_set hidxlt (fun he => hkj he) (by omega)] at hhk
          exact hhk
        · rw [hlvl2 j₀ hj₀i, hbb] at hhk
          exact hhk
      exact hscemp i (by omega) (hC j₀ hj₀ hhk2 i hij₀)
  · intro hsp1
    rw [hspc] at hsp1
    by_cases hkj : j = k
    · subst hkj
      exfalso
      unfold funnelKeyCount at hcount0
      omega
    · obtain ⟨hDlv, hDins⟩ := hD hsp1
      constructor
      · intro i hi
        rw [hlen2] at hi
        by_cases hii : i = i₀
        · subst hii
          rw [hlvl2i, hbb, hBidx, hslots2]
          exact scanEmpty_none_set (by omega) (hDlv i hi)
        · rw [hlvl2 i hii, hbb]
          exact hDlv i hi
      · rw [hspc, hsPs k]
        exact hDins

/-- A special-array write of `Insert` preserves the invariant. -/
theorem funnelInsert_FInv_special (s : FunnelHashTable) (j : Int) (pos : Nat)
    (hwf : funnelWF s = true) (hj : 0 ≤ j) (hinv : FInvP s)
    (hfind : funnelLevelFind s j 0 s.levels.length = none)
    (hscan : scanIns s.special j (specialPs s j) = some (.inr pos)) :
    FInvP { s with special := s.special.set pos j, size := s.size + 1 } := by
  have hE : EMPTY = -1 := rfl
  have hLF := funnelLevelFind_none hfind
  obtain ⟨hpmem, hposE⟩ := scanIns_inr_spec hscan
  have hposlt : pos < s.special.length := specialPs_lt s hwf j pos hpmem
  have hcount0 : funnelKeyCount s j = 0 := by
    refine funnelKeyCount_zero_of s j hj hinv ?_ ?_
    · intro j₀ hj₀ hhk
      rw [(hLF j₀ (by omega) (by omega)).1] at hhk
      cases hhk
    · intro hsp1
      have := ((hinv j hj).2.2.2 hsp1).2
      rw [this] at hscan
      cases hscan
  generalize hs2 : ({ s with
      special := s.special.set pos j,
      size := s.size + 1 } : FunnelHashTable) = s₂
  have hspc : s₂.special = s.special.set pos j := by
    rw [← hs2]
  have hlv : s₂.levels = s.levels := by
    rw [← hs2]
  have hbb : s₂.b = s.b := by
    rw [← hs2]
  have hlvl2 : ∀ i, lvlF s₂ i = lvlF s i := by
    intro i
    unfold lvlF
    rw [hlv]
  have hsPs : ∀ k : Int, specialPs s₂ k = specialPs s k := by
    intro k
    unfold specialPs specialStart
    rw [hspc, List.length_set]
  have hlen2 : s₂.levels.length = s.levels.length := by
    rw [hlv]
  have hCnt2 : ∀ k : Int, funnelKeyCount s₂ k + countK k s.special =
      funnelKeyCount s k + countK k (s.special.set pos j) := by
    intro k
    unfold funnelKeyCount
    rw [hlv, hspc]
    omega
  intro k hk
  obtain ⟨hA, hB, hC, hD⟩ := hinv k hk
  have hsetK := countK_set k j s.special pos hposlt
  have holdK : (if s.special.getD pos 0 = k then 1 else 0) = 0 := by
    rw [hposE, if_neg (by omega)]
  have hCnt2k := hCnt2 k
  refine ⟨?_, ?_, ?_, ?_⟩
  · by_cases hkj : j = k
    · subst hkj
      rw [if_pos rfl] at hsetK
      omega
    · rw [if_neg hkj] at hsetK
      omega
  · intro j' p hj' hp hpk
    rw [hlvl2 j'] at hp hpk ⊢
    rw [hbb]
    rw [hlen2] at hj'
    exact hB j' p hj' hp hpk
  · intro j₀ hj₀ hhk i hij₀
    rw [hlen2] at hj₀
    rw [hlvl2 j₀, hbb] at hhk
    rw [hlvl2 i, hbb]
    exact hC j₀ hj₀ hhk i hij₀
  · intro hsp1
    rw [hspc] at hsp1
    by_cases hkj : j = k
    · subst hkj
      constructor
      · intro i hi
        rw [hlen2] at hi
        rw [hlvl2 i, hbb]
        exact (hLF i (by omega) (by omega)).2
      · rw [hspc, hsPs j]
        exact scanIns_after_write hscan (specialPs_nodup s hwf j)
    · rw [holdK, if_neg hkj] at hsetK
      obtain ⟨hDlv, hDins⟩ := hD (by omega)
      constructor
      · intro i hi
        rw [hlen2] at hi
        rw [hlvl2 i, hbb]
        exact hDlv i hi
      · rw [hspc, hsPs k]
        exact scanIns_inl_set hkj (by omega) (by rw [hposE]; omega) hposlt hDins

/-- A level tombstone write of `Remove` preserves the invariant. -/
theorem funnelRemove_FInv_level (s : FunnelHashTable) (j : Int) (i₀ idx : Nat)
    (hwf : funnelWF s = true) (hj : 0 ≤ j) (hinv : FInvP s)
    (hfind : funnelLevelRemoveFind s j 0 s.levels.length = some (i₀, idx)) :
    FInvP { s with
      levels := s.levels.set i₀
        { lvlF s i₀ with slots := (lvlF s i₀).slots.set idx TOMBSTONE },
      size := s.size - 1 } := by
  have hE : EMPTY = -1 := rfl
  have hT : TOMBSTONE = -2 := rfl
  obtain ⟨h0i, hi₀, hscan⟩ := funnelLevelRemoveFind_some hfind
  have hi₀' : i₀ < s.levels.length := by omega
  obtain ⟨hidxmem, hidxk⟩ := scanKey_spec hscan
  have hidxlt : idx < (lvlF s i₀).slots.length :=
    bucketPs_lt s hwf i₀ hi₀' j idx hidxmem
  generalize hnew : ({ lvlF s i₀ with
      slots := (lvlF s i₀).slots.set idx TOMBSTONE } : Level) = newlvl
  generalize hs2 : ({ s with
      levels := s.levels.set i₀ newlvl,
      size := s.size - 1 } : FunnelHashTable) = s₂
  have hslots2 : newlvl.slots = (lvlF s i₀).slots.set idx TOMBSTONE := by
    rw [← hnew]
  have hsl : newlvl.slots.length = (lvlF s i₀).slots.length := by
    rw [hslots2, List.length_set]
  have hBidx : ∀ k : Int, bucketPs s.b.toNat newlvl k =
      bucketPs s.b.toNat (lvlF s i₀) k := by
    intro k
    unfold bucketPs funnelBucketIdx
    rw [← hnew]
  have hlv : s₂.levels = s.levels.set i₀ newlvl := by
    rw [← hs2]
  have hspc : s₂.special = s.special := by
    rw [← hs2]
  have hbb : s₂.b = s.b := by
    rw [← hs2]
  have hlen2 : s₂.levels.length = s.levels.length := by
    rw [hlv, List.length_set]
  have hlvl2i : lvlF s₂ i₀ = newlvl := by
    unfold lvlF
    rw [hlv]
    exact listGetDSetSelf _ _ _ _ hi₀'
  have hlvl2 : ∀ j', j' ≠ i₀ → lvlF s₂ j' = lvlF s j' := by
    intro j' hne
    unfold lvlF
    rw [hlv]
    exact listGetDSetNe _ _ _ _ _ (fun he => hne he.symm)
  have hsPs : ∀ k : Int, specialPs s₂ k = specialPs s k := by
    intro k
    unfold specialPs specialStart
    rw [hspc]
  have hCnt2 : ∀ k : Int, funnelKeyCount s₂ k + countK k (lvlF s i₀).slots =
      funnelKeyCount s k + countK k newlvl.slots := by
    intro k
    unfold funnelKeyCount
    have hms := sum_map_set (fun lvl => countK k lvl.slots) newlvl defaultLevel
      s.levels i₀ hi₀'
    simp only [] at hms
    rw [hlv, hspc]
    unfold lvlF
    omega
  intro k hk
  obtain ⟨hA, hB, hC, hD⟩ := hinv k hk
  have hsetK := countK_set k TOMBSTONE (lvlF s i₀).slots idx hidxlt
  rw [hidxk, if_neg (show TOMBSTONE ≠ k by omega)] at hsetK
  have hCnt2k := hCnt2 k
  rw [hslots2] at hCnt2k
  refine ⟨?_, ?_, ?_, ?_⟩
  · by_cases hkj : j = k
    · rw [if_pos hkj] at hsetK
      omega
    · rw [if_neg hkj] at hsetK
      omega
  · intro j' p hj' hp hpk
    by_cases hj'i : j' = i₀
    · subst hj'i
      rw [hlvl2i] at hp hpk ⊢
      rw [hbb, hBidx]
      rw [hslots2] at hpk
      rw [hsl] at hp
      by_cases hpidx : idx = p
      · subst hpidx
        rw [listGetDSetSelf _ _ _ _ hidxlt] at hpk
        exact absurd hpk (by omega)
      · rw [listGetDSetNe _ _ _ _ _ hpidx] at hpk
        exact hB j' p hi₀' hp hpk
    · rw [hlvl2 j' hj'i] at hp hpk ⊢
      rw [hbb]
      rw [hlen2] at hj'
      exact hB j' p hj' hp hpk
  · intro j₀ hj₀ hhk i hij₀
    rw [hlen2] at hj₀
    have hscemp : ∀ i', i' < s.levels.length →
        scanEmpty (lvlF s i').slots (bucketPs s.b.toNat (lvlF s i') k) = none →
        scanEmpty (lvlF s₂ i').slots (bucketPs s₂.b.toNat (lvlF s₂ i') k) = none := by
      intro i' hi' hnone
      by_cases hii : i' = i₀
      · subst hii
        rw [hlvl2i, hbb, hBidx, hslots2]
        exact scanEmpty_none_set (by omega) hnone
      · rw [hlvl2 i' hii, hbb]
        exact hnone
    have hhk2 : listHasKey (lvlF s j₀).slots k
        (bucketPs s.b.toNat (lvlF s j₀) k) = true := by
      by_cases hj₀i : j₀ = i₀
      · subst hj₀i
        rw [hlvl2i, hbb, hBidx, hslots2] at hhk
        obtain ⟨p, hpmem, hpk⟩ := listHasKey_true_mem hhk
        by_cases hpidx : idx = p
        · subst hpidx
          rw [listGetDSetSelf _ _ _ _ hidxlt] at hpk
          exact absurd hpk (by omega)
        · rw [listGetDSetNe _ _ _ _ _ hpidx] at hpk
          exact mem_listHasKey hpmem hpk
      · rw [hlvl2 j₀ hj₀i, hbb] at hhk
        exact hhk
    exact hscemp i (by omega) (hC j₀ hj₀ hhk2 i hij₀)
  · intro hsp1
    rw [hspc] at hsp1
    obtain ⟨hDlv, hDins⟩ := hD hsp1
    constructor
    · intro i hi
      rw [hlen2] at hi
      by_cases hii : i = i₀
      · subst hii
        rw [hlvl2i, hbb, hBidx, hslots2]
        exact scanEmpty_none_set (by omega) (hDlv i hi)
      · rw [hlvl2 i hii, hbb]
        exact hDlv i hi
    · rw [hspc, hsPs k]
      exact hDins

/-- A special-array tombstone write of `Remove` preserves the invariant. -/
theorem funnelRemove_FInv_special (s : FunnelHashTable) (j : Int) (pos : Nat)
    (hwf : funnelWF s = true) (hj : 0 ≤ j) (hinv : FInvP s)
    (hscan : scanKey s.special j (specialPs s j) = some pos) :
    FInvP { s with
      special := s.special.set pos TOMBSTONE,
      size := s.size - 1 } := by
  have hE : EMPTY = -1 := rfl
  have hT : TOMBSTONE = -2 := rfl
  obtain ⟨hpmem, hposk⟩ := scanKey_spec hscan
  have hposlt : pos < s.special.length := specialPs_lt s hwf j pos hpmem
  generalize hs2 : ({ s with
      special := s.special.set pos TOMBSTONE,
      size := s.size - 1 } : FunnelHashTable) = s₂
  have hspc : s₂.special = s.special.set pos TOMBSTONE := by
    rw [← hs2]
  have hlv : s₂.levels = s.levels := by
    rw [← hs2]
  have hbb : s₂.b = s.b := by
    rw [← hs2]
  have hlvl2 : ∀ i, lvlF s₂ i = lvlF s i := by
    intro i
    unfold lvlF
    rw [hlv]
  have hsPs : ∀ k : Int, specialPs s₂ k = specialPs s k := by
    intro k
    unfold specialPs specialStart
    rw [hspc, List.length_set]
  have hlen2 : s₂.levels.length = s.levels.length := by
    rw [hlv]
  have hCnt2 : ∀ k : Int, funnelKeyCount s₂ k + countK k s.special =
      funnelKeyCount s k + countK k (s.special.set pos TOMBSTONE) := by
    intro k
    unfold funnelKeyCount
    rw [hlv, hspc]
    omega
  intro k hk
  obtain ⟨hA, hB, hC, hD⟩ := hinv k hk
  have hsetK := countK_set k TOMBSTONE s.special pos hposlt
  rw [hposk, if_neg (show TOMBSTONE ≠ k by omega)] at hsetK
  have hCnt2k := hCnt2 k
  refine ⟨?_, ?_, ?_, ?_⟩
  · by_cases hkj : j = k
    · rw [if_pos hkj] at hsetK
      omega
    · rw [if_neg hkj] at hsetK
      omega
  · intro j' p hj' hp hpk
    rw [hlvl2 j'] at hp hpk ⊢
    rw [hbb]
    rw [hlen2] at hj'
    exact hB j' p hj' hp hpk
  · intro j₀ hj₀ hhk i hij₀
    rw [hlen2] at hj₀
    rw [hlvl2 j₀, hbb] at hhk
    rw [hlvl2 i, hbb]
    exact hC j₀ hj₀ hhk i hij₀
  · intro hsp1
    rw [hspc] at hsp1
    by_cases hkj : j = k
    · exfalso
      rw [if_pos hkj] at hsetK
      unfold funnelKeyCount at hA
      omega
    · rw [if_neg hkj] at hsetK
      obtain ⟨hDlv, hDins⟩ := hD (by omega)
      constructor
      · intro i hi
        rw [hlen2] at hi
        rw [hlvl2 i, hbb]
        exact hDlv i hi
      · rw [hspc, hsPs k]
        exact scanIns_inl_set (show TOMBSTONE ≠ k by omega) (by omega)
          (by rw [hposk]; exact hkj) hposlt hDins

/-- `Insert` preserves well-formedness and the invariant. -/
theorem funnelInsert_WF_FInv (ht s₂ : FunnelHashTable) (j : Int) (e : Option String)
    (hwf : funnelWF ht = true) (hj : 0 ≤ j)
    (h : funnelInsert ht j = .ok (s₂, e)) (hinv : FInvP ht) :
    funnelWF s₂ = true ∧ FInvP s₂ := by
  rw [funnelInsert_eq ht j hwf] at h
  by_cases hcap : ht.capacity ≤ ht.size
  · rw [if_pos hcap] at h
    cases h
    exact ⟨hwf, hinv⟩
  · rw [if_neg hcap] at h
    rcases hfind : funnelLevelFind ht j 0 ht.levels.length with _ | (_ | ⟨i, idx⟩)
    · simp only [hfind] at h
      rcases hscan : scanIns ht.special j (specialPs ht j) with _ | (_ | pos)
      · simp only [hscan] at h
        cases h
        exact ⟨hwf, hinv⟩
      · simp only [hscan] at h
        cases h
        exact ⟨hwf, hinv⟩
      · simp only [hscan] at h
        cases h
        exact ⟨funnelWF_set_special ht pos j _ hwf,
          funnelInsert_FInv_special ht j pos hwf hj hinv hfind hscan⟩
    · simp only [hfind] at h
      cases h
      exact ⟨hwf, hinv⟩
    · simp only [hfind] at h
      cases h
      have hi : i < ht.levels.length := by
        obtain ⟨h1, h2, _⟩ := funnelLevelFind_inr hfind
        omega
      exact ⟨funnelWF_set_level ht i idx j _ hwf hi,
        funnelInsert_FInv_level ht j i idx hwf hj hinv hfind⟩

/-- `Remove` preserves well-formedness and the invariant. -/
theorem funnelRemove_WF_FInv (ht s₂ : FunnelHashTable) (j : Int) (b : Bool)
    (hwf : funnelWF ht = true) (hj : 0 ≤ j)
    (h : funnelRemove ht j = .ok (s₂, b)) (hinv : FInvP ht) :
    funnelWF s₂ = true ∧ FInvP s₂ := by
  rw [funnelRemove_eq ht j hwf] at h
  rcases hfind : funnelLevelRemoveFind ht j 0 ht.levels.length with _ | ⟨i, idx⟩
  · simp only [hfind] at h
    rcases hscan : scanKey ht.special j (specialPs ht j) with _ | pos
    · simp only [hscan] at h
      cases h
      exact ⟨hwf, hinv⟩
    · simp only [hscan] at h
      cases h
      exact ⟨funnelWF_set_special ht pos TOMBSTONE _ hwf,
        funnelRemove_FInv_special ht j pos hwf hj hinv hscan⟩
  · simp only [hfind] at h
    cases h
    have hi : i < ht.levels.length := by
      obtain ⟨h1, h2, _⟩ := funnelLevelRemoveFind_some hfind
      omega
    exact ⟨funnelWF_set_level ht i idx TOMBSTONE _ hwf hi,
      funnelRemove_FInv_level ht j i idx hwf hj hinv hfind⟩

/-- One guarded step preserves well-formedness and the invariant. -/
theorem fStep_inv {ht ht' : FunnelHashTable} {op : TOp}
    (hop : opKeyNonneg op = true) (hwf : funnelWF ht = true) (hinv : FInvP ht)
    (h : fStep ht op = .ok ht') : funnelWF ht' = true ∧ FInvP ht' := by
  cases op with
  | ins j =>
    rw [fStep] at h
    obtain ⟨p, hp, hpure⟩ := exceptBind_elim h
    obtain ⟨s₂, e⟩ := p
    cases hpure
    have hj : 0 ≤ j := of_decide_eq_true hop
    exact funnelInsert_WF_FInv ht s₂ j e hwf hj hp hinv
  | rem j =>
    rw [fStep] at h
    obtain ⟨p, hp, hpure⟩ := exceptBind_elim h
    obtain ⟨s₂, b⟩ := p
    cases hpure
    have hj : 0 ≤ j := of_decide_eq_true hop
    exact funnelRemove_WF_FInv ht s₂ j b hwf hj hp hinv

/-- A guarded run preserves well-formedness and the invariant. -/
theorem fRun_inv {ops : List TOp} :
    ∀ {ht s : FunnelHashTable}, ops.all opKeyNonneg = true →
      funnelWF ht = true → FInvP ht → fRun ht ops = .ok s →
      funnelWF s = true ∧ FInvP s := by
  induction ops with
  | nil =>
    intro ht s _ hwf hinv h
    cases h
    exact ⟨hwf, hinv⟩
  | cons op ops ih =>
    intro ht s hops hwf hinv h
    rw [List.all_cons, Bool.and_eq_true] at hops
    rw [fRun] at h
    obtain ⟨ht', hstep, h⟩ := exceptBind_elim h
    obtain ⟨hwf', hinv'⟩ := fStep_inv hops.1 hwf hinv hstep
    exact ih hops.2 hwf' hinv' h

/-- Truncating division by a positive divisor shrinks a nonnegative
dividend. -/
theorem tdiv_le_self_of_nonneg (a b : Int) (h : 0 ≤ a) (hb : 0 < b) :
    a.tdiv b ≤ a := by
  rw [Int.tdiv_eq_ediv h (by omega)]
  exact Int.ediv_le_self _ h

/-- Truncating division is monotone in a nonnegative dividend. -/
theorem tdiv_le_tdiv_right_of_nonneg (a c d : Int) (h : 0 ≤ a) (h2 : a ≤ c)
    (hd : 0 < d) : a.tdiv d ≤ c.tdiv d := by
  rw [Int.tdiv_eq_ediv h (by omega), Int.tdiv_eq_ediv (by omega) (by omega)]
  exact Int.ediv_le_ediv hd h2

/-- A dividend at least the positive divisor has quotient at least one. -/
theorem one_le_tdiv_of_le (a b : Int) (hb : 0 < b) (h : b ≤ a) :
    1 ≤ a.tdiv b := by
  rw [Int.tdiv_eq_ediv (by omega) (by omega)]
  exact (Int.le_ediv_iff_mul_le hb).mpr (by omega)

/-- The power-of-two search loop never reaches twice its target. -/
theorem goNextPow2Loop_lt (numB : Int) :
    ∀ (fuel : Nat) (p : Int), p < 2 * numB →
      goNextPow2Loop numB p fuel < 2 * numB := by
  intro fuel
  induction fuel with
  | zero =>
    intro p hp
    exact hp
  | succ fuel ih =>
    intro p hp
    rw [goNextPow2Loop]
    split
    · rename_i hc
      exact ih _ (by omega)
    · exact hp

/-- `goNextPow2` of a positive argument is below twice the argument. -/
theorem goNextPow2_lt (numB : Int) (h : 1 ≤ numB) : goNextPow2 numB < 2 * numB :=
  goNextPow2Loop_lt numB _ 1 (by omega)

/-- All level fractions are at most one. -/
theorem funnelSizes_num_le_den (B : Nat) :
    ∀ q ∈ funnelSizes B, 0 ≤ q.num ∧ q.num ≤ (q.den : Int) := by
  intro q hq
  unfold funnelSizes at hq
  split at hq
  · fin_cases hq <;> exact ⟨by decide, by decide⟩
  · fin_cases hq <;> exact ⟨by decide, by decide⟩

/-- Structure of the levels built by the allocation loop for a positive
bucket size within the 32-bit range. -/
theorem funnelAllocLevels_spec2 (N : Nat) (b : Int) (hb : 1 ≤ b)
    (hbound : 2 * (N : Int) + 2 * b < 2 ^ 32) :
    ∀ qs : List ℚ, (∀ q ∈ qs, 0 ≤ q.num ∧ q.num ≤ (q.den : Int)) →
      ∀ lvls alloc, funnelAllocLevels N b qs = .ok (lvls, alloc) →
        0 ≤ alloc ∧
        ∀ lvl ∈ lvls,
          1 ≤ lvl.numBuckets ∧ lvl.numBuckets < 2 ^ 32 ∧
          lvl.slots = List.replicate (lvl.numBuckets * b).toNat EMPTY ∧
          lvl.mask < lvl.numBuckets.toNat ∧
          (0 < lvl.mask ∨ 0 < uint32Cast lvl.numBuckets) := by
  intro qs
  induction qs with
  | nil =>
    intro _ lvls alloc h
    rw [funnelAllocLevels] at h
    cases h
    exact ⟨le_refl _, fun lvl hl => absurd hl (List.not_mem_nil _)⟩
  | cons q rest ih =>
    intro hq lvls alloc h
    obtain ⟨hq0, hq1⟩ := hq q (List.mem_cons_self _ _)
    rw [funnelAllocLevels] at h
    simp only [] at h
    rw [if_neg (show ¬ b = 0 by omega)] at h
    have hsize0 : 0 ≤ goTruncMulNat q N := by
      unfold goTruncMulNat
      apply Int.tdiv_nonneg
      · exact mul_nonneg hq0 (by exact_mod_cast Nat.zero_le N)
      · exact_mod_cast Nat.zero_le _
    have hsize0N : goTruncMulNat q N ≤ (N : Int) := by
      unfold goTruncMulNat
      have hden : (0 : Int) < (q.den : Int) := by exact_mod_cast q.den_pos
      have hmono := tdiv_le_tdiv_right_of_nonneg (q.num * N) ((q.den : Int) * N)
        (q.den : Int) (mul_nonneg hq0 (by exact_mod_cast Nat.zero_le N))
        (mul_le_mul_of_nonneg_right hq1 (by exact_mod_cast Nat.zero_le N)) hden
      rw [Int.mul_tdiv_cancel_left _ (by omega)] at hmono
      exact hmono
    generalize hg0 : goTruncMulNat q N = size0 at h hsize0 hsize0N
    have hsz1b : b ≤ (if size0 < b then b else size0) := by
      split <;> omega
    have hsz1N : (if size0 < b then b else size0) ≤ (N : Int) + b := by
      split <;> omega
    generalize hg1 : (if size0 < b then b else size0 : Int) = size1 at h hsz1b hsz1N
    have hn01 : 1 ≤ size1.tdiv b := one_le_tdiv_of_le size1 b (by omega) hsz1b
    have hn0le : size1.tdiv b ≤ size1 :=
      tdiv_le_self_of_nonneg size1 b (by omega) (by omega)
    generalize hg2 : size1.tdiv b = numB0 at h hn01 hn0le
    have hp1 : 1 ≤ goNextPow2 numB0 := goNextPow2_pos numB0
    have hplt : goNextPow2 numB0 < 2 * numB0 := goNextPow2_lt numB0 hn01
    generalize hg3 : goNextPow2 numB0 = p at h hp1 hplt
    have hnB1 : 1 ≤ (if p ≤ (numB0 * 5).tdiv 4 then p else numB0) := by
      split <;> omega
    have hnBlt : (if p ≤ (numB0 * 5).tdiv 4 then p else numB0) < 2 ^ 32 := by
      split <;> omega
    generalize hg4 : (if p ≤ (numB0 * 5).tdiv 4 then p else numB0 : Int) = numB
      at h hnB1 hnBlt
    rw [if_neg (show ¬ numB * b < 0 by nlinarith)] at h
    obtain ⟨r, hr, hpure⟩ := exceptBind_elim h
    obtain ⟨lvls2, alloc2⟩ := r
    cases hpure
    obtain ⟨halloc2, hlvls2⟩ := ih (fun x hx => hq x (List.mem_cons_of_mem _ hx))
      lvls2 alloc2 hr
    constructor
    · nlinarith
    · intro lvl hl
      rcases List.mem_cons.mp hl with rfl | hl2
      · refine ⟨hnB1, hnBlt, rfl, ?_, ?_⟩
        · show (if 0 < numB ∧ numB.toNat &&& (numB.toNat - 1) = 0
              then uint32Cast (numB - 1) else 0) < numB.toNat
          split
          · unfold uint32Cast
            rw [Int.emod_eq_of_lt (by omega) (by omega)]
            omega
          · omega
        · by_cases hc : 0 < numB ∧ numB.toNat &&& (numB.toNat - 1) = 0
          · by_cases h2 : 2 ≤ numB
            · refine Or.inl ?_
              show 0 < (if 0 < numB ∧ numB.toNat &&& (numB.toNat - 1) = 0
                then uint32Cast (numB - 1) else 0)
              rw [if_pos hc]
              unfold uint32Cast
              rw [Int.emod_eq_of_lt (by omega) (by omega)]
              omega
            · refine Or.inr ?_
              show 0 < uint32Cast numB
              unfold uint32Cast
              rw [Int.emod_eq_of_lt (by omega) (by omega)]
              omega
          · refine Or.inr ?_
            show 0 < uint32Cast numB
            unfold uint32Cast
            rw [Int.emod_eq_of_lt (by omega) (by omega)]
            omega
      · exact hlvls2 lvl hl2

/-- Any well-formed all-EMPTY funnel table satisfies the invariant. -/
theorem FInvP_empty (ht : FunnelHashTable) (hwf : funnelWF ht = true)
    (hlv : ∀ lvl ∈ ht.levels, ∃ n, lvl.slots = List.replicate n EMPTY)
    (hsp : ∃ m, ht.special = List.replicate m EMPTY) : FInvP ht := by
  intro k hk
  have hkE : k ≠ EMPTY := by
    have hE : EMPTY = -1 := rfl
    omega
  have hcnt : ∀ i, i < ht.levels.length → countK k (lvlF ht i).slots = 0 := by
    intro i hi
    obtain ⟨n, hn⟩ := hlv (lvlF ht i) (List.get?_mem (listGetQ_eq_getD _ _ _ hi))
    rw [hn]
    exact countK_replicate k hkE n
  have hspc : countK k ht.special = 0 := by
    obtain ⟨m, hm⟩ := hsp
    rw [hm]
    exact countK_replicate k hkE m
  have hsum : (ht.levels.map (fun lvl => countK k lvl.slots)).sum = 0 := by
    apply List.sum_eq_zero
    intro x hx
    obtain ⟨lvl, hlvmem, rfl⟩ := List.mem_map.mp hx
    obtain ⟨n, hn⟩ := hlv lvl hlvmem
    rw [hn]
    exact countK_replicate k hkE n
  refine ⟨?_, ?_, ?_, ?_⟩
  · unfold funnelKeyCount
    omega
  · intro j p hj hp hpk
    exfalso
    have h1 := countK_pos k (lvlF ht j).slots p hp hpk
    have h0 := hcnt j hj
    omega
  · intro j hj hhk i hij
    exfalso
    obtain ⟨p, hpmem, hpk⟩ := listHasKey_true_mem hhk
    have hplt := bucketPs_lt ht hwf j hj k p hpmem
    have h1 := countK_pos k (lvlF ht j).slots p hplt hpk
    have h0 := hcnt j hj
    omega
  · intro hsp1
    exfalso
    omega

/-- The fresh funnel table (positive bucket size, 32-bit range) is
well-formed and satisfies the invariant. -/
theorem newFunnel_WF_FInv (N : Nat) (b : Int) (delta : ℚ)
    (ht : FunnelHashTable) (hb : 1 ≤ b)
    (hbound : 2 * (N : Int) + 2 * b < 2 ^ 32)
    (h : newFunnelHashTable N b delta = .ok ht) :
    funnelWF ht = true ∧ FInvP ht := by
  unfold newFunnelHashTable at h
  split at h
  · cases h
  · obtain ⟨r, hr, h⟩ := exceptBind_elim h
    obtain ⟨lvls, alloc⟩ := r
    cases h
    obtain ⟨halloc, hlvls⟩ := funnelAllocLevels_spec2 N b hb hbound _
      (funnelSizes_num_le_den _) lvls alloc hr
    have hs1a : (1 : Int) ≤ (if (N : Int) - alloc < 1 then 1 else (N : Int) - alloc) := by
      split <;> omega
    have hs1b : (if (N : Int) - alloc < 1 then 1 else (N : Int) - alloc) < 2 ^ 31 := by
      split <;> omega
    generalize hg1 : (if (N : Int) - alloc < 1 then 1 else (N : Int) - alloc : Int) = s1
      at hs1a hs1b ⊢
    have hp1 : 1 ≤ goNextPow2 s1 := goNextPow2_pos s1
    have hplt : goNextPow2 s1 < 2 * s1 := goNextPow2_lt s1 hs1a
    generalize hg2 : goNextPow2 s1 = p at hp1 hplt ⊢
    have hssa : 1 ≤ (if p ≤ (s1 * 5).tdiv 4 then p else s1) := by
      split <;> omega
    have hssb : (if p ≤ (s1 * 5).tdiv 4 then p else s1) < 2 ^ 32 := by
      split <;> omega
    generalize hg3 : (if p ≤ (s1 * 5).tdiv 4 then p else s1 : Int) = ss at hssa hssb ⊢
    have hwf2 : funnelWF {
        levels := lvls,
        special := List.replicate ss.toNat EMPTY,
        b := b,
        size := 0,
        capacity := capacityFormula delta N } = true := by
      unfold funnelWF
      simp only [Bool.and_eq_true, List.all_eq_true, Bool.or_eq_true,
        decide_eq_true_eq, List.length_replicate]
      refine ⟨⟨⟨hb, ?_⟩, by omega⟩, by omega⟩
      intro lvl hmem
      obtain ⟨h1, h2, h3, h4, h5⟩ := hlvls lvl hmem
      refine ⟨⟨⟨by omega, ?_⟩, h4⟩, by simpa using h5⟩
      rw [h3, List.length_replicate]
    refine ⟨hwf2, FInvP_empty _ hwf2 ?_ ?_⟩
    · intro lvl hmem
      obtain ⟨-, -, h3, -, -⟩ := hlvls lvl hmem
      exact ⟨_, h3⟩
    · exact ⟨_, rfl⟩

/-- Levels with neither the key nor an EMPTY slot on the probe path make the
canonical `Insert` level loop fail. -/
theorem funnelLevelFind_eq_none {ht : FunnelHashTable} {key : Int} :
    ∀ {i fuel : Nat},
      (∀ idx, i ≤ idx → idx < i + fuel →
        listHasKey (lvlF ht idx).slots key (bucketPs ht.b.toNat (lvlF ht idx) key) = false ∧
        scanEmpty (lvlF ht idx).slots (bucketPs ht.b.toNat (lvlF ht idx) key) = none) →
      funnelLevelFind ht key i fuel = none := by
  intro i fuel
  induction fuel generalizing i with
  | zero => intro _; rfl
  | succ fuel ih =>
    intro h
    obtain ⟨hk, he⟩ := h i (le_refl _) (by omega)
    rw [funnelLevelFind, hk, he]
    simp only [Bool.false_eq_true, if_false]
    exact ih (fun idx h1 h2 => h idx (by omega) (by omega))

/-- A level holding the key, preceded only by levels with neither the key
nor an EMPTY probe slot, makes the canonical `Insert` level loop report the
key as present. -/
theorem funnelLevelFind_eq_inl {ht : FunnelHashTable} {key : Int} :
    ∀ {i fuel j₀ : Nat}, i ≤ j₀ → j₀ < i + fuel →
      listHasKey (lvlF ht j₀).slots key (bucketPs ht.b.toNat (lvlF ht j₀) key) = true →
      (∀ idx, i ≤ idx → idx < j₀ →
        listHasKey (lvlF ht idx).slots key (bucketPs ht.b.toNat (lvlF ht idx) key) = false ∧
        scanEmpty (lvlF ht idx).slots (bucketPs ht.b.toNat (lvlF ht idx) key) = none) →
      funnelLevelFind ht key i fuel = some (.inl ()) := by
  intro i fuel
  induction fuel generalizing i with
  | zero => intro j₀ h1 h2 _ _; omega
  | succ fuel ih =>
    intro j₀ h1 h2 hhas hpre
    rcases Nat.eq_or_lt_of_le h1 with rfl | hlt
    · rw [funnelLevelFind, hhas]
      rfl
    · obtain ⟨hk, he⟩ := hpre i (le_refl _) hlt
      rw [funnelLevelFind, hk, he]
      simp only [Bool.false_eq_true, if_false]
      exact ih (by omega) (by omega) hhas (fun idx hg hl => hpre idx (by omega) hl)

/-- A true result of the canonical `Contains` level loop names a level whose
bucket scan succeeds. -/
theorem funnelLevelHas_true {ht : FunnelHashTable} {key : Int} :
    ∀ {i fuel : Nat}, funnelLevelHas ht key i fuel = true →
      ∃ i₀, i ≤ i₀ ∧ i₀ < i + fuel ∧
        scanContains (lvlF ht i₀).slots key (bucketPs ht.b.toNat (lvlF ht i₀) key) = true := by
  intro i fuel
  induction fuel generalizing i with
  | zero => intro h; cases h
  | succ fuel ih =>
    intro h
    rw [funnelLevelHas, Bool.or_eq_true] at h
    rcases h with h | h
    · exact ⟨i, le_refl _, by omega, h⟩
    · obtain ⟨i₀, h1, h2, h3⟩ := ih h
      exact ⟨i₀, by omega, by omega, h3⟩

/-- A true canonical funnel `Contains` verdict exhibits a stored copy. -/
theorem funnelCanon_count_pos (ht : FunnelHashTable) (k : Int)
    (hwf : funnelWF ht = true) (hc : funnelContainsCanon ht k = true) :
    1 ≤ funnelKeyCount ht k := by
  unfold funnelContainsCanon at hc
  rw [Bool.or_eq_true] at hc
  unfold funnelKeyCount
  rcases hc with h | h
  · obtain ⟨i₀, -, h2, h3⟩ := funnelLevelHas_true h
    obtain ⟨p, hpmem, hpk⟩ := scanContains_true_mem h3
    have hplt := bucketPs_lt ht hwf i₀ (by omega) k p hpmem
    have h1 := countK_pos k (lvlF ht i₀).slots p hplt hpk
    have hge := le_sum_map (fun lvl => countK k lvl.slots) defaultLevel
      ht.levels i₀ (by omega)
    simp only [] at hge
    unfold lvlF at h1
    omega
  · obtain ⟨p, hpmem, hpk⟩ := scanContains_true_mem h
    have hplt := specialPs_lt ht hwf k p hpmem
    have h1 := countK_pos k ht.special p hplt hpk
    omega

/-- On a well-formed invariant-satisfying table that is not at capacity,
inserting a key that `Contains` reports present returns success and leaves
the table unchanged. -/
theorem funnelInsert_present_noop (ht : FunnelHashTable) (k : Int)
    (hwf : funnelWF ht = true) (hk : 0 ≤ k) (hinv : FInvP ht)
    (hc : funnelContainsCanon ht k = true) (hcap : ht.size < ht.capacity) :
    funnelInsert ht k = .ok (ht, none) := by
  obtain ⟨hA, hB, hC, hD⟩ := hinv k hk
  have hpos := funnelCanon_count_pos ht k hwf hc
  rw [funnelInsert_eq ht k hwf, if_neg (by omega)]
  rcases Nat.lt_or_ge (countK k ht.special) 1 with hsplt | hspge
  · have hsum : 1 ≤ (ht.levels.map (fun lvl => countK k lvl.slots)).sum := by
      unfold funnelKeyCount at hpos
      omega
    obtain ⟨j₀, hj₀, hcnt⟩ := sum_map_pos _ defaultLevel ht.levels hsum
    obtain ⟨p, hp, hpk⟩ := countK_pos_mem hcnt
    have hmemB := hB j₀ p hj₀ hp hpk
    have hhk : listHasKey (lvlF ht j₀).slots k (bucketPs ht.b.toNat (lvlF ht j₀) k)
        = true := mem_listHasKey hmemB hpk
    have hex : ∃ i, i < ht.levels.length ∧
        listHasKey (lvlF ht i).slots k (bucketPs ht.b.toNat (lvlF ht i) k) = true :=
      ⟨j₀, hj₀, hhk⟩
    have hspec := Nat.find_spec hex
    have hmin : ∀ m, m < Nat.find hex →
        ¬ (m < ht.levels.length ∧
          listHasKey (lvlF ht m).slots k (bucketPs ht.b.toNat (lvlF ht m) k) = true) :=
      fun m hm => Nat.find_min hex hm
    generalize hgi : Nat.find hex = i₀ at hspec hmin
    obtain ⟨hi₀len, hi₀has⟩ := hspec
    have hfind : funnelLevelFind ht k 0 ht.levels.length = some (.inl ()) := by
      refine funnelLevelFind_eq_inl (Nat.zero_le _) (by omega) hi₀has ?_
      intro idx hg hl
      constructor
      · have h2 := hmin idx hl
        by_contra hW
        rw [Bool.not_eq_false] at hW
        exact h2 ⟨by omega, hW⟩
      · exact hC i₀ hi₀len hi₀has idx hl
    rw [hfind]
  · obtain ⟨hDlv, hDins⟩ := hD hspge
    have hnf : funnelLevelFind ht k 0 ht.levels.length = none := by
      apply funnelLevelFind_eq_none
      intro idx h0 hlt
      refine ⟨?_, hDlv idx (by omega)⟩
      by_contra hW
      rw [Bool.not_eq_false] at hW
      obtain ⟨p, hpmem, hpk⟩ := listHasKey_true_mem hW
      have hplt := bucketPs_lt ht hwf idx (by omega) k p hpmem
      have h1 := countK_pos k (lvlF ht idx).slots p hplt hpk
      have hge := le_sum_map (fun lvl => countK k lvl.slots) defaultLevel
        ht.levels idx (by omega)
      simp only [] at hge
      unfold funnelKeyCount at hA
      unfold lvlF at h1
      omega
    rw [hnf]
    simp only []
    rw [hDins]

/-- Whether an operation is an `Insert`. -/
def opIsIns : TOp → Bool
  | .ins _ => true
  | .rem _ => false

/-- Tombstone-freeness of a funnel table. -/
def noTombF (ht : FunnelHashTable) : Prop :=
  (∀ lvl ∈ ht.levels, ∀ p : Nat, lvl.slots.getD p 0 ≠ TOMBSTONE) ∧
  (∀ p : Nat, ht.special.getD p 0 ≠ TOMBSTONE)

/-- The occupancy-accounting invariant of insert-only funnel histories:
the counter equals the number of occupied slots and no slot is a
tombstone. -/
def FOccP (ht : FunnelHashTable) : Prop :=
  ht.size = (funnelOcc ht : Int) ∧ noTombF ht

/-- `getD` on a replicated list avoids any value distinct from the element
and the default. -/
theorem replicate_getD_ne (v d w : Int) (hv : v ≠ w) (hd : d ≠ w) (n p : Nat) :
    (List.replicate n v).getD p d ≠ w := by
  by_cases hp : p < n
  · rw [List.getD_eq_getElem?_getD, List.getElem?_replicate, if_pos hp]
    simpa using hv
  · rw [List.getD_eq_getElem?_getD,
      List.getElem?_eq_none_iff.mpr (by simpa using hp)]
    simpa using hd

/-- Any all-EMPTY funnel table with zero size satisfies the occupancy
invariant. -/
theorem FOccP_empty (ht : FunnelHashTable) (hsz : ht.size = 0)
    (hlv : ∀ lvl ∈ ht.levels, ∃ n, lvl.slots = List.replicate n EMPTY)
    (hsp : ∃ m, ht.special = List.replicate m EMPTY) : FOccP ht := by
  obtain ⟨m, hm⟩ := hsp
  have hsum : (ht.levels.map (fun lvl => countOcc lvl.slots)).sum = 0 := by
    apply List.sum_eq_zero
    intro x hx
    obtain ⟨lvl, hlvmem, rfl⟩ := List.mem_map.mp hx
    obtain ⟨n, hn⟩ := hlv lvl hlvmem
    rw [hn]
    exact countOcc_replicate n
  refine ⟨?_, ?_, ?_⟩
  · unfold funnelOcc
    rw [hsum, hm, countOcc_replicate, hsz]
    rfl
  · intro lvl hmem p
    obtain ⟨n, hn⟩ := hlv lvl hmem
    rw [hn]
    exact replicate_getD_ne _ _ _ (by decide) (by decide) n p
  · intro p
    rw [hm]
    exact replicate_getD_ne _ _ _ (by decide) (by decide) m p

/-- The fresh funnel table satisfies the occupancy invariant. -/
theorem newFunnel_FOcc (N : Nat) (b : Int) (delta : ℚ) (ht : FunnelHashTable)
    (hb : 1 ≤ b) (hbound : 2 * (N : Int) + 2 * b < 2 ^ 32)
    (h : newFunnelHashTable N b delta = .ok ht) : FOccP ht := by
  unfold newFunnelHashTable at h
  split at h
  · cases h
  · obtain ⟨r, hr, h⟩ := exceptBind_elim h
    obtain ⟨lvls, alloc⟩ := r
    cases h
    obtain ⟨halloc, hlvls⟩ := funnelAllocLevels_spec2 N b hb hbound _
      (funnelSizes_num_le_den _) lvls alloc hr
    refine FOccP_empty _ rfl ?_ ⟨_, rfl⟩
    intro lvl hmem
    obtain ⟨-, -, h3, -, -⟩ := hlvls lvl hmem
    exact ⟨_, h3⟩

/-- `Insert` of a valid key preserves the occupancy invariant. -/
theorem funnelInsert_FOcc (ht s₂ : FunnelHashTable) (j : Int) (e : Option String)
    (hwf : funnelWF ht = true) (hj : 0 ≤ j)
    (h : funnelInsert ht j = .ok (s₂, e)) (hocc : FOccP ht) : FOccP s₂ := by
  have hE : EMPTY = -1 := rfl
  have hT : TOMBSTONE = -2 := rfl
  obtain ⟨hsz, hntl, hnts⟩ := hocc
  rw [funnelInsert_eq ht j hwf] at h
  by_cases hcap : ht.capacity ≤ ht.size
  · rw [if_pos hcap] at h
    cases h
    exact ⟨hsz, hntl, hnts⟩
  · rw [if_neg hcap] at h
    rcases hfind : funnelLevelFind ht j 0 ht.levels.length with _ | (_ | ⟨i, idx⟩)
    · simp only [hfind] at h
      rcases hscan : scanIns ht.special j (specialPs ht j) with _ | (_ | pos)
      · simp only [hscan] at h
        cases h
        exact ⟨hsz, hntl, hnts⟩
      · simp only [hscan] at h
        cases h
        exact ⟨hsz, hntl, hnts⟩
      · simp only [hscan] at h
        cases h
        obtain ⟨hpmem, hposE⟩ := scanIns_inr_spec hscan
        have hposlt : pos < ht.special.length := specialPs_lt ht hwf j pos hpmem
        have hcoc := countOcc_set j ht.special pos hposlt
        rw [hposE, if_neg (show ¬ (EMPTY ≠ EMPTY ∧ EMPTY ≠ TOMBSTONE) from
            fun hx => hx.1 rfl),
          if_pos (show j ≠ EMPTY ∧ j ≠ TOMBSTONE from ⟨by omega, by omega⟩)] at hcoc
        generalize hs2 : ({ ht with
            special := ht.special.set pos j,
            size := ht.size + 1 } : FunnelHashTable) = s₂
        have hspc : s₂.special = ht.special.set pos j := by
          rw [← hs2]
        have hlv : s₂.levels = ht.levels := by
          rw [← hs2]
        have hsize : s₂.size = ht.size + 1 := by
          rw [← hs2]
        refine ⟨?_, ?_, ?_⟩
        · unfold funnelOcc
          rw [hlv, hspc, hsize]
          unfold funnelOcc at hsz
          omega
        · rw [hlv]
          exact hntl
        · intro p
          rw [hspc]
          by_cases hpp : pos = p
          · subst hpp
            rw [listGetDSetSelf _ _ _ _ hposlt]
            omega
          · rw [listGetDSetNe _ _ _ _ _ hpp]
            exact hnts p
    · simp only [hfind] at h
      cases h
      exact ⟨hsz, hntl, hnts⟩
    · simp only [hfind] at h
      cases h
      obtain ⟨h0i, hi, hkF, hscan, hpre⟩ := funnelLevelFind_inr hfind
      have hilt : i < ht.levels.length := by omega
      obtain ⟨hidxmem, hidxE⟩ := scanEmpty_spec hscan
      have hidxlt : idx < (lvlF ht i).slots.length :=
        bucketPs_lt ht hwf i hilt j idx hidxmem
      have hcoc := countOcc_set j (lvlF ht i).slots idx hidxlt
      rw [hidxE, if_neg (show ¬ (EMPTY ≠ EMPTY ∧ EMPTY ≠ TOMBSTONE) from
          fun hx => hx.1 rfl),
        if_pos (show j ≠ EMPTY ∧ j ≠ TOMBSTONE from ⟨by omega, by omega⟩)] at hcoc
      generalize hnew : ({ lvlF ht i with
          slots := (lvlF ht i).slots.set idx j } : Level) = newlvl
      generalize hs2 : ({ ht with
          levels := ht.levels.set i newlvl,
          size := ht.size + 1 } : FunnelHashTable) = s₂
      have hslots2 : newlvl.slots = (lvlF ht i).slots.set idx j := by
        rw [← hnew]
      have hspc : s₂.special = ht.special := by
        rw [← hs2]
      have hlv : s₂.levels = ht.levels.set i newlvl := by
        rw [← hs2]
      have hsize : s₂.size = ht.size + 1 := by
        rw [← hs2]
      refine ⟨?_, ?_, ?_⟩
      · unfold funnelOcc
        rw [hlv, hspc, hsize]
        have hms := sum_map_set (fun lvl => countOcc lvl.slots) newlvl defaultLevel
          ht.levels i hilt
        simp only [] at hms
        rw [hslots2] at hms
        unfold lvlF at hms hcoc
        unfold funnelOcc at hsz
        omega
      · rw [hlv]
        intro lvl hmem p
        rcases List.mem_or_eq_of_mem_set hmem with hold | rfl
        · exact hntl lvl hold p
        · rw [hslots2]
          by_cases hpp : idx = p
          · subst hpp
            rw [listGetDSetSelf _ _ _ _ hidxlt]
            omega
          · rw [listGetDSetNe _ _ _ _ _ hpp]
            exact hntl (lvlF ht i) (List.get?_mem (listGetQ_eq_getD _ _ _ hilt)) p
      · rw [hspc]
        exact hnts

/-- One guarded insert-only step preserves well-formedness, the slot
invariant and the occupancy invariant. -/
theorem fStep_ins_inv {ht ht' : FunnelHashTable} {op : TOp}
    (hop : (opIsIns op && opKeyNonneg op) = true) (hwf : funnelWF ht = true)
    (hinv : FInvP ht) (hocc : FOccP ht) (h : fStep ht op = .ok ht') :
    funnelWF ht' = true ∧ FInvP ht' ∧ FOccP ht' := by
  rw [Bool.and_eq_true] at hop
  cases op with
  | ins j =>
    rw [fStep] at h
    obtain ⟨p, hp, hpure⟩ := exceptBind_elim h
    obtain ⟨s₂, e⟩ := p
    cases hpure
    have hj : 0 ≤ j := of_decide_eq_true hop.2
    obtain ⟨hwf2, hinv2⟩ := funnelInsert_WF_FInv ht s₂ j e hwf hj hp hinv
    exact ⟨hwf2, hinv2, funnelInsert_FOcc ht s₂ j e hwf hj hp hocc⟩
  | rem j =>
    obtain ⟨h1, -⟩ := hop
    simp [opIsIns] at h1

/-- A guarded insert-only run preserves all three funnel invariants. -/
theorem fRun_ins_inv {ops : List TOp} :
    ∀ {ht s : FunnelHashTable},
      ops.all (fun op => opIsIns op && opKeyNonneg op) = true →
      funnelWF ht = true → FInvP ht → FOccP ht → fRun ht ops = .ok s →
      funnelWF s = true ∧ FInvP s ∧ FOccP s := by
  induction ops with
  | nil =>
    intro ht s _ hwf hinv hocc h
    cases h
    exact ⟨hwf, hinv, hocc⟩
  | cons op ops ih =>
    intro ht s hops hwf hinv hocc h
    rw [List.all_cons, Bool.and_eq_true] at hops
    rw [fRun] at h
    obtain ⟨ht', hstep, h⟩ := exceptBind_elim h
    obtain ⟨hwf', hinv', hocc'⟩ := fStep_ins_inv hops.1 hwf hinv hocc hstep
    exact ih hops.2 hwf' hinv' hocc' h

/-- On a well-formed tombstone-free table whose special array has at least
`capacity` slots, `Insert` never returns the special-array-full internal
error. -/
theorem funnelInsert_no_internal (s : FunnelHashTable) (j : Int)
    (hwf : funnelWF s = true) (hocc : FOccP s)
    (hcap : s.capacity ≤ (s.special.length : Int)) :
    ∀ s₂, funnelInsert s j ≠ .ok (s₂,
      some "special array is full - insertion failed") := by
  obtain ⟨hsz, hntl, hnts⟩ := hocc
  have hsplen : 0 < s.special.length := (funnelWF_spec s hwf).2.2.1
  intro s₂ hins
  rw [funnelInsert_eq s j hwf] at hins
  by_cases hcg : s.capacity ≤ s.size
  · rw [if_pos hcg] at hins
    obtain ⟨-, h2⟩ := Prod.mk.injEq .. ▸ (Except.ok.injEq .. ▸ hins)
    simp at h2
  · rw [if_neg hcg] at hins
    rcases hfind : funnelLevelFind s j 0 s.levels.length with _ | (_ | ⟨i, idx⟩)
    · simp only [hfind] at hins
      rcases hscan : scanIns s.special j (specialPs s j) with _ | (_ | pos)
      · have hfull : ∀ p, p < s.special.length →
            s.special.getD p 0 ≠ EMPTY ∧ s.special.getD p 0 ≠ TOMBSTONE := by
          intro p hp
          have hpmem : p ∈ specialPs s j := by
            unfold specialPs
            exact lastList_complete hsplen hp
          exact ⟨(scanIns_none_spec hscan p hpmem).2, hnts p⟩
        have hocf : countOcc s.special = s.special.length := countOcc_full _ hfull
        unfold funnelOcc at hsz
        omega
      · simp only [hscan] at hins
        obtain ⟨-, h2⟩ := Prod.mk.injEq .. ▸ (Except.ok.injEq .. ▸ hins)
        cases h2
      · simp only [hscan] at hins
        obtain ⟨-, h2⟩ := Prod.mk.injEq .. ▸ (Except.ok.injEq .. ▸ hins)
        cases h2
    · simp only [hfind] at hins
      obtain ⟨-, h2⟩ := Prod.mk.injEq .. ▸ (Except.ok.injEq .. ▸ hins)
      cases h2
    · simp only [hfind] at hins
      obtain ⟨-, h2⟩ := Prod.mk.injEq .. ▸ (Except.ok.injEq .. ▸ hins)
      cases h2

/-- The funnel table of the C9 witness (`N = 100`, `b = 4`,
`delta = 24/25`), whose special array is at least as long as the
capacity. -/
def funnelC9Base : FunnelHashTable :=
  match newFunnelHashTable 100 4 (Rat.divInt 24 25) with
  | .ok ht => ht
  | .error _ => { levels := [], special := [], b := 0, size := 0, capacity := 0 }

/-- C5 (corrected): on every reachable table of either variant (valid
construction followed by a successful guarded run), inserting a key that
`Contains` reports present returns success and leaves the table unchanged
whenever occupancy is below capacity; when occupancy equals capacity the
same insert instead returns the capacity-exceeded error, because the
capacity guard runs before the duplicate check. -/
theorem duplicate_insert (N M : Nat) (b : Int) (dE dF : ℚ)
    (opsE opsF : List TOp) (e0 htE : ElasticHashTable)
    (f0 htF : FunnelHashTable) (k : Int)
    (hN : 9 ≤ N) (hE0 : newElasticHashTable N dE = .ok e0)
    (hgE : opsE.all opKeyNonneg = true) (hrE : eRun e0 opsE = .ok htE)
    (hb : 1 ≤ b) (hM : 2 * (M : Int) + 2 * b < 2 ^ 32)
    (hF0 : newFunnelHashTable M b dF = .ok f0)
    (hgF : opsF.all opKeyNonneg = true) (hrF : fRun f0 opsF = .ok htF)
    (hk : 0 ≤ k)
    (hpE : elasticContains htE k = .ok true)
    (hpF : funnelContains htF k = .ok true) :
    (htE.size < htE.capacity → elasticInsert htE k = .ok (htE, none)) ∧
    (htE.capacity ≤ htE.size → elasticInsert htE k =
      .ok (htE, some "hash table is full (max load reached)")) ∧
    (htF.size < htF.capacity → funnelInsert htF k = .ok (htF, none)) ∧
    (htF.capacity ≤ htF.size → funnelInsert htF k =
      .ok (htF, some "hash table is full")) := by
  obtain ⟨hwfE, hinvE⟩ :=
    eRun_inv hgE (newElastic_WF hN hE0) (newElastic_EInv hE0) hrE
  obtain ⟨hwfF, hinvF⟩ := fRun_inv hgF (newFunnel_WF_FInv M b dF f0 hb hM hF0).1
    (newFunnel_WF_FInv M b dF f0 hb hM hF0).2 hrF
  rw [elasticContains_eq htE k hwfE] at hpE
  have hcE : containsCanon htE k = true := Except.ok.inj hpE
  rw [funnelContains_eq htF k hwfF] at hpF
  have hcF : funnelContainsCanon htF k = true := Except.ok.inj hpF
  refine ⟨?_, ?_, ?_, ?_⟩
  · intro hlt
    rw [elasticInsert_eq htE k hwfE, if_neg (by omega), if_pos hcE]
  · intro hge
    rw [elasticInsert_eq htE k hwfE, if_pos hge]
  · intro hlt
    exact funnelInsert_present_noop htF k hwfF hk hinvF hcF hlt
  · intro hge
    rw [funnelInsert_eq htF k hwfF, if_pos hge]

/-- Witness for C5: both base tables after `Insert(5); Insert(7);
Remove(5)` hold the key 7 below capacity, so inserting 7 again is a
success that changes nothing. -/
theorem duplicate_insert_witness :
    (elasticContains elasticBaseRun 7 = .ok true ∧
     funnelContains funnelBaseRun 7 = .ok true) ∧
    ((elasticBaseRun.size < elasticBaseRun.capacity →
        elasticInsert elasticBaseRun 7 = .ok (elasticBaseRun, none)) ∧
     (elasticBaseRun.capacity ≤ elasticBaseRun.size →
        elasticInsert elasticBaseRun 7 =
          .ok (elasticBaseRun, some "hash table is full (max load reached)")) ∧
     (funnelBaseRun.size < funnelBaseRun.capacity →
        funnelInsert funnelBaseRun 7 = .ok (funnelBaseRun, none)) ∧
     (funnelBaseRun.capacity ≤ funnelBaseRun.size →
        funnelInsert funnelBaseRun 7 =
          .ok (funnelBaseRun, some "hash table is full"))) :=
  ⟨⟨by decide, by decide⟩,
   duplicate_insert 100 100 4 (Rat.divInt 1 4) (Rat.divInt 1 4)
     [.ins 5, .ins 7, .rem 5] [.ins 5, .ins 7, .rem 5]
     elasticBaseTable elasticBaseRun funnelBaseTable funnelBaseRun 7
     (by decide) (by decide) (by decide) (by decide) (by decide) (by decide)
     (by decide) (by decide) (by decide) (by decide) (by decide) (by decide)⟩

/-- C8: in every reachable table state of either variant, each valid key
is stored in at most one slot across all levels and the overflow region,
and a key that `Contains` reports present is stored in exactly one slot. -/
theorem unique_slot_invariant (N M : Nat) (b : Int) (dE dF : ℚ)
    (opsE opsF : List TOp) (e0 htE : ElasticHashTable)
    (f0 htF : FunnelHashTable)
    (hN : 9 ≤ N) (hE0 : newElasticHashTable N dE = .ok e0)
    (hgE : opsE.all opKeyNonneg = true) (hrE : eRun e0 opsE = .ok htE)
    (hb : 1 ≤ b) (hM : 2 * (M : Int) + 2 * b < 2 ^ 32)
    (hF0 : newFunnelHashTable M b dF = .ok f0)
    (hgF : opsF.all opKeyNonneg = true) (hrF : fRun f0 opsF = .ok htF) :
    ∀ k : Int, 0 ≤ k →
      elasticKeyCount htE k ≤ 1 ∧ funnelKeyCount htF k ≤ 1 ∧
      (elasticContains htE k = .ok true → elasticKeyCount htE k = 1) ∧
      (funnelContains htF k = .ok true → funnelKeyCount htF k = 1) := by
  obtain ⟨hwfE, hinvE⟩ :=
    eRun_inv hgE (newElastic_WF hN hE0) (newElastic_EInv hE0) hrE
  obtain ⟨hwfF, hinvF⟩ := fRun_inv hgF (newFunnel_WF_FInv M b dF f0 hb hM hF0).1
    (newFunnel_WF_FInv M b dF f0 hb hM hF0).2 hrF
  intro k hk
  have hcntE := hinvE.1 k hk
  have hcntF := (hinvF k hk).1
  refine ⟨hcntE.1, hcntF, ?_, ?_⟩
  · intro hpE
    rw [elasticContains_eq htE k hwfE] at hpE
    have h1 := containsCanon_count_pos htE k hwfE (Except.ok.inj hpE)
    omega
  · intro hpF
    rw [funnelContains_eq htF k hwfF] at hpF
    have h1 := funnelCanon_count_pos htF k hwfF (Except.ok.inj hpF)
    omega

/-- Witness for C8 at the concrete base runs, key 7. -/
theorem unique_slot_invariant_witness :
    elasticContains elasticBaseRun 7 = .ok true ∧
    (elasticKeyCount elasticBaseRun 7 ≤ 1 ∧
     funnelKeyCount funnelBaseRun 7 ≤ 1 ∧
     (elasticContains elasticBaseRun 7 = .ok true →
       elasticKeyCount elasticBaseRun 7 = 1) ∧
     (funnelContains funnelBaseRun 7 = .ok true →
       funnelKeyCount funnelBaseRun 7 = 1)) :=
  ⟨by decide,
   unique_slot_invariant 100 100 4 (Rat.divInt 1 4) (Rat.divInt 1 4)
     [.ins 5, .ins 7, .rem 5] [.ins 5, .ins 7, .rem 5]
     elasticBaseTable elasticBaseRun funnelBaseTable funnelBaseRun
     (by decide) (by decide) (by decide) (by decide) (by decide) (by decide)
     (by decide) (by decide) (by decide) 7 (by decide)⟩

/-- C9 (corrected): when the final/overflow region holds at least
`capacity` slots, `Insert` never returns the internal-invariant error on a
reachable table — for the elastic variant along any guarded
Insert/Remove history, and for the funnel variant along insert-only
histories (funnel `Insert` skips tombstones, so removals can exhaust the
special array regardless of its size). -/
theorem no_internal_error (N M : Nat) (b : Int) (dE dF : ℚ)
    (opsE opsF : List TOp) (e0 htE : ElasticHashTable)
    (f0 htF : FunnelHashTable) (kE kF : Int)
    (hN : 9 ≤ N) (hE0 : newElasticHashTable N dE = .ok e0)
    (hgE : opsE.all opKeyNonneg = true) (hrE : eRun e0 opsE = .ok htE)
    (hcapE : htE.capacity ≤ ((lvlAt htE 3).length : Int))
    (hb : 1 ≤ b) (hM : 2 * (M : Int) + 2 * b < 2 ^ 32)
    (hF0 : newFunnelHashTable M b dF = .ok f0)
    (hgF : opsF.all (fun op => opIsIns op && opKeyNonneg op) = true)
    (hrF : fRun f0 opsF = .ok htF)
    (hcapF : htF.capacity ≤ (htF.special.length : Int)) :
    (∀ s₂, elasticInsert htE kE ≠ .ok (s₂,
      some "no empty slot found in final level (this should not happen under expected conditions)")) ∧
    (∀ s₂, funnelInsert htF kF ≠ .ok (s₂,
      some "special array is full - insertion failed")) := by
  obtain ⟨hwfE, hinvE⟩ :=
    eRun_inv hgE (newElastic_WF hN hE0) (newElastic_EInv hE0) hrE
  obtain ⟨hwfF, hinvF, hoccF⟩ := fRun_ins_inv hgF
    (newFunnel_WF_FInv M b dF f0 hb hM hF0).1
    (newFunnel_WF_FInv M b dF f0 hb hM hF0).2
    (newFunnel_FOcc M b dF f0 hb hM hF0) hrF
  exact ⟨elasticInsert_no_internal htE kE hwfE hinvE hcapE,
    funnelInsert_no_internal htF kF hwfF hoccF hcapF⟩

/-- Witness for C9: the fresh elastic table (`N = 100`, `delta = 1/4`,
final level 88 ≥ capacity 75) and the fresh funnel table (`N = 100`,
`b = 4`, `delta = 24/25`, special length 4 ≥ capacity 4). -/
theorem no_internal_error_witness :
    (elasticBaseTable.capacity ≤ ((lvlAt elasticBaseTable 3).length : Int) ∧
     funnelC9Base.capacity ≤ ((funnelC9Base.special.length : Nat) : Int)) ∧
    ((∀ s₂, elasticInsert elasticBaseTable 0 ≠ .ok (s₂,
        some "no empty slot found in final level (this should not happen under expected conditions)")) ∧
     (∀ s₂, funnelInsert funnelC9Base 0 ≠ .ok (s₂,
        some "special array is full - insertion failed"))) :=
  ⟨⟨by decide, by decide⟩,
   no_internal_error 100 100 4 (Rat.divInt 1 4) (Rat.divInt 24 25) [] []
     elasticBaseTable elasticBaseTable funnelC9Base funnelC9Base 0 0
     (by decide) (by decide) (by decide) (by decide) (by decide) (by decide)
     (by decide) (by decide) (by decide) (by decide) (by decide)⟩

/-- Fuel-bounded binary logarithm: the largest `e` with `2 ^ e ≤ n`, for
`n ≥ 1` and fuel at least `n`. -/
def natLog2F : Nat → Nat → Nat
  | 0, _ => 0
  | fuel + 1, n => if n < 2 then 0 else natLog2F fuel (n / 2) + 1

/-- Least `k` with `bn ≤ 2 ^ k * an` (fuel-bounded): the negative binary
exponent of the fraction `an / bn < 1`. -/
def f64NegExpN : Nat → Nat → Nat → Nat
  | _, _, 0 => 0
  | an, bn, fuel + 1 => if bn ≤ an then 0 else f64NegExpN (2 * an) bn fuel + 1

/-- A positive binary64 value `m * 2 ^ (e - 52)` with `2 ^ 52 ≤ m ≤ 2 ^ 53`:
the exact model of Go's `float64` in the positive normal range. -/
structure F64 where
  m : Nat
  e : Int

/-- Round the positive rational `an / bn` to binary64
(round-to-nearest, ties-to-even), in the normal range: the semantics of a
Go `float64` operation whose exact result is `an / bn`. -/
def f64OfRatPos (an bn : Nat) : F64 :=
  let e : Int := if bn ≤ an then (natLog2F (an / bn + 1) (an / bn) : Int)
    else -(f64NegExpN an bn 1100 : Int)
  let s : Int := 52 - e
  let pq : Nat × Nat :=
    if 0 ≤ s then (an * 2 ^ s.toNat, bn) else (an, bn * 2 ^ (-s).toNat)
  let d := pq.1 / pq.2
  let r := pq.1 % pq.2
  let mr := if 2 * r < pq.2 then d
    else if pq.2 < 2 * r then d + 1
    else if d % 2 = 0 then d else d + 1
  ⟨mr, e⟩

/-- Binary64 multiplication of positive values: round the exact product to
53 significand bits (round-to-nearest, ties-to-even). -/
def f64Mul (x y : F64) : F64 :=
  let M := x.m * y.m
  let L := natLog2F (M + 1) M
  if L ≤ 52 then ⟨M, x.e + y.e - 52⟩
  else
    let sh := L - 52
    let d := M / 2 ^ sh
    let r := M % 2 ^ sh
    let half := 2 ^ (sh - 1)
    let m3 := if r < half then d else if half < r then d + 1
      else if d % 2 = 0 then d else d + 1
    ⟨m3, x.e + y.e - 52 + (sh : Int)⟩

/-- Go's `int(·)` conversion of a positive binary64 value: truncation
toward zero. -/
def f64ToIntTrunc (x : F64) : Int :=
  if 0 ≤ x.e - 52 then ((x.m * 2 ^ (x.e - 52).toNat : Nat) : Int)
  else ((x.m / 2 ^ (52 - x.e).toNat : Nat) : Int)

/-- `int((1 - delta) * float64(N))` under Go's binary64 semantics for
in-range `delta` (the exact value of the `float64` argument) and positive
results in the normal range: `1 - delta` rounds once (IEEE subtraction of
the representable operands `1` and `delta`), `float64(N)` rounds once, the
product rounds once, and `int` truncates.  Compare `capacityFormula`, the
same computation in exact rational arithmetic. -/
def goF64Capacity (delta : ℚ) (N : Nat) : Int :=
  let an := ((delta.den : Int) - delta.num).toNat
  let bn := delta.den
  if an = 0 then 0
  else if N = 0 then 0
  else f64ToIntTrunc (f64Mul (f64OfRatPos an bn) (f64OfRatPos N 1))

/-- The program's float64 capacity computation exceeds
`floor((1 - delta) * N)` at valid deltas: for `delta = 2 ^ (-60)` (an
exactly representable double) and `N = 10`, `1 - delta` rounds up to `1.0`,
so Go computes capacity 10, while the exact floor is 9 — the spec's
`capacity = floor((1 - delta) * N)` identity is false of the program.  (On
the dyadic deltas of every concrete scenario, such as `1/4` and `15/16`,
the two computations agree.) -/
theorem capacity_float64_divergence :
    deltaOutOfRange (Rat.divInt 1 (2 ^ 60)) = false ∧
    goF64Capacity (Rat.divInt 1 (2 ^ 60)) 10 = 10 ∧
    capacityFormula (Rat.divInt 1 (2 ^ 60)) 10 = 9 ∧
    ⌊(1 - Rat.divInt 1 (2 ^ 60)) * ((10 : ℕ) : ℚ)⌋ = 9 ∧
    goF64Capacity (Rat.divInt 1 4) 100 = capacityFormula (Rat.divInt 1 4) 100 ∧
    goF64Capacity (Rat.divInt 15 16) 16 = capacityFormula (Rat.divInt 15 16) 16 :=
  ⟨by decide, by decide, by decide,
   by rw [← capacityFormula_eq_floor _ _ (by decide)]; decide,
   by decide, by decide⟩

/-- The funnel table of the capacity-invariant witness at a small `N`
(`N = 8`, `b = 4`, `delta = 1/4`) — a live funnel state whose elastic
counterpart would panic. -/
def funnelSmallBase : FunnelHashTable :=
  match newFunnelHashTable 8 4 (Rat.divInt 1 4) with
  | .ok ht => ht
  | .error _ => { levels := [], special := [], b := 0, size := 0, capacity := 0 }

/-- `funnelSmallBase` after `Insert(0)`. -/
def funnelSmallRun : FunnelHashTable :=
  match fRun funnelSmallBase [.ins 0] with
  | .ok ht => ht
  | .error _ => { levels := [], special := [], b := 0, size := 0, capacity := 0 }

/-- C7 (corrected): along every successful operation sequence on a table of
either variant — with independent parameters per variant — the occupancy
counter never exceeds the capacity, and the capacity is the constant the
constructor computed as `int((1 - delta) * float64(N))`, embedded exactly as
`capacityFormula`; the spec's `floor((1 - delta) * N)` identity holds for
the exact value of that expression but not for the program's binary64
computation at every valid delta. -/
theorem size_le_capacity (N M : Nat) (b : Int) (dE dF : ℚ)
    (opsE opsF : List TOp) (e0 htE : ElasticHashTable)
    (f0 htF : FunnelHashTable)
    (hE0 : newElasticHashTable N dE = .ok e0) (hrE : eRun e0 opsE = .ok htE)
    (hF0 : newFunnelHashTable M b dF = .ok f0) (hrF : fRun f0 opsF = .ok htF) :
    elasticSize htE ≤ elasticCapacity htE ∧
    elasticCapacity htE = capacityFormula dE N ∧
    funnelSize htF ≤ funnelCapacity htF ∧
    funnelCapacity htF = capacityFormula dF M := by
  obtain ⟨hdE, hsz0E, hcapE⟩ := newElastic_spec hE0
  obtain ⟨hdF, hsz0F, hcapF⟩ := newFunnel_spec hF0
  have hnnE := capacityFormula_nonneg N hdE
  have hnnF := capacityFormula_nonneg M hdF
  have h1 := @eRun_size_le _ e0 _ (by omega) hrE
  have h2 := @fRun_size_le _ f0 _ (by omega) hrF
  refine ⟨h1.1, ?_, h2.1, ?_⟩
  · show htE.capacity = _
    rw [h1.2, hcapE]
  · show htF.capacity = _
    rw [h2.2, hcapF]

/-- Witness for C7 with decoupled parameters: the elastic run at `N = 100`
and the funnel run at `N = 8` (where the elastic constructor makes a
zero-width level, so only independent parameters cover it). -/
theorem size_le_capacity_witness :
    (newElasticHashTable 100 (Rat.divInt 1 4) = .ok elasticBaseTable ∧
     eRun elasticBaseTable [.ins 5, .ins 7, .rem 5] = .ok elasticBaseRun ∧
     newFunnelHashTable 8 4 (Rat.divInt 1 4) = .ok funnelSmallBase ∧
     fRun funnelSmallBase [.ins 0] = .ok funnelSmallRun) ∧
    (elasticSize elasticBaseRun ≤ elasticCapacity elasticBaseRun ∧
     elasticCapacity elasticBaseRun = capacityFormula (Rat.divInt 1 4) 100 ∧
     funnelSize funnelSmallRun ≤ funnelCapacity funnelSmallRun ∧
     funnelCapacity funnelSmallRun = capacityFormula (Rat.divInt 1 4) 8) :=
  ⟨⟨by decide, by decide, by decide, by decide⟩,
   size_le_capacity 100 8 4 (Rat.divInt 1 4) (Rat.divInt 1 4)
     [.ins 5, .ins 7, .rem 5] [.ins 0]
     elasticBaseTable elasticBaseRun funnelSmallBase funnelSmallRun
     (by decide) (by decide) (by decide) (by decide)⟩
